import Mathlib

/-!
# Sequence sketching utilities: embedding and verified properties

A shallow embedding of the core utilities of the tensor-sketching repository
(`src/util/utils.hpp`, `src/util/spearman.hpp`, `src/sketch/hash_weighted.hpp`,
`src/sequence/sequence_generator.hpp`) and proofs of their properties.

Conventions of the embedding:
* `std::vector<T>` is a `List`; `size_t` values that cannot overflow are `Nat`;
  values of the k-mer type are `Nat` reduced modulo `2 ^ w` at every store;
* a failing `assert`, an out-of-bounds access, a division by zero and the read
  of a variable that was never assigned end the run: the embedded function
  returns `none` (or an error value) there;
* `double` arithmetic is arithmetic in a field (the reals in the theorems);
  the definitions whose names end in `64` compute in binary64 instead (`F64`),
  every operation rounded to nearest, ties to even;
* the outcomes of the random draws of the sequence generator are arguments of
  the embedded generator;
* a `while` loop takes a bound on the number of its iterations, and the run
  has no result when the loop has not ended within the bound.
-/

set_option autoImplicit false

namespace ts

/-! ## Embedding of the source -/

deriving instance DecidableEq for Except

/-- A `for` loop over a vector whose body may fail: the first failure ends the
loop. -/
def for_each {σ ε β : Type} (body : σ → β → Except ε σ) : σ → List β → Except ε σ
  | st, [] => Except.ok st
  | st, x :: xs =>
    match body st x with
    | Except.error e => Except.error e
    | Except.ok st1 => for_each body st1 xs

/-- The body of the inner loop of `edit_distance` for one symbol `c2` of `s2`
(at 0-based column `j`), given the current symbol `c1` of `s1`. The state is
`(costs, corner, j)`. -/
def edit_distance_inner {α : Type} [DecidableEq α] (c1 : α)
    (st : List Nat × Nat × Nat) (c2 : α) : List Nat × Nat × Nat :=
  let costs := st.1
  let corner := st.2.1
  let j := st.2.2
  let upper := costs.getD (j + 1) 0
  let costs1 :=
    if c1 = c2 then
      costs.set (j + 1) corner
    else
      let t := if upper < corner then upper else corner
      costs.set (j + 1) ((if costs.getD j 0 < t then costs.getD j 0 else t) + 1)
  (costs1, upper, j + 1)

/-- The body of the outer loop of `edit_distance` for one symbol `c1` of `s1`.
The state is `(costs, i)`. -/
def edit_distance_outer {α : Type} [DecidableEq α] (s2 : List α)
    (st : List Nat × Nat) (c1 : α) : List Nat × Nat :=
  let costs0 := st.1.set 0 (st.2 + 1)
  let corner := st.2
  let r := s2.foldl (edit_distance_inner c1) (costs0, corner, 0)
  (r.1, st.2 + 1)

/-- Embedding of `edit_distance` (src/util/utils.hpp, lines 179-217): the
single-row dynamic program. -/
def edit_distance {α : Type} [DecidableEq α] (s1 s2 : List α) : Nat :=
  let m := s1.length
  let n := s2.length
  if m = 0 then n
  else if n = 0 then m
  else
    let costs := List.range (n + 1)
    let r := s1.foldl (edit_distance_outer s2) (costs, 0)
    r.1.getD n 0

/-- The standard recursive definition of the Levenshtein distance. -/
def lev {α : Type} [DecidableEq α] : List α → List α → Nat
  | [], t => t.length
  | a :: s, [] => (a :: s).length
  | a :: s, b :: t =>
    if a = b then lev s t
    else 1 + min (lev s (b :: t)) (min (lev (a :: s) t) (lev s t))

/-- One single-symbol edit: an insertion, a deletion or a substitution at any
position of the sequence. -/
inductive EditStep {α : Type} : List α → List α → Prop
  | ins (l r : List α) (x : α) : EditStep (l ++ r) (l ++ x :: r)
  | del (l r : List α) (x : α) : EditStep (l ++ x :: r) (l ++ r)
  | sub (l r : List α) (x y : α) : EditStep (l ++ x :: r) (l ++ y :: r)

/-- The relation `EditsTo n s t`: `n` single-symbol edits turn `s` into `t`. -/
inductive EditsTo {α : Type} : Nat → List α → List α → Prop
  | done (s : List α) : EditsTo 0 s s
  | step {n : Nat} {s t u : List α} : EditStep s t → EditsTo n t u → EditsTo (n + 1) s u

/-- The entries `lev p (y₁ :: q)`, `lev p (y₂ :: y₁ :: q)`, ... of the row of the
distance table that belongs to `p`, for the symbols `y₁, y₂, ...` of `s`. -/
def levRowTail {α : Type} [DecidableEq α] (p : List α) : List α → List α → List Nat
  | _, [] => []
  | q, y :: ys => lev p (y :: q) :: levRowTail p (y :: q) ys

/-- The row of the distance table that belongs to `p`, starting at column `q`. -/
def levRow {α : Type} [DecidableEq α] (p q s : List α) : List Nat :=
  lev p q :: levRowTail p q s

/-- The ways in which a run of `WeightedMinHash::compute` can end without a
sketch: the `std::invalid_argument` exception with its message, or undefined
behaviour (an access outside a vector, or the read of `min_char` before any
assignment). -/
inductive ComputeError where
  | invalid_argument (what : String) : ComputeError
  | undefined_behaviour : ComputeError
  deriving DecidableEq, Repr

/-- The state of a `WeightedMinHash<T>` instance. The members `set_size`,
`sketch_dim` and `hashes` are inherited from `HashBase<T>` (hash_base.hpp),
`max_len` is the private member of `WeightedMinHash`. -/
structure WeightedMinHash where
  set_size : Nat
  sketch_dim : Nat
  hashes : List (List Nat)
  max_len : Nat
  deriving DecidableEq, Repr

/-- The body of the loop over the k-mers in `WeightedMinHash::compute`
(hash_weighted.hpp, lines 56-63) for sketch component `si`. The state is
`(min_rank, min_char, cnts)`; `min_char` is `none` until it is first assigned. -/
def WeightedMinHash.compute_kmer (h : WeightedMinHash) (si : Nat)
    (st : Nat × Option Nat × List Nat) (s : Nat) :
    Except ComputeError (Nat × Option Nat × List Nat) :=
  match st.2.2[s]? with
  | none => Except.error ComputeError.undefined_behaviour
  | some c =>
    match h.hashes[si]? with
    | none => Except.error ComputeError.undefined_behaviour
    | some table =>
      match table[s + c * h.set_size]? with
      | none => Except.error ComputeError.undefined_behaviour
      | some r =>
        let cnts := st.2.2.set s (c + 1)
        if r < st.1 then Except.ok (r, some s, cnts)
        else Except.ok (st.1, st.2.1, cnts)

/-- The body of the loop over the sketch components in
`WeightedMinHash::compute` (hash_weighted.hpp, lines 52-65): the value stored
in `sketch[si]`. -/
def WeightedMinHash.compute_component (h : WeightedMinHash) (kmers : List Nat) (si : Nat) :
    Except ComputeError Nat :=
  match h.hashes[0]? with
  | none => Except.error ComputeError.undefined_behaviour
  | some table0 =>
    match for_each (h.compute_kmer si)
        (table0.length + 1, none, List.replicate h.set_size 0) kmers with
    | Except.error e => Except.error e
    | Except.ok st =>
      match st.2.1 with
      | none => Except.error ComputeError.undefined_behaviour
      | some min_char => Except.ok min_char

/-- Embedding of `WeightedMinHash::compute(const std::vector<T> &kmers)`
(hash_weighted.hpp, lines 40-69). -/
def WeightedMinHash.compute (h : WeightedMinHash) (kmers : List Nat) :
    Except ComputeError (List Nat) :=
  if kmers.length > h.max_len then
    Except.error (ComputeError.invalid_argument
      ("Sequence too long. Maximum sequence length is " ++ toString h.max_len
        ++ ". Set --max_length to a higher value."))
  else
    let sketch := List.replicate h.sketch_dim 0
    if kmers.isEmpty then Except.ok sketch
    else
      for_each
        (fun sketch si =>
          match h.compute_component kmers si with
          | Except.error e => Except.error e
          | Except.ok min_char => Except.ok (sketch.set si min_char))
        sketch (List.range h.sketch_dim)

/-- The table index of the occurrence at position `p` of `kmers`, in the words
of the specification: the occurrence of symbol `s` that is its `j`-th
repetition (counted from 0) uses table row `s + j * set_size`. -/
def occurrence_index (set_size : Nat) (kmers : List Nat) (p : Nat) : Nat :=
  kmers.getD p 0 + (kmers.take p).count (kmers.getD p 0) * set_size

/-- The rank of the occurrence at position `p` of `kmers` in table `d`:
`hashes[d][s + j * set_size]`. -/
def WeightedMinHash.occurrence_rank (h : WeightedMinHash) (d : Nat) (kmers : List Nat)
    (p : Nat) : Nat :=
  (h.hashes.getD d []).getD (occurrence_index h.set_size kmers p) 0

/-- The instance invariant established by the constructor of `HashBase`: one
table per sketch component, each with `set_size * max_len` entries, every rank
at most the table size. -/
def WeightedMinHash.tables_ok (h : WeightedMinHash) : Prop :=
  h.hashes.length = h.sketch_dim ∧
    ∀ table ∈ h.hashes, table.length = h.set_size * h.max_len ∧ ∀ r ∈ table, r ≤ table.length

/-- An instance with identity tables, as built by `hash_init` in the tests. -/
def identity_instance (set_size sketch_dim max_len : Nat) : WeightedMinHash :=
  { set_size := set_size, sketch_dim := sketch_dim,
    hashes := List.replicate sketch_dim (List.range (set_size * max_len)),
    max_len := max_len }

/-- The loop invariant of the loop over the k-mers, after the k-mers `done`:
`cnts` counts the occurrences seen, and `(min_rank, min_char)` is the earliest
occurrence of smallest rank (`n + 1` and unassigned before the first k-mer). -/
def WeightedMinHash.loop_inv (h : WeightedMinHash) (d n : Nat) (done : List Nat)
    (st : Nat × Option Nat × List Nat) : Prop :=
  st.2.2.length = h.set_size ∧
  (∀ s, s < h.set_size → st.2.2[s]? = some (done.count s)) ∧
  (done = [] → st.1 = n + 1 ∧ st.2.1 = none) ∧
  (done ≠ [] → ∃ p, p < done.length ∧ st.2.1 = some (done.getD p 0) ∧
    st.1 = h.occurrence_rank d done p ∧
    (∀ q, q < done.length → h.occurrence_rank d done p ≤ h.occurrence_rank d done q) ∧
    (∀ q, q < p → h.occurrence_rank d done p < h.occurrence_rank d done q))

/-- The state of a run of `WeightedMinHash::compute`: the instance `*this`
that the method is called on, and the locals `sketch`, `min_char`, `min_rank`
and `cnts`. Every statement of the method is a step on this state; a read of
`this->x` reads `self.x` of the current state, and a statement that assigned
to a member would change `self`. `min_char` is `none` while it is
unassigned. -/
structure ComputeState where
  self : WeightedMinHash
  sketch : List Nat
  min_char : Option Nat
  min_rank : Nat
  cnts : List Nat
  deriving DecidableEq, Repr

/-- The statements of the body of the loop over the k-mers
(hash_weighted.hpp, lines 57-62) for sketch component `si` and k-mer `s`, as a
step on the state of the run: `auto r = this->hashes[si][s + cnts[s] *
this->set_size]`, `cnts[s]++`, and the two assignments under `r < min_rank`. -/
def ComputeState.kmer_step (si : Nat) (st : ComputeState) (s : Nat) :
    Except ComputeError ComputeState :=
  match st.cnts[s]? with
  | none => Except.error ComputeError.undefined_behaviour
  | some c =>
    match st.self.hashes[si]? with
    | none => Except.error ComputeError.undefined_behaviour
    | some table =>
      match table[s + c * st.self.set_size]? with
      | none => Except.error ComputeError.undefined_behaviour
      | some r =>
        let st1 := { st with cnts := st.cnts.set s (c + 1) }
        if r < st1.min_rank then Except.ok { st1 with min_rank := r, min_char := some s }
        else Except.ok st1

/-- The statements of the body of the loop over the sketch components
(hash_weighted.hpp, lines 53-64) for component `si`, as a step on the state of
the run: the declarations of `min_char`, `min_rank` and `cnts`, the loop over
the k-mers, and `sketch[si] = min_char`. -/
def ComputeState.component_step (kmers : List Nat) (st : ComputeState) (si : Nat) :
    Except ComputeError ComputeState :=
  match st.self.hashes[0]? with
  | none => Except.error ComputeError.undefined_behaviour
  | some table0 =>
    let st1 := { st with
      min_char := none
      min_rank := table0.length + 1
      cnts := List.replicate st.self.set_size 0 }
    match for_each (ComputeState.kmer_step si) st1 kmers with
    | Except.error e => Except.error e
    | Except.ok st2 =>
      match st2.min_char with
      | none => Except.error ComputeError.undefined_behaviour
      | some min_char => Except.ok { st2 with sketch := st2.sketch.set si min_char }

/-- The loop `for (size_t si = 0; si < this->sketch_dim; si++)`
(hash_weighted.hpp, line 52) from counter value `si`. The condition reads
`sketch_dim` from the instance of the current state before every iteration.
The result is `none` when `fuel` iterations do not end the loop. -/
def ComputeState.components_loop (kmers : List Nat) :
    Nat → Nat → ComputeState → Option (Except ComputeError ComputeState)
  | 0, si, st =>
    if si < st.self.sketch_dim then none else some (Except.ok st)
  | fuel + 1, si, st =>
    if si < st.self.sketch_dim then
      match st.component_step kmers si with
      | Except.error e => some (Except.error e)
      | Except.ok st1 => ComputeState.components_loop kmers fuel (si + 1) st1
    else some (Except.ok st)

/-- The method call `compute(kmers)` on the instance `h`
(hash_weighted.hpp, lines 40-69), statement by statement on the state of the
run, which starts with `*this = h`. A call that returns gives the instance as
the run left it and the sketch returned. The loop over the sketch components
gets `h.sketch_dim` iterations of fuel; the result is `none` when they do not
end it. `Timer` is a class of static members and not part of the instance. -/
def WeightedMinHash.compute_call (h : WeightedMinHash) (kmers : List Nat) :
    Option (Except ComputeError (WeightedMinHash × List Nat)) :=
  let st0 : ComputeState :=
    { self := h, sketch := [], min_char := none, min_rank := 0, cnts := [] }
  if kmers.length > st0.self.max_len then
    some (Except.error (ComputeError.invalid_argument
      ("Sequence too long. Maximum sequence length is " ++ toString st0.self.max_len
        ++ ". Set --max_length to a higher value.")))
  else
    let st1 := { st0 with sketch := List.replicate st0.self.sketch_dim 0 }
    if kmers.isEmpty then some (Except.ok (st1.self, st1.sketch))
    else
      match ComputeState.components_loop kmers h.sketch_dim 0 st1 with
      | none => none
      | some (Except.error e) => some (Except.error e)
      | some (Except.ok st2) => some (Except.ok (st2.self, st2.sketch))

/-- Two successive calls `compute(kmers)` on one instance: the second call
runs on the instance as the first call left it. When both return, the result
is the instance after the second call and the two sketches returned. -/
def WeightedMinHash.compute_twice (h : WeightedMinHash) (kmers : List Nat) :
    Option (Except ComputeError (WeightedMinHash × List Nat × List Nat)) :=
  match h.compute_call kmers with
  | none => none
  | some (Except.error e) => some (Except.error e)
  | some (Except.ok (h1, sketch1)) =>
    match h1.compute_call kmers with
    | none => none
    | some (Except.error e) => some (Except.error e)
    | some (Except.ok (h2, sketch2)) => some (Except.ok (h2, sketch1, sketch2))

/-- One access to a vector in the loop over the k-mers of
`WeightedMinHash::compute`: `cnts[i]`, or `hashes[d][i]`. -/
inductive Access where
  | counter (i : Nat) : Access
  | table (d i : Nat) : Access
  deriving DecidableEq, Repr

/-- The accesses `cnts[s]` and `hashes[si][s + cnts[s] * set_size]` that the
loop over the k-mers (hash_weighted.hpp, lines 56-63) performs for sketch
component `si`, in order, starting from the counters `cnts`. As in
`compute_kmer`, the run ends at the first access outside its vector. -/
def WeightedMinHash.kmer_accesses (h : WeightedMinHash) (si : Nat) :
    List Nat → List Nat → List Access
  | _, [] => []
  | cnts, s :: rest =>
    Access.counter s ::
      match cnts[s]? with
      | none => []
      | some c =>
        Access.table si (s + c * h.set_size) ::
          match h.hashes[si]? with
          | none => []
          | some table =>
            match table[s + c * h.set_size]? with
            | none => []
            | some _ => h.kmer_accesses si (cnts.set s (c + 1)) rest

/-- An access is inside its vector: a counter index is below `set_size`, a
table index is below `set_size * max_len`. -/
def WeightedMinHash.in_bounds (h : WeightedMinHash) : Access → Prop
  | Access.counter i => i < h.set_size
  | Access.table _ i => i < h.set_size * h.max_len

/-- The ways in which a run of `seq2kmer` can end without a result: the
`assert` in its loop fails, or `c /= alphabet_size` divides by zero. -/
inductive Seq2kmerError where
  | assertion_failed : Seq2kmerError
  | division_by_zero : Seq2kmerError
  deriving DecidableEq, Repr

/-- Subtraction in an unsigned type of `w` bits. -/
def wrap_sub (w a b : Nat) : Nat :=
  (a + (2 ^ w - b % 2 ^ w)) % 2 ^ w

/-- The body of the first loop of `seq2kmer` (utils.hpp, lines 39-42). The
state is `(result, c)`. -/
def seq2kmer_first (w : Nat) (seq : List Nat) (alphabet_size : Nat)
    (st : List Nat × Nat) (i : Nat) : List Nat × Nat :=
  (st.1.set 0 ((st.1.getD 0 0 + st.2 * seq.getD i 0) % 2 ^ w),
    (st.2 * alphabet_size) % 2 ^ w)

/-- The body of the second loop of `seq2kmer` (utils.hpp, lines 45-49). The
state is `result`. -/
def seq2kmer_next (w : Nat) (seq : List Nat) (kmer_size alphabet_size c : Nat)
    (result : List Nat) (i : Nat) : Except Seq2kmerError (List Nat) :=
  let base := wrap_sub w (result.getD i 0) (seq.getD i 0)
  if base % alphabet_size ≠ 0 then Except.error Seq2kmerError.assertion_failed
  else
    Except.ok (result.set (i + 1)
      ((base / alphabet_size + seq.getD (i + kmer_size) 0 * c) % 2 ^ w))

/-- Embedding of `seq2kmer` (utils.hpp, lines 29-51) for an unsigned k-mer type
of `w` bits. -/
def seq2kmer (w : Nat) (seq : List Nat) (kmer_size alphabet_size : Nat) :
    Except Seq2kmerError (List Nat) :=
  if seq.length < kmer_size then Except.ok []
  else
    let result := List.replicate (seq.length - kmer_size + 1) 0
    let st := (List.range kmer_size).foldl (seq2kmer_first w seq alphabet_size)
      (result, 1 % 2 ^ w)
    if alphabet_size = 0 then Except.error Seq2kmerError.division_by_zero
    else
      let c := st.2 / alphabet_size
      for_each (seq2kmer_next w seq kmer_size alphabet_size c) st.1
        (List.range (st.1.length - 1))

/-- The direct base-`A` evaluation of the window of `k` symbols that starts at
position `i`: the sum over `j` in `0..k-1` of `seq[i+j] * A^j`. -/
def window_value (A : Nat) (seq : List Nat) (i k : Nat) : Nat :=
  Finset.sum (Finset.range k) (fun j => seq.getD (i + j) 0 * A ^ j)

/-- The body of the inner loop of `rankify` (spearman.hpp, lines 16-21) for the
element `vi`. The state is `(r, s)`. -/
def rankify_count {T : Type} [LinearOrder T] (vi : T) (rs : Nat × Nat) (vj : T) : Nat × Nat :=
  (if vj < vi then rs.1 + 1 else rs.1, if vj = vi then rs.2 + 1 else rs.2)

/-- Embedding of `rankify` (spearman.hpp, lines 8-28). The ranks are values of
the field `K` that stands for `double`. -/
def rankify {T : Type} [LinearOrder T] (K : Type) [Field K] (v : List T) : List K :=
  v.map (fun vi =>
    let rs := v.foldl (rankify_count vi) (1, 1)
    (rs.1 : K) + ((rs.2 - 1 : Nat) : K) * (1 / 2))

/-- The five running sums of `pearson`. -/
structure PearsonSums (K : Type) where
  sum_a : K
  sum_b : K
  sum_ab : K
  square_sum_a : K
  square_sum_b : K

/-- The body of the loop of `pearson` (spearman.hpp, lines 37-43). -/
def pearson_step {K : Type} [Field K] (s : PearsonSums K) (x : K × K) : PearsonSums K :=
  { sum_a := s.sum_a + x.1
    sum_b := s.sum_b + x.2
    sum_ab := s.sum_ab + x.1 * x.2
    square_sum_a := s.square_sum_a + x.1 * x.1
    square_sum_b := s.square_sum_b + x.2 * x.2 }

/-- Embedding of `pearson` (spearman.hpp, lines 30-57); `sqrt` stands for
`std::sqrt`. The result is `none` when the assertion `a.size() == b.size()`
fails. -/
def pearson {K : Type} [Field K] [DecidableEq K] (sqrt : K → K) (a b : List K) : Option K :=
  if a.length ≠ b.length then none
  else
    let zero : PearsonSums K :=
      { sum_a := 0, sum_b := 0, sum_ab := 0, square_sum_a := 0, square_sum_b := 0 }
    let s := (a.zip b).foldl pearson_step zero
    let var_a := (a.length : K) * s.square_sum_a - s.sum_a * s.sum_a
    let var_b := (a.length : K) * s.square_sum_b - s.sum_a * s.sum_b
    if var_a = 0 ∧ var_b = 0 then some 1
    else if var_a = 0 ∨ var_b = 0 then some 0
    else some (((a.length : K) * s.sum_ab - s.sum_a * s.sum_b) / sqrt (var_a * var_b))

/-- Embedding of `spearman` (spearman.hpp, lines 59-64). -/
def spearman {T : Type} [LinearOrder T] (K : Type) [Field K] [DecidableEq K]
    (sqrt : K → K) (a b : List T) : Option K :=
  pearson sqrt (rankify K a) (rankify K b)

/-- A vector is constant when all its entries are equal. -/
def is_constant {K : Type} (x : List K) : Prop :=
  ∀ u ∈ x, ∀ v ∈ x, u = v

/-- The Pearson correlation coefficient, in the words of the specification:
`(n*sum(x_i*y_i) - sum(x)*sum(y)) /
  sqrt((n*sum(x_i^2) - sum(x)^2) * (n*sum(y_i^2) - sum(y)^2))`. -/
def pearson_coefficient {K : Type} [Field K] (sqrt : K → K) (x y : List K) : K :=
  ((x.length : K) * ((x.zip y).map (fun p => p.1 * p.2)).sum - x.sum * y.sum)
    / sqrt (((x.length : K) * (x.map (fun t => t ^ 2)).sum - x.sum ^ 2)
        * ((x.length : K) * (y.map (fun t => t ^ 2)).sum - y.sum ^ 2))

/-- A finite value of the type `double` (IEEE 754 binary64), written as the
number `m * 2 ^ e` with an integer significand `m` below `2 ^ 53` in absolute
value once rounded. The exponent is not bounded: overflow, underflow and
subnormal values are outside the model. An operation whose result is not a
finite number (a NaN or an infinity) has no result (`none`). -/
structure F64 where
  m : Int
  e : Int
  deriving DecidableEq, Repr

/-- The number of binary digits of `n`, counted by halving; the first argument
bounds the number of halvings. -/
def F64.bits_aux : Nat → Nat → Nat
  | 0, _ => 0
  | fuel + 1, n => if n = 0 then 0 else F64.bits_aux fuel (n / 2) + 1

/-- The number of binary digits of `n`: `2 ^ (bits n - 1) ≤ n < 2 ^ bits n`
for `n > 0`. -/
def F64.bits (n : Nat) : Nat :=
  F64.bits_aux n n

/-- Rounding of the exact number `m * 2 ^ e` to a significand of 53 bits, to
the nearest value, a tie going to the even significand (the default rounding
of binary64). -/
def F64.round (m e : Int) : F64 :=
  let a := m.natAbs
  if a < 2 ^ 53 then ⟨m, e⟩
  else
    let k := F64.bits a - 53
    let q := a / 2 ^ k
    let r := a % 2 ^ k
    let q1 := if 2 ^ k < 2 * r ∨ (2 * r = 2 ^ k ∧ q % 2 = 1) then q + 1 else q
    ⟨if m < 0 then -(q1 : Int) else (q1 : Int), e + (k : Int)⟩

/-- The conversion of an unsigned integer to `double`. -/
def F64.ofNat (n : Nat) : F64 :=
  F64.round (n : Int) 0

/-- Addition of `double` values: the exact sum, rounded. -/
def F64.add (x y : F64) : F64 :=
  let e := min x.e y.e
  F64.round (x.m * 2 ^ (x.e - e).toNat + y.m * 2 ^ (y.e - e).toNat) e

/-- Subtraction of `double` values: the exact difference, rounded. -/
def F64.sub (x y : F64) : F64 :=
  F64.add x ⟨-y.m, y.e⟩

/-- The integer square root by bisection on the bits: `isqrt_bits n b r` adds
to `r` the bits below `2 ^ b` for which the square stays at most `n`. -/
def F64.isqrt_bits (n : Nat) : Nat → Nat → Nat
  | 0, r => r
  | b + 1, r =>
    if (r + 2 ^ b) * (r + 2 ^ b) ≤ n then F64.isqrt_bits n b (r + 2 ^ b)
    else F64.isqrt_bits n b r

/-- The largest `r` with `r * r ≤ n`. -/
def F64.isqrt (n : Nat) : Nat :=
  F64.isqrt_bits n (F64.bits n / 2 + 1) 0

/-- The function `std::sqrt` on `double` values: the exact root, rounded. The
significand is scaled by an even power of two so that its integer root has at
least 55 bits, and one further bit records a non-zero remainder. The root of a
negative number has no result. -/
def F64.sqrt (x : F64) : Option F64 :=
  if x.m < 0 then none
  else
    let j : Nat := 110 + (x.e % 2).toNat
    let n := x.m.natAbs * 2 ^ j
    let r := F64.isqrt n
    let s := if r * r = n then 0 else 1
    some (F64.round ((2 * r + s : Nat) : Int) ((x.e - (j : Int)) / 2 - 1))

/-- The body of the loop of `most_likely_distance` (utils.hpp, lines 91-95).
The state is `(aa, ab, bb)`. -/
def most_likely_distance_step {K : Type} [Field K] (s : K × K × K) (x : K × K) : K × K × K :=
  (s.1 + x.1 * x.1, s.2.1 + (x.1 - x.2) * (x.1 - x.2), s.2.2 + x.2 * x.2)

/-- Embedding of `most_likely_distance` (utils.hpp, lines 83-100); `sqrt` stands
for `std::sqrt`. The result is `none` when the assertion
`a.size() == b.size()` fails. The division is the division of the field: the
quotient by a zero denominator, which is a NaN or an infinity in the source, is
not represented. -/
def most_likely_distance {K : Type} [Field K] (sqrt : K → K) (a b : List K) : Option K :=
  if a.length ≠ b.length then none
  else
    let s := (a.zip b).foldl most_likely_distance_step (0, 0, 0)
    some (sqrt (s.2.1 / ((s.1 + s.2.2) / 2)))

/-- The squared norm of a vector: the sum of its squared entries. -/
def norm_sq {K : Type} [Field K] (x : List K) : K :=
  (x.map (fun t => t ^ 2)).sum

/-- Entry `L[i][j]` of a two-dimensional table. -/
def table_get (L : List (List Nat)) (i j : Nat) : Nat :=
  (L.getD i []).getD j 0

/-- The table after the assignment `L[i][j] = v`. -/
def table_set (L : List (List Nat)) (i j v : Nat) : List (List Nat) :=
  L.set i ((L.getD i []).set j v)

/-- The body of the inner loop of `lcs` (utils.hpp, lines 162-168). -/
def lcs_cell {T : Type} [DecidableEq T] (s1 s2 : List T) (L : List (List Nat)) (i j : Nat) :
    List (List Nat) :=
  if i = 0 ∨ j = 0 then table_set L i j 0
  else if s1[i - 1]? = s2[j - 1]? then table_set L i j (table_get L (i - 1) (j - 1) + 1)
  else table_set L i j (max (table_get L (i - 1) j) (table_get L i (j - 1)))

/-- Embedding of `lcs` (utils.hpp, lines 154-172): the table `L` of
`(m + 1) × (n + 1)` entries is filled row by row. -/
def lcs {T : Type} [DecidableEq T] (s1 s2 : List T) : Nat :=
  let m := s1.length
  let n := s2.length
  let L0 := List.replicate (m + 1) (List.replicate (n + 1) 0)
  let L := (List.range (m + 1)).foldl
    (fun L i => (List.range (n + 1)).foldl (fun L j => lcs_cell s1 s2 L i j) L) L0
  table_get L m n

/-- The standard recursive definition of the length of a longest common
subsequence. -/
def lcs_spec {T : Type} [DecidableEq T] : List T → List T → Nat
  | [], _ => 0
  | _ :: _, [] => 0
  | a :: s, b :: t =>
    if a = b then lcs_spec s t + 1
    else max (lcs_spec s (b :: t)) (lcs_spec (a :: s) t)

/-- The invariant of the loops of `lcs` before the cell `(i, j)` is written:
the table has its dimensions and every cell written so far holds the value for
its two leading segments. -/
def lcs_inv {T : Type} [DecidableEq T] (s1 s2 : List T) (L : List (List Nat)) (i j : Nat) :
    Prop :=
  L.length = s1.length + 1 ∧
  (∀ r, r ≤ s1.length → (L.getD r []).length = s2.length + 1) ∧
  ∀ i1 j1, i1 ≤ s1.length → j1 ≤ s2.length → (i1 < i ∨ (i1 = i ∧ j1 < j)) →
    table_get L i1 j1 = lcs_spec (s1.take i1).reverse (s2.take j1).reverse

/-- The ways in which a run of a `SeqGen` generator can end without a result. -/
inductive SeqGenError where
  | assertion_failed : SeqGenError
  | undefined_behaviour : SeqGenError
  deriving DecidableEq, Repr

/-- Embedding of `SeqGen::gen_seq` (sequence_generator.hpp, lines 150-157):
`draw i` is the outcome of the `i`-th call `unif(gen)`. -/
def gen_seq {T : Type} (seq_len : Nat) (draw : Nat → T) : List T :=
  (List.range seq_len).map draw

/-- The value of `int lcs = si * seq_len / num_seqs` in `genseqs_pairs`
(line 56): the operands are `uint32_t`, so the product is reduced modulo
`2 ^ 32` before the division. -/
def forced_overlap (si seq_len num_seqs : Nat) : Nat :=
  (si * seq_len % 2 ^ 32) / num_seqs

/-- The vector after `std::sort(perm.begin(), perm.begin() + lcs)`. -/
def sort_first (lcs : Nat) (perm : List Nat) : List Nat :=
  (perm.take lcs).insertionSort (fun x y => x ≤ y) ++ perm.drop lcs

/-- The body of the innermost loop of `genseqs_pairs` (line 66):
`seqs[si][perm[i]] = seqs[si + 1][perm2[i]]`. -/
def genseqs_pairs_assign {T : Type} (si : Nat) (perm perm2 : List Nat)
    (seqs : List (List T)) (i : Nat) : Except SeqGenError (List (List T)) :=
  match perm[i]?, perm2[i]?, seqs[si]?, seqs[si + 1]? with
  | some p, some p2, some dst, some src =>
    match src[p2]? with
    | some v =>
      if p < dst.length then Except.ok (seqs.set si (dst.set p v))
      else Except.error SeqGenError.undefined_behaviour
    | none => Except.error SeqGenError.undefined_behaviour
  | _, _, _, _ => Except.error SeqGenError.undefined_behaviour

/-- The body of the loop over the pairs of `genseqs_pairs` (lines 55-68) for
the pair that starts at `si`; `shuffles (si / 2)` holds the two vectors `perm`
and `perm2` as `std::shuffle` leaves them in this iteration. -/
def genseqs_pairs_pair {T : Type} (num_seqs seq_len : Nat)
    (shuffles : Nat → List Nat × List Nat) (seqs : List (List T)) (si : Nat) :
    Except SeqGenError (List (List T)) :=
  let lcs := forced_overlap si seq_len num_seqs
  let perm := (shuffles (si / 2)).1
  let perm2 := (shuffles (si / 2)).2
  if perm.length < lcs ∨ perm2.length < lcs then
    Except.error SeqGenError.undefined_behaviour
  else
    for_each (genseqs_pairs_assign si (sort_first lcs perm) (sort_first lcs perm2)) seqs
      (List.range lcs)

/-- Embedding of `SeqGen::genseqs_pairs` (sequence_generator.hpp, lines 48-70).
The random draws are arguments: `symbols si i` is the `i`-th symbol drawn for
sequence `si`, `shuffles p` the outcome of the two shuffles of the `p`-th
pair. -/
def genseqs_pairs {T : Type} (num_seqs seq_len : Nat) (symbols : Nat → Nat → T)
    (shuffles : Nat → List Nat × List Nat) : Except SeqGenError (List (List T)) :=
  if num_seqs % 2 ≠ 0 then Except.error SeqGenError.assertion_failed
  else
    let seqs := (List.range num_seqs).map (fun si => gen_seq seq_len (symbols si))
    for_each (genseqs_pairs_pair num_seqs seq_len shuffles) seqs
      (List.range' 0 ((num_seqs + 1) / 2) 2)

/-- The outcomes that `std::shuffle` can produce for the vectors `perm` and
`perm2`: rearrangements of `0, ..., seq_len - 1`. -/
def valid_shuffles (seq_len : Nat) (shuffles : Nat → List Nat × List Nat) : Prop :=
  ∀ p, (shuffles p).1.Perm (List.range seq_len) ∧ (shuffles p).2.Perm (List.range seq_len)

/-- The pair that starts at `si` has two sequences of length `seq_len` with a
common subsequence of length `overlap`. -/
def pair_overlap {T : Type} (seq_len overlap : Nat) (seqs : List (List T)) (si : Nat) : Prop :=
  ∃ a b c : List T, seqs[si]? = some a ∧ seqs[si + 1]? = some b ∧ a.length = seq_len ∧
    b.length = seq_len ∧ c.length = overlap ∧ c.Sublist a ∧ c.Sublist b

/-- The value stored by `c = (c >= ref[i]) ? c + 1 : c` in the substitution
case of `point_mutate` (sequence_generator.hpp, line 181) for the reference
symbol `r` and the draw `c`. The draw is at most `alphabet_size - 2 <= 253`,
so `c + 1` fits the symbol type. -/
def point_mutate_substitute (r c : Nat) : Nat :=
  if c ≥ r then c + 1 else c

/-- The values that `unif(gen)` can return in `point_mutate`, for an alphabet
of at least two symbols: `std::uniform_int_distribution<T> unif(0,
alphabet_size - 2)` (line 163). The same `unif` serves the insertion (line
172) and the substitution (line 180). -/
def point_mutate_unif (alphabet_size c : Nat) : Bool :=
  decide (c ≤ alphabet_size - 2)

/-- The random outcome of one iteration of the loop of `point_mutate`: the
case chosen by `mut(gen)` and, for an insertion or a substitution, the value of
`unif(gen)`. -/
inductive Mutation where
  | keep : Mutation
  | insert (c : Nat) : Mutation
  | delete : Mutation
  | substitute (c : Nat) : Mutation
  deriving DecidableEq, Repr

/-- The body of the loop of `point_mutate` (lines 166-185) followed by the
`i++` of the loop, on the state `(i, seq)` with `i < ref.size()`. In the
insertion case `i--` is a subtraction in `size_t` and wraps at `i = 0`. -/
def point_mutate_step (ref : List Nat) (st : Nat × List Nat) (d : Mutation) :
    Nat × List Nat :=
  match d with
  | Mutation.keep => (st.1 + 1, st.2 ++ [ref.getD st.1 0])
  | Mutation.insert c => ((wrap_sub 64 st.1 1 + 1) % 2 ^ 64, st.2 ++ [c])
  | Mutation.delete => (st.1 + 1, st.2)
  | Mutation.substitute c =>
    (st.1 + 1, st.2 ++ [point_mutate_substitute (ref.getD st.1 0) c])

/-- The loop of `point_mutate` (line 165) from the state `st`, with the random
outcomes of the iterations in `draws`. The result is `none` when the loop has
not ended after these outcomes. -/
def point_mutate_loop (ref : List Nat) : List Mutation → Nat × List Nat → Option (List Nat)
  | [], st => if st.1 < ref.length then none else some st.2
  | d :: rest, st =>
    if st.1 < ref.length then point_mutate_loop ref rest (point_mutate_step ref st d)
    else some st.2

/-- Embedding of `SeqGen::point_mutate(ref, seq)` (sequence_generator.hpp,
lines 159-187): the content of `seq` after the call. -/
def point_mutate (ref seq : List Nat) (draws : List Mutation) : Option (List Nat) :=
  point_mutate_loop ref draws (0, seq)

/-- The loop `while (seq.size() % num_blocks != 0) seq.push_back(unif(gen))` of
`block_permute` (lines 135-137); `draw k` is the outcome of the `k`-th call
`unif(gen)`. The first argument bounds the number of iterations. -/
def block_permute_pad {T : Type} (num_blocks : Nat) (draw : Nat → T) :
    Nat → Nat → List T → List T
  | 0, _, seq => seq
  | fuel + 1, k, seq =>
    if seq.length % num_blocks ≠ 0 then
      block_permute_pad num_blocks draw fuel (k + 1) (seq ++ [draw k])
    else seq

/-- The body of the innermost loop of `block_permute` (lines 142-144):
`result[perm[pi] * block_size + i] = seq[pi * block_size + i]`. -/
def block_permute_assign {T : Type} (perm : List Nat) (block_size : Nat) (seq : List T)
    (i : Nat) (result : List T) (pi : Nat) : Except SeqGenError (List T) :=
  match perm[pi]?, seq[pi * block_size + i]? with
  | some q, some v =>
    if q * block_size + i < result.length then
      Except.ok (result.set (q * block_size + i) v)
    else Except.error SeqGenError.undefined_behaviour
  | _, _ => Except.error SeqGenError.undefined_behaviour

/-- Embedding of `SeqGen::block_permute` (sequence_generator.hpp, lines
123-148): the content of `seq` after the call. The random draws are arguments:
`mutate` is false when `mute(gen) > block_mutate_rate`, `num_blocks` is the
outcome of `blocks(gen)`, `perm` the vector `perm` after `std::shuffle`, and
`draw k` the `k`-th padding symbol. -/
def block_permute {T : Type} [Zero T] (mutate : Bool) (num_blocks : Nat) (perm : List Nat)
    (draw : Nat → T) (seq : List T) : Except SeqGenError (List T) :=
  if mutate = false then Except.ok seq
  else if num_blocks = 0 then Except.error SeqGenError.undefined_behaviour
  else
    let padded := block_permute_pad num_blocks draw num_blocks 0 seq
    let block_size := padded.length / num_blocks
    for_each
      (fun result i =>
        for_each (block_permute_assign perm block_size padded i) result
          (List.range num_blocks))
      (List.replicate padded.length 0) (List.range block_size)

/-- Embedding of `SeqGen::make_fix_len` (sequence_generator.hpp, lines
221-232): the content of `seq` after the call; `draw k` is the outcome of the
`k`-th call `unif(gen)`. In the first branch
`std::vector<T>(seq.begin(), seq.end())` is a copy of the whole of `seq`. -/
def make_fix_len {T : Type} (seq_len : Nat) (draw : Nat → T) (seq : List T) : List T :=
  if seq.length > seq_len then seq
  else if seq.length < seq_len then
    seq ++ (List.range (seq_len - seq.length)).map draw
  else seq

/-- One round of the `while` loop of `genseqs_tree` (lines 81-91) on the state
`(seqs, children)`. For the `k`-th parent `seq` the loop appends `ch1`, which
line 87 has set to `seq`, and `ch2`; `mutant k seq` is the random outcome of
`point_mutate(seq, ch2); block_permute(ch2)`. The round ends with
`std::swap(seqs, children)`, so the old `seqs` stay in `children`. -/
def genseqs_tree_round {T : Type} (mutant : Nat → List T → List T)
    (st : List (List T) × List (List T)) : List (List T) × List (List T) :=
  ((List.range st.1.length).foldl
      (fun children k => children ++ [st.1.getD k [], mutant k (st.1.getD k [])]) st.2,
    st.1)

/-- The `while (seqs.size() < num_seqs)` loop of `genseqs_tree` (line 80) from
round `r` on; `mutant r` gives the random outcomes of round `r`. The first
argument bounds the number of rounds; the result is `none` when the loop has
not ended after that many rounds. -/
def genseqs_tree_loop {T : Type} (num_seqs : Nat) (mutant : Nat → Nat → List T → List T) :
    Nat → Nat → List (List T) × List (List T) → Option (List (List T) × List (List T))
  | 0, _, st => if st.1.length < num_seqs then none else some st
  | fuel + 1, r, st =>
    if st.1.length < num_seqs then
      genseqs_tree_loop num_seqs mutant fuel (r + 1) (genseqs_tree_round (mutant r) st)
    else some st

/-- Embedding of `SeqGen::genseqs_tree(sequence_seeds)` (sequence_generator.hpp,
lines 73-98). The random draws are arguments: `symbols i` are the draws of
`gen_seq` for seed `i`, `mutant r` the mutated children of round `r`, and
`pads i` the padding draws of `make_fix_len` for sequence `i`. Each round adds
at least one sequence when there is a seed, so `num_seqs` rounds are enough;
without a seed the loop does not end. -/
def genseqs_tree {T : Type} (num_seqs seq_len : Nat) (fix_len : Bool) (sequence_seeds : Nat)
    (symbols : Nat → Nat → T) (mutant : Nat → Nat → List T → List T)
    (pads : Nat → Nat → T) : Option (List (List T)) :=
  let seqs := (List.range sequence_seeds).map (fun i => gen_seq seq_len (symbols i))
  match genseqs_tree_loop num_seqs mutant num_seqs 0 (seqs, []) with
  | none => none
  | some st =>
    let seqs := st.1.take num_seqs ++ List.replicate (num_seqs - st.1.length) []
    some ((List.range seqs.length).map
      (fun i => if fix_len then make_fix_len seq_len (pads i) (seqs.getD i [])
        else seqs.getD i []))

/-- The ways in which a run of `full_edit_distance` can end without a result:
the `assert(false)` of the traceback, or a traceback that has not ended within
the bound on its iterations. -/
inductive TracebackError where
  | assertion_failed : TracebackError
  | out_of_fuel : TracebackError
  deriving DecidableEq, Repr

/-- The table `new2D<int>(rows, cols)` as `full_edit_distance` uses it: `rows`
rows of `cols` entries. The helper is declared in util/multivec.hpp, which is
not among the sources; its entries are taken as 0, and `full_edit_distance`
assigns every entry before it reads it. -/
def new2D (rows cols : Nat) : List (List Nat) :=
  List.replicate rows (List.replicate cols 0)

/-- The body of the inner loop of `full_edit_distance` (utils.hpp, lines
242-247) for the symbols at index `i` of `s1` and `j` of `s2`. -/
def full_edit_distance_cell {T : Type} [DecidableEq T] (s1 s2 : List T)
    (costs : List (List Nat)) (i j : Nat) : List (List Nat) :=
  if s1[i]? = s2[j]? then table_set costs (i + 1) (j + 1) (table_get costs i j)
  else
    table_set costs (i + 1) (j + 1)
      (min (table_get costs i j)
        (min (table_get costs i (j + 1)) (table_get costs (i + 1) j)) + 1)

/-- The table `costs` of `full_edit_distance` after the loops of lines
233-249. -/
def full_edit_distance_costs {T : Type} [DecidableEq T] (s1 s2 : List T) : List (List Nat) :=
  let m := s1.length
  let n := s2.length
  let costs0 := (List.range (n + 1)).foldl (fun costs k => table_set costs 0 k k)
    (new2D (m + 1) (n + 1))
  (List.range m).foldl
    (fun costs i =>
      (List.range n).foldl (fun costs j => full_edit_distance_cell s1 s2 costs i j)
        (table_set costs (i + 1) 0 (i + 1)))
    costs0

/-- The traceback loop of `full_edit_distance` (utils.hpp, lines 252-266) from
the state `(i, j, v1, v2)`. Every iteration that does not fail lowers `i + j`,
so the first argument, a bound on the number of iterations, is taken as
`m + n`. -/
def full_edit_distance_traceback (costs : List (List Nat)) :
    Nat → Nat → Nat → List Nat → List Nat → Except TracebackError (List Nat × List Nat)
  | 0, i, j, v1, v2 =>
    if i > 0 ∧ j > 0 then Except.error TracebackError.out_of_fuel else Except.ok (v1, v2)
  | fuel + 1, i, j, v1, v2 =>
    if i > 0 ∧ j > 0 then
      if table_get costs i j = table_get costs (i - 1) (j - 1) then
        full_edit_distance_traceback costs fuel (i - 1) (j - 1) (v1 ++ [i]) (v2 ++ [j])
      else if table_get costs i j = table_get costs (i - 1) (j - 1) + 1 then
        full_edit_distance_traceback costs fuel (i - 1) (j - 1) v1 v2
      else if table_get costs i j = table_get costs (i - 1) j + 1 then
        full_edit_distance_traceback costs fuel (i - 1) j v1 v2
      else if table_get costs i j = table_get costs i (j - 1) + 1 then
        full_edit_distance_traceback costs fuel i (j - 1) v1 v2
      else Except.error TracebackError.assertion_failed
    else Except.ok (v1, v2)

/-- Embedding of `full_edit_distance` (utils.hpp, lines 219-271): the pair
`(v1, v2)` of the matched positions, counted from 1. -/
def full_edit_distance {T : Type} [DecidableEq T] (s1 s2 : List T) :
    Except TracebackError (List Nat × List Nat) :=
  let m := s1.length
  let n := s2.length
  if m = 0 then Except.ok ([], [])
  else if n = 0 then Except.ok ([], [])
  else
    match full_edit_distance_traceback (full_edit_distance_costs s1 s2) (m + n) m n [] [] with
    | Except.error e => Except.error e
    | Except.ok v => Except.ok (v.1.reverse, v.2.reverse)

/-- The invariant of the loops that fill the table of `full_edit_distance`,
before the cell `(i, j)` is written: the table has its dimensions and every
cell written so far holds the distance of its two leading segments. -/
def full_edit_distance_inv {T : Type} [DecidableEq T] (s1 s2 : List T)
    (costs : List (List Nat)) (i j : Nat) : Prop :=
  costs.length = s1.length + 1 ∧
  (∀ r, r ≤ s1.length → (costs.getD r []).length = s2.length + 1) ∧
  ∀ i1 j1, i1 ≤ s1.length → j1 ≤ s2.length → (i1 < i ∨ (i1 = i ∧ j1 < j)) →
    table_get costs i1 j1 = lev (s1.take i1).reverse (s2.take j1).reverse

/-- The body of the loop of `matches_to_distance` (utils.hpp, lines 283-294).
The state is `(distances, run_length, last_match)`; `last_match` starts at -1
and is an `Int`, the run lengths are never negative. -/
def matches_to_distance_step (st : List Nat × Nat × Int) (x : Int) : List Nat × Nat × Int :=
  if x = st.2.2 + 1 then (st.1, st.2.1 + 1, x)
  else (st.1 ++ [st.2.1] ++ List.replicate (x - st.2.2 - 2).toNat 0, 1, x)

/-- Embedding of `matches_to_distance(s, matches)` (utils.hpp, lines
277-300); `matched` is the argument `matches`. -/
def matches_to_distance {T : Type} (s : List T) (matched : List Int) : List Nat :=
  let st := matched.foldl matches_to_distance_step ([], 0, -1)
  st.1 ++ [st.2.1] ++ List.replicate ((s.length : Int) - st.2.2 - 1).toNat 0

/-- One position of the scan of `match_runs`: a matched position lengthens the
current run, a non-matched position closes it and opens an empty one. The
state is `(closed runs, current run)`. -/
def match_runs_step (is_match : Nat → Bool) (st : List Nat × Nat) (p : Nat) : List Nat × Nat :=
  if is_match p then (st.1, st.2 + 1) else (st.1 ++ [st.2], 0)

/-- The lengths of the maximal runs of consecutive matched positions among the
positions `0, ..., len - 1`, in the words of the specification: the runs are
delimited by the non-matched positions, and a run between two adjacent
non-matched positions, or at either end, has length 0. -/
def match_runs (len : Nat) (is_match : Nat → Bool) : List Nat :=
  let st := (List.range len).foldl (match_runs_step is_match) ([], 0)
  st.1 ++ [st.2]

/-- The lambda that `std::transform` applies to every symbol in `tensor23`
(sketch_main.cpp, line 38): a symbol above 3 becomes 0. -/
def tensor23_clip (a : Nat) : Nat :=
  if a > 3 then 0 else a

/-- The number of index pairs `i < j` with `(seq[i], seq[j]) = (a, b)`, in the
words of the specification. -/
def pair_count (seq : List Nat) (a b : Nat) : Nat :=
  ((Finset.range seq.length ×ˢ Finset.range seq.length).filter
    (fun p => p.1 < p.2 ∧ seq.getD p.1 0 = a ∧ seq.getD p.2 0 = b)).card

/-- The number of index triples `i < j < k` with
`(seq[i], seq[j], seq[k]) = (a, b, c)`, in the words of the specification. -/
def triple_count (seq : List Nat) (a b c : Nat) : Nat :=
  ((Finset.range seq.length ×ˢ Finset.range seq.length ×ˢ Finset.range seq.length).filter
    (fun p => p.1 < p.2.1 ∧ p.2.1 < p.2.2 ∧
      seq.getD p.1 0 = a ∧ seq.getD p.2.1 0 = b ∧ seq.getD p.2.2 0 = c)).card

/-- The indices of `result.first` that the loops of `tensor23` increment, in
the order of the loops. -/
def tensor23_pair_indices (seq : List Nat) : List Nat :=
  (List.range seq.length).flatMap (fun i =>
    (List.range' (i + 1) (seq.length - (i + 1))).map (fun j =>
      (seq.getD i 0 <<< 2) + seq.getD j 0))

/-- The indices of `result.second` that the loops of `tensor23` increment, in
the order of the loops. -/
def tensor23_triple_indices (seq : List Nat) : List Nat :=
  (List.range seq.length).flatMap (fun i =>
    (List.range' (i + 1) (seq.length - (i + 1))).flatMap (fun j =>
      (List.range' (j + 1) (seq.length - (j + 1))).map (fun k =>
        16 * seq.getD i 0 + 4 * seq.getD j 0 + seq.getD k 0)))

theorem for_each_append {σ ε β : Type} (body : σ → β → Except ε σ) (xs ys : List β) :
    ∀ st : σ, for_each body st (xs ++ ys) =
      match for_each body st xs with
      | Except.error e => Except.error e
      | Except.ok st1 => for_each body st1 ys := by
  induction xs with
  | nil => intro st; rfl
  | cons x xs ih =>
    intro st
    simp only [List.cons_append, for_each]
    cases body st x with
    | error e => rfl
    | ok st1 => exact ih st1

theorem for_each_error {σ ε β : Type} (body : σ → β → Except ε σ) (P : ε → Prop)
    (hbody : ∀ st x e, body st x = Except.error e → P e) (xs : List β) :
    ∀ st e, for_each body st xs = Except.error e → P e := by
  induction xs with
  | nil => intro st e he; simp [for_each] at he
  | cons x xs ih =>
    intro st e he
    simp only [for_each] at he
    cases hb : body st x with
    | error e1 =>
      rw [hb] at he
      simp only [Except.error.injEq] at he
      subst he
      exact hbody st x e1 hb
    | ok st1 =>
      rw [hb] at he
      exact ih st1 e he

theorem lev_nil_left {α : Type} [DecidableEq α] (t : List α) : lev [] t = t.length := by
  simp [lev]

theorem lev_nil_right {α : Type} [DecidableEq α] (s : List α) : lev s [] = s.length := by
  cases s <;> simp [lev]

theorem lev_cons_cons {α : Type} [DecidableEq α] (a b : α) (s t : List α) :
    lev (a :: s) (b :: t) =
      if a = b then lev s t
      else 1 + min (lev s (b :: t)) (min (lev (a :: s) t) (lev s t)) := by
  simp [lev]

/-- Deleting the head of the first sequence, or of the second, changes the
distance by at most one (all four directions, proved together by induction on
the total length). -/
theorem lev_head_bounds {α : Type} [DecidableEq α] (k : Nat) : ∀ (s t : List α), s.length + t.length ≤ k →
    (∀ a, lev (a :: s) t ≤ lev s t + 1) ∧ (∀ b, lev s (b :: t) ≤ lev s t + 1) ∧
    (∀ a, lev s t ≤ lev (a :: s) t + 1) ∧ (∀ b, lev s t ≤ lev s (b :: t) + 1) := by
  induction k with
  | zero =>
    intro s t h
    have hs : s = [] := List.length_eq_zero.mp (by omega)
    have ht : t = [] := List.length_eq_zero.mp (by omega)
    subst hs; subst ht
    simp [lev]
  | succ k ih =>
    intro s t h
    refine ⟨?_, ?_, ?_, ?_⟩
    · intro a
      cases t with
      | nil => simp only [lev_nil_right, List.length_cons]; omega
      | cons b t =>
        rw [lev_cons_cons]
        have h1 := (ih s t (by simp at h ⊢; omega)).2.2.2 b
        split <;> omega
    · intro b
      cases s with
      | nil => simp only [lev_nil_left, List.length_cons]; omega
      | cons a s =>
        rw [lev_cons_cons]
        have h1 := (ih s t (by simp at h ⊢; omega)).2.2.1 a
        split <;> omega
    · intro a
      cases t with
      | nil => simp only [lev_nil_right, List.length_cons]; omega
      | cons b t =>
        rw [lev_cons_cons]
        have h1 := (ih s t (by simp at h ⊢; omega)).2.1 b
        have h2 := (ih s t (by simp at h ⊢; omega)).2.2.1 a
        split <;> omega
    · intro b
      cases s with
      | nil => simp only [lev_nil_left, List.length_cons]; omega
      | cons a s =>
        rw [lev_cons_cons]
        have h1 := (ih s t (by simp at h ⊢; omega)).1 a
        have h2 := (ih s t (by simp at h ⊢; omega)).2.2.2 b
        split <;> omega

theorem lev_cons_left_le {α : Type} [DecidableEq α] (a : α) (s t : List α) : lev (a :: s) t ≤ lev s t + 1 :=
  (lev_head_bounds _ s t (le_refl _)).1 a

theorem lev_cons_right_le {α : Type} [DecidableEq α] (b : α) (s t : List α) : lev s (b :: t) ≤ lev s t + 1 :=
  (lev_head_bounds _ s t (le_refl _)).2.1 b

theorem lev_le_cons_left {α : Type} [DecidableEq α] (a : α) (s t : List α) : lev s t ≤ lev (a :: s) t + 1 :=
  (lev_head_bounds _ s t (le_refl _)).2.2.1 a

theorem lev_le_cons_right {α : Type} [DecidableEq α] (b : α) (s t : List α) : lev s t ≤ lev s (b :: t) + 1 :=
  (lev_head_bounds _ s t (le_refl _)).2.2.2 b

theorem lev_cons_cons_le_diag {α : Type} [DecidableEq α] (a b : α) (s t : List α) :
    lev (a :: s) (b :: t) ≤ lev s t + 1 := by
  rw [lev_cons_cons]
  split <;> omega

theorem lev_self {α : Type} [DecidableEq α] (s : List α) : lev s s = 0 := by
  induction s with
  | nil => simp [lev]
  | cons a s ih => simp [lev_cons_cons, ih]

/-- Substituting the head of the first sequence changes the distance by at
most one. -/
theorem lev_subst_head_le {α : Type} [DecidableEq α] (x y : α) (r : List α) :
    ∀ u : List α, lev (x :: r) u ≤ lev (y :: r) u + 1 := by
  intro u
  induction u with
  | nil => simp [lev_nil_right]
  | cons b u ih =>
    have h1 := lev_cons_cons_le_diag x b r u
    have h2 := lev_le_cons_right b r u
    have h3 := lev_cons_right_le b (x :: r) u
    have h4 := lev_cons_left_le x r (b :: u)
    rw [lev_cons_cons y b]
    split <;> omega

/-- A single edit under a common head symbol. -/
theorem lev_cons_congr_le {α : Type} [DecidableEq α] (a : α) (s t : List α)
    (h : ∀ u : List α, lev s u ≤ lev t u + 1) :
    ∀ u : List α, lev (a :: s) u ≤ lev (a :: t) u + 1 := by
  intro u
  induction u with
  | nil =>
    have := h []
    simp only [lev_nil_right] at this
    simp only [lev_nil_right, List.length_cons]
    omega
  | cons b u ih =>
    have h1 := h u
    have h2 := h (b :: u)
    rw [lev_cons_cons a b s, lev_cons_cons a b t]
    split <;> omega

theorem lev_editStep_le {α : Type} [DecidableEq α] {s t : List α} (h : EditStep s t) :
    ∀ u : List α, lev s u ≤ lev t u + 1 := by
  cases h with
  | ins l r x =>
    induction l with
    | nil => intro u; exact lev_le_cons_left x r u
    | cons a l ih => exact lev_cons_congr_le a _ _ ih
  | del l r x =>
    induction l with
    | nil => intro u; exact lev_cons_left_le x r u
    | cons a l ih => exact lev_cons_congr_le a _ _ ih
  | sub l r x y =>
    induction l with
    | nil => exact lev_subst_head_le x y r
    | cons a l ih => exact lev_cons_congr_le a _ _ ih

/-- No sequence of edits is shorter than the recursive distance. -/
theorem lev_le_of_editsTo {α : Type} [DecidableEq α] {n : Nat} {s t : List α} (h : EditsTo n s t) : lev s t ≤ n := by
  induction h with
  | done s => simp [lev_self]
  | @step n s t u hst _ ih =>
    have := lev_editStep_le hst u
    omega

theorem editStep_cons {α : Type} (a : α) {s t : List α} (h : EditStep s t) :
    EditStep (a :: s) (a :: t) := by
  cases h with
  | ins l r x => exact EditStep.ins (a :: l) r x
  | del l r x => exact EditStep.del (a :: l) r x
  | sub l r x y => exact EditStep.sub (a :: l) r x y

theorem editsTo_cons {α : Type} (a : α) {n : Nat} {s t : List α} (h : EditsTo n s t) :
    EditsTo n (a :: s) (a :: t) := by
  induction h with
  | done s => exact EditsTo.done _
  | step hst _ ih => exact EditsTo.step (editStep_cons a hst) ih

theorem editsTo_nil_left {α : Type} (t : List α) : EditsTo t.length [] t := by
  induction t with
  | nil => exact EditsTo.done _
  | cons b t ih => exact EditsTo.step (EditStep.ins [] [] b) (editsTo_cons b ih)

theorem editsTo_nil_right {α : Type} (s : List α) : EditsTo s.length s [] := by
  induction s with
  | nil => exact EditsTo.done _
  | cons a s ih => exact EditsTo.step (EditStep.del [] s a) ih

/-- The recursive distance is attained by a sequence of single-symbol edits. -/
theorem editsTo_lev {α : Type} [DecidableEq α] (k : Nat) : ∀ (s t : List α), s.length + t.length ≤ k →
    EditsTo (lev s t) s t := by
  induction k with
  | zero =>
    intro s t h
    have hs : s = [] := List.length_eq_zero.mp (by omega)
    have ht : t = [] := List.length_eq_zero.mp (by omega)
    subst hs; subst ht
    simpa [lev] using (EditsTo.done ([] : List α))
  | succ k ih =>
    intro s t h
    cases s with
    | nil => rw [lev_nil_left]; exact editsTo_nil_left t
    | cons a s =>
      cases t with
      | nil => rw [lev_nil_right]; exact editsTo_nil_right _
      | cons b t =>
        simp only [List.length_cons] at h
        rw [lev_cons_cons]
        by_cases hab : a = b
        · subst hab
          simp only [if_true]
          exact editsTo_cons a (ih s t (by omega))
        · simp only [if_neg hab]
          have e1 : EditsTo (lev s (b :: t) + 1) (a :: s) (b :: t) :=
            EditsTo.step (EditStep.del [] s a) (ih s (b :: t) (by simp; omega))
          have e2 : EditsTo (lev (a :: s) t + 1) (a :: s) (b :: t) :=
            EditsTo.step (EditStep.ins [] (a :: s) b) (editsTo_cons b (ih (a :: s) t (by simp; omega)))
          have e3 : EditsTo (lev s t + 1) (a :: s) (b :: t) :=
            EditsTo.step (EditStep.sub [] s a b) (editsTo_cons b (ih s t (by omega)))
          rcases le_total (lev s (b :: t)) (min (lev (a :: s) t) (lev s t)) with h1 | h1
          · rw [min_eq_left h1, Nat.add_comm]; exact e1
          · rw [min_eq_right h1]
            rcases le_total (lev (a :: s) t) (lev s t) with h2 | h2
            · rw [min_eq_left h2, Nat.add_comm]; exact e2
            · rw [min_eq_right h2, Nat.add_comm]; exact e3

theorem editStep_reverse {α : Type} {s t : List α} (h : EditStep s t) :
    EditStep s.reverse t.reverse := by
  cases h with
  | ins l r x =>
    simpa using EditStep.ins r.reverse l.reverse x
  | del l r x =>
    simpa using EditStep.del r.reverse l.reverse x
  | sub l r x y =>
    simpa using EditStep.sub r.reverse l.reverse x y

theorem editsTo_reverse {α : Type} {n : Nat} {s t : List α} (h : EditsTo n s t) :
    EditsTo n s.reverse t.reverse := by
  induction h with
  | done s => exact EditsTo.done _
  | step hst _ ih => exact EditsTo.step (editStep_reverse hst) ih

theorem lev_reverse {α : Type} [DecidableEq α] (s t : List α) : lev s.reverse t.reverse = lev s t := by
  apply le_antisymm
  · exact lev_le_of_editsTo (editsTo_reverse (editsTo_lev _ s t (le_refl _)))
  · have := lev_le_of_editsTo (editsTo_reverse (editsTo_lev _ s.reverse t.reverse (le_refl _)))
    simpa using this


theorem getD_append_add (pre l : List Nat) (k : Nat) :
    (pre ++ l).getD (pre.length + k) 0 = l.getD k 0 := by
  induction pre with
  | nil => simp
  | cons a pre ih =>
    have : (a :: pre).length + k = (pre.length + k) + 1 := by simp; omega
    rw [List.cons_append, this, List.getD_cons_succ, ih]

theorem set_append_add (pre l : List Nat) (k v : Nat) :
    (pre ++ l).set (pre.length + k) v = pre ++ l.set k v := by
  induction pre with
  | nil => simp
  | cons a pre ih =>
    have : (a :: pre).length + k = (pre.length + k) + 1 := by simp; omega
    rw [List.cons_append, this, List.set_cons_succ, ih, List.cons_append]

theorem levRowTail_length {α : Type} [DecidableEq α] (p q s : List α) : (levRowTail p q s).length = s.length := by
  induction s generalizing q with
  | nil => rfl
  | cons y ys ih => simp [levRowTail, ih]

theorem levRow_nil {α : Type} [DecidableEq α] (q s : List α) :
    levRow [] q s = List.range' q.length (s.length + 1) := by
  induction s generalizing q with
  | nil => simp [levRow, levRowTail, lev_nil_left, List.range']
  | cons y ys ih =>
    have := ih (y :: q)
    simp only [levRow, lev_nil_left] at this ⊢
    rw [levRowTail, lev_nil_left, this, List.length_cons, List.length_cons]
    simp [List.range'_succ]

theorem levRow_getD_length {α : Type} [DecidableEq α] (p q s : List α) :
    (levRow p q s).getD s.length 0 = lev p (s.reverse ++ q) := by
  induction s generalizing q with
  | nil => simp [levRow]
  | cons y ys ih =>
    have := ih (y :: q)
    simp only [levRow] at this
    simp only [levRow, levRowTail, List.length_cons, List.getD_cons_succ, this,
      List.reverse_cons, List.append_assoc, List.singleton_append]

/-- One run of the inner loop of `edit_distance` turns the row of `p` into the
row of `c1 :: p`, to the right of the entries already rewritten. -/
theorem edit_distance_inner_foldl {α : Type} [DecidableEq α] (c1 : α) (p : List α) (s : List α) :
    ∀ (pre : List Nat) (q : List α),
      (s.foldl (edit_distance_inner c1)
        (pre ++ lev (c1 :: p) q :: levRowTail p q s, lev p q, pre.length)).1
        = pre ++ lev (c1 :: p) q :: levRowTail (c1 :: p) q s := by
  induction s with
  | nil => intro pre q; simp [levRowTail]
  | cons y ys ih =>
    intro pre q
    have hnew : edit_distance_inner c1
        (pre ++ lev (c1 :: p) q :: levRowTail p q (y :: ys), lev p q, pre.length) y
        = ((pre ++ [lev (c1 :: p) q]) ++ lev (c1 :: p) (y :: q) :: levRowTail p (y :: q) ys,
            lev p (y :: q), (pre ++ [lev (c1 :: p) q]).length) := by
      have hup : (pre ++ lev (c1 :: p) q :: levRowTail p q (y :: ys)).getD (pre.length + 1) 0
          = lev p (y :: q) := by
        rw [getD_append_add]
        simp [levRowTail]
      have hleft : (pre ++ lev (c1 :: p) q :: levRowTail p q (y :: ys)).getD pre.length 0
          = lev (c1 :: p) q := by
        have := getD_append_add pre (lev (c1 :: p) q :: levRowTail p q (y :: ys)) 0
        simpa using this
      have hset : ∀ v : Nat,
          (pre ++ lev (c1 :: p) q :: levRowTail p q (y :: ys)).set (pre.length + 1) v
          = (pre ++ [lev (c1 :: p) q]) ++ v :: levRowTail p (y :: q) ys := by
        intro v
        rw [set_append_add]
        simp [levRowTail]
      simp only [edit_distance_inner, hup, hleft, hset]
      refine Prod.ext ?_ (Prod.ext rfl (by simp))
      simp only
      rw [lev_cons_cons c1 y p q]
      by_cases hc : c1 = y
      · simp [hc]
      · simp only [if_neg hc]
        congr 2
        split <;> split <;> omega
    rw [List.foldl_cons, hnew, ih (pre ++ [lev (c1 :: p) q]) (y :: q)]
    simp [levRowTail]

theorem edit_distance_outer_eq {α : Type} [DecidableEq α] (s2 : List α) (p : List α) (c1 : α) :
    edit_distance_outer s2 (levRow p [] s2, p.length) c1
      = (levRow (c1 :: p) [] s2, (c1 :: p).length) := by
  have h := edit_distance_inner_foldl c1 p s2 [] []
  simp only [List.nil_append, List.length_nil, lev_nil_right, List.length_cons] at h
  simp only [edit_distance_outer, levRow, lev_nil_right, List.set_cons_zero, List.length_cons]
  rw [h]

theorem edit_distance_outer_foldl {α : Type} [DecidableEq α] (s2 : List α) (s1 : List α) :
    ∀ p : List α, s1.foldl (edit_distance_outer s2) (levRow p [] s2, p.length)
      = (levRow (s1.reverse ++ p) [] s2, (s1.reverse ++ p).length) := by
  induction s1 with
  | nil => intro p; simp
  | cons c1 s1 ih =>
    intro p
    rw [List.foldl_cons, edit_distance_outer_eq, ih (c1 :: p)]
    simp

/-- The dynamic program computes the recursive distance. -/
theorem edit_distance_eq_lev {α : Type} [DecidableEq α] (s1 s2 : List α) : edit_distance s1 s2 = lev s1 s2 := by
  unfold edit_distance
  by_cases hm : s1.length = 0
  · have : s1 = [] := List.length_eq_zero.mp hm
    subst this
    simp [lev_nil_left]
  · by_cases hn : s2.length = 0
    · have : s2 = [] := List.length_eq_zero.mp hn
      subst this
      simp [lev_nil_right, hm]
    · simp only [hm, hn, if_false]
      have h0 : List.range (s2.length + 1) = levRow ([] : List α) [] s2 := by
        rw [levRow_nil, List.range_eq_range']
        rfl
      have h := edit_distance_outer_foldl s2 s1 []
      simp only [List.length_nil, List.append_nil] at h
      rw [h0, h, levRow_getD_length]
      simp only [List.append_nil]
      exact lev_reverse s1 s2

/-- C1: for all sequences `s1` and `s2`, `edit_distance s1 s2` is the
Levenshtein distance: it equals the standard recursive definition `lev`, some
sequence of that many single-symbol insertions, deletions and substitutions
turns `s1` into `s2`, and no shorter sequence of such edits does. -/
theorem edit_distance_is_levenshtein {α : Type} [DecidableEq α] (s1 s2 : List α) :
    edit_distance s1 s2 = lev s1 s2 ∧
      EditsTo (edit_distance s1 s2) s1 s2 ∧
      ∀ n : Nat, EditsTo n s1 s2 → edit_distance s1 s2 ≤ n := by
  rw [edit_distance_eq_lev]
  exact ⟨rfl, editsTo_lev _ s1 s2 (le_refl _), fun n hn => lev_le_of_editsTo hn⟩

/-- Two sequences of edits, one after the other. -/
theorem editsTo_trans {α : Type} {n m : Nat} {a b c : List α} (h1 : EditsTo n a b)
    (h2 : EditsTo m b c) : EditsTo (n + m) a c := by
  induction h1 with
  | done s => simpa using h2
  | @step n s t u hst _ ih =>
    have e : n + 1 + m = (n + m) + 1 := by omega
    rw [e]
    exact EditsTo.step hst (ih h2)

theorem lev_triangle {α : Type} [DecidableEq α] (a b c : List α) :
    lev a c ≤ lev a b + lev b c :=
  lev_le_of_editsTo
    (editsTo_trans (editsTo_lev _ a b (le_refl _)) (editsTo_lev _ b c (le_refl _)))

/-- C11: for all sequences `a`, `b` and `c`, of any length,
`edit_distance a c ≤ edit_distance a b + edit_distance b c`. -/
theorem edit_distance_triangle {α : Type} [DecidableEq α] (a b c : List α) :
    edit_distance a c ≤ edit_distance a b + edit_distance b c := by
  rw [edit_distance_eq_lev, edit_distance_eq_lev, edit_distance_eq_lev]
  exact lev_triangle a b c

/-- C26: for every sequence `S`, `edit_distance S S = 0`. -/
theorem edit_distance_self {α : Type} [DecidableEq α] (S : List α) :
    edit_distance S S = 0 := by
  rw [edit_distance_eq_lev]
  exact lev_self S

/-- C27: for every sequence `S`, `edit_distance S [] = len(S)` and
`edit_distance [] S = len(S)`. -/
theorem edit_distance_empty {α : Type} [DecidableEq α] (S : List α) :
    edit_distance S [] = S.length ∧ edit_distance [] S = S.length := by
  rw [edit_distance_eq_lev, edit_distance_eq_lev]
  exact ⟨lev_nil_right S, lev_nil_left S⟩

/-- The recursive distance does not depend on the order of its arguments. -/
theorem lev_comm {α : Type} [DecidableEq α] (k : Nat) :
    ∀ (s t : List α), s.length + t.length ≤ k → lev s t = lev t s := by
  induction k with
  | zero =>
    intro s t h
    have hs : s = [] := List.length_eq_zero.mp (by omega)
    have ht : t = [] := List.length_eq_zero.mp (by omega)
    rw [hs, ht]
  | succ k ih =>
    intro s t h
    cases s with
    | nil => rw [lev_nil_left, lev_nil_right]
    | cons a s =>
      cases t with
      | nil => rw [lev_nil_left, lev_nil_right]
      | cons b t =>
        simp only [List.length_cons] at h
        rw [lev_cons_cons, lev_cons_cons]
        have h1 := ih s t (by omega)
        have h2 := ih s (b :: t) (by simp only [List.length_cons]; omega)
        have h3 := ih (a :: s) t (by simp only [List.length_cons]; omega)
        by_cases hab : a = b
        · rw [if_pos hab, if_pos hab.symm, h1]
        · rw [if_neg hab, if_neg (fun hh => hab hh.symm), h1, h2, h3]
          omega

/-- C32: for all sequences `s1` and `s2`,
`edit_distance s1 s2 = edit_distance s2 s1`. -/
theorem edit_distance_symm {α : Type} [DecidableEq α] (s1 s2 : List α) :
    edit_distance s1 s2 = edit_distance s2 s1 := by
  rw [edit_distance_eq_lev, edit_distance_eq_lev]
  exact lev_comm _ s1 s2 (le_refl _)

theorem compute_repeat_example :
    (identity_instance 8 3 6).compute [3, 4, 5, 3, 4, 5] = Except.ok [3, 3, 3] := by
  decide

theorem occurrence_rank_append (h : WeightedMinHash) (d : Nat) (done rest : List Nat)
    (p : Nat) (hp : p < done.length) :
    h.occurrence_rank d (done ++ rest) p = h.occurrence_rank d done p := by
  unfold WeightedMinHash.occurrence_rank occurrence_index
  have h1 : (done ++ rest).getD p 0 = done.getD p 0 := by
    simp [List.getD_eq_getElem?_getD, List.getElem?_append_left hp]
  have h2 : (done ++ rest).take p = done.take p := by
    rw [List.take_append_of_le_length (le_of_lt hp)]
  rw [h1, h2]

theorem occurrence_rank_last (h : WeightedMinHash) (d : Nat) (done : List Nat) (s : Nat) :
    h.occurrence_rank d (done ++ [s]) done.length
      = (h.hashes.getD d []).getD (s + done.count s * h.set_size) 0 := by
  unfold WeightedMinHash.occurrence_rank occurrence_index
  have h1 : (done ++ [s]).getD done.length 0 = s := by
    simp [List.getD_eq_getElem?_getD]
  have h2 : (done ++ [s]).take done.length = done := by
    simp
  rw [h1, h2]

/-- The table index of an occurrence is inside a table of `set_size * max_len`
entries. -/
theorem occurrence_index_lt (set_size max_len s c : Nat) (hs : s < set_size)
    (hc : c < max_len) : s + c * set_size < set_size * max_len := by
  calc s + c * set_size < set_size + c * set_size := by omega
    _ = (c + 1) * set_size := by ring
    _ ≤ max_len * set_size := Nat.mul_le_mul_right _ hc
    _ = set_size * max_len := Nat.mul_comm _ _

/-- One iteration of the loop over the k-mers succeeds and keeps the
invariant. -/
theorem compute_kmer_inv (h : WeightedMinHash) (d n : Nat) (table : List Nat)
    (ht : h.hashes[d]? = some table) (hlen : table.length = h.set_size * h.max_len)
    (hr : ∀ r ∈ table, r ≤ n) (done : List Nat) (st : Nat × Option Nat × List Nat)
    (s : Nat) (hs : s < h.set_size) (hdone : done.length < h.max_len)
    (hinv : h.loop_inv d n done st) :
    ∃ st1, h.compute_kmer d st s = Except.ok st1 ∧ h.loop_inv d n (done ++ [s]) st1 := by
  obtain ⟨hcl, hcnt, hempty, hne⟩ := hinv
  have hidx : s + done.count s * h.set_size < table.length := by
    rw [hlen]
    exact occurrence_index_lt _ _ _ _ hs (lt_of_le_of_lt (List.count_le_length s done) hdone)
  have hrk : h.occurrence_rank d (done ++ [s]) done.length
      = table[s + done.count s * h.set_size] := by
    rw [occurrence_rank_last]
    simp [List.getD_eq_getElem?_getD, ht, List.getElem?_eq_getElem hidx]
  have hcnts : ∀ v, (st.2.2.set s v).length = h.set_size ∧
      ∀ s2, s2 < h.set_size →
        (st.2.2.set s (done.count s + 1))[s2]? = some ((done ++ [s]).count s2) := by
    intro v
    refine ⟨by simp [hcl], ?_⟩
    intro s2 hs2
    by_cases he : s = s2
    · subst he
      simp [List.getElem?_set_self, hcl, hs]
    · rw [List.getElem?_set_ne he, hcnt s2 hs2]
      simp [List.count_append, List.count_singleton, he]
  have hpos : (done ++ [s]).getD done.length 0 = s := by
    simp [List.getD_eq_getElem?_getD]
  have hstep : h.compute_kmer d st s =
      if table[s + done.count s * h.set_size] < st.1 then
        Except.ok (table[s + done.count s * h.set_size], some s,
          st.2.2.set s (done.count s + 1))
      else Except.ok (st.1, st.2.1, st.2.2.set s (done.count s + 1)) := by
    simp only [WeightedMinHash.compute_kmer, hcnt s hs, ht, List.getElem?_eq_getElem hidx]
  rw [hstep]
  have hrn : table[s + done.count s * h.set_size] ≤ n :=
    hr _ (List.getElem_mem _)
  by_cases hlt : table[s + done.count s * h.set_size] < st.1
  · rw [if_pos hlt]
    refine ⟨_, rfl, (hcnts _).1, (hcnts 0).2, by simp, ?_⟩
    intro _
    refine ⟨done.length, by simp, by simp [hpos], by simp [hrk], ?_, ?_⟩
    · intro q hq
      rw [hrk]
      by_cases hq2 : q < done.length
      · have hdne : done ≠ [] := by
          intro h0; subst h0; simp at hq2
        obtain ⟨p, hp, _, hmin, hall, _⟩ := hne hdne
        rw [occurrence_rank_append _ _ _ _ _ hq2]
        have := hall q hq2
        simp only at hlt
        omega
      · have : q = done.length := by
          simp at hq; omega
        subst this
        rw [hrk]
    · intro q hq
      rw [hrk]
      have hdne : done ≠ [] := by
        intro h0; subst h0; simp at hq
      obtain ⟨p, hp, _, hmin, hall, _⟩ := hne hdne
      rw [occurrence_rank_append _ _ _ _ _ hq]
      have := hall q hq
      simp only at hlt
      omega
  · rw [if_neg hlt]
    have hdne : done ≠ [] := by
      intro h0
      have := (hempty h0).1
      omega
    obtain ⟨p, hp, hchar, hmin, hall, hfirst⟩ := hne hdne
    refine ⟨_, rfl, (hcnts _).1, (hcnts 0).2, by simp, ?_⟩
    intro _
    refine ⟨p, by simp; omega, ?_, ?_, ?_, ?_⟩
    · simp only [hchar]
      congr 1
      simp [List.getD_eq_getElem?_getD, List.getElem?_append_left hp]
    · simp only [hmin]
      rw [occurrence_rank_append _ _ _ _ _ hp]
    · intro q hq
      rw [occurrence_rank_append _ _ _ _ _ hp]
      by_cases hq2 : q < done.length
      · rw [occurrence_rank_append _ _ _ _ _ hq2]
        exact hall q hq2
      · have : q = done.length := by
          simp at hq; omega
        subst this
        rw [hrk]
        omega
    · intro q hq
      rw [occurrence_rank_append _ _ _ _ _ hp,
        occurrence_rank_append _ _ _ _ _ (lt_trans hq hp)]
      exact hfirst q hq

/-- The loop over the k-mers succeeds and keeps the invariant. -/
theorem compute_kmer_loop (h : WeightedMinHash) (d n : Nat) (table : List Nat)
    (ht : h.hashes[d]? = some table) (hlen : table.length = h.set_size * h.max_len)
    (hr : ∀ r ∈ table, r ≤ n) (rest : List Nat) :
    ∀ (done : List Nat) (st : Nat × Option Nat × List Nat),
      (done ++ rest).length ≤ h.max_len → (∀ s ∈ rest, s < h.set_size) →
      h.loop_inv d n done st →
      ∃ st1, for_each (h.compute_kmer d) st rest = Except.ok st1 ∧
        h.loop_inv d n (done ++ rest) st1 := by
  induction rest with
  | nil =>
    intro done st _ _ hinv
    exact ⟨st, rfl, by simpa using hinv⟩
  | cons s rest ih =>
    intro done st hl hsym hinv
    have hdl : done.length < h.max_len := by
      simp at hl; omega
    obtain ⟨st1, hst1, hinv1⟩ :=
      compute_kmer_inv h d n table ht hlen hr done st s (hsym s (by simp)) hdl hinv
    obtain ⟨st2, hst2, hinv2⟩ := ih (done ++ [s]) st1 (by simpa using hl)
      (fun x hx => hsym x (by simp [hx])) hinv1
    refine ⟨st2, ?_, by simpa using hinv2⟩
    simp only [for_each, hst1, hst2]

/-- The loop over the sketch components stores the value of each component
that succeeds. -/
theorem compute_components_loop (h : WeightedMinHash) (kmers : List Nat) (sketch0 : List Nat)
    (hall : ∀ si, si < sketch0.length → ∃ v, h.compute_component kmers si = Except.ok v) :
    ∀ k, k ≤ sketch0.length →
      ∃ sketch, for_each
          (fun sketch si =>
            match h.compute_component kmers si with
            | Except.error e => Except.error e
            | Except.ok min_char => Except.ok (sketch.set si min_char))
          sketch0 (List.range k) = Except.ok sketch ∧
        sketch.length = sketch0.length ∧
        (∀ si, si < k → h.compute_component kmers si = Except.ok (sketch.getD si 0)) ∧
        (∀ si, k ≤ si → sketch.getD si 0 = sketch0.getD si 0) := by
  intro k
  induction k with
  | zero =>
    intro _
    exact ⟨sketch0, rfl, rfl, by intro si hsi; omega, by intro si _; rfl⟩
  | succ k ih =>
    intro hk
    obtain ⟨sk, hrun, hlen, hlow, hhigh⟩ := ih (by omega)
    obtain ⟨v, hv⟩ := hall k (by omega)
    refine ⟨sk.set k v, ?_, by simp [hlen], ?_, ?_⟩
    · rw [List.range_succ, for_each_append, hrun]
      simp only [for_each, hv]
    · intro si hsi
      by_cases hsk : si = k
      · subst hsk
        rw [hv]
        simp [List.getD_eq_getElem?_getD, List.getElem?_set_self, hlen, hk]
        have : si < sk.length := by omega
        simp [List.getElem?_set_self this]
      · have := hlow si (by omega)
        rw [this]
        simp [List.getD_eq_getElem?_getD, List.getElem?_set_ne (Ne.symm hsk)]
    · intro si hsi
      rw [← hhigh si (by omega)]
      have hne : k ≠ si := by omega
      simp [List.getD_eq_getElem?_getD, List.getElem?_set_ne hne]

/-- For a non-empty input that passes the length check, `compute` returns the
vector of the component values whenever every component succeeds. -/
theorem compute_of_components (h : WeightedMinHash) (kmers : List Nat) (hne : kmers ≠ [])
    (hlen : kmers.length ≤ h.max_len)
    (hall : ∀ si, si < h.sketch_dim → ∃ v, h.compute_component kmers si = Except.ok v) :
    ∃ sketch, h.compute kmers = Except.ok sketch ∧ sketch.length = h.sketch_dim ∧
      ∀ si, si < h.sketch_dim → h.compute_component kmers si = Except.ok (sketch.getD si 0) := by
  have hall2 : ∀ si, si < (List.replicate h.sketch_dim 0).length →
      ∃ v, h.compute_component kmers si = Except.ok v := by
    intro si hsi
    exact hall si (by simpa using hsi)
  obtain ⟨sk, hrun, hl, hlow, _⟩ :=
    compute_components_loop h kmers (List.replicate h.sketch_dim 0) hall2 h.sketch_dim (by simp)
  refine ⟨sk, ?_, by simpa using hl, hlow⟩
  have hnl : ¬ kmers.length > h.max_len := by omega
  have hemp : kmers.isEmpty = false := by
    cases kmers with
    | nil => exact absurd rfl hne
    | cons a l => rfl
  simp only [WeightedMinHash.compute, hnl, if_false, hemp]
  exact hrun

/-- Each component of a well-formed instance returns the symbol of the earliest
occurrence of smallest rank. -/
theorem compute_component_spec (h : WeightedMinHash) (hok : h.tables_ok) (kmers : List Nat)
    (hne : kmers ≠ []) (hlen : kmers.length ≤ h.max_len)
    (hsym : ∀ s ∈ kmers, s < h.set_size) (d : Nat) (hd : d < h.sketch_dim) :
    ∃ p, p < kmers.length ∧ h.compute_component kmers d = Except.ok (kmers.getD p 0) ∧
      (∀ q, q < kmers.length → h.occurrence_rank d kmers p ≤ h.occurrence_rank d kmers q) ∧
      (∀ q, q < p → h.occurrence_rank d kmers p < h.occurrence_rank d kmers q) := by
  obtain ⟨hdim, htab⟩ := hok
  have h0 : 0 < h.hashes.length := by omega
  have hd2 : d < h.hashes.length := by omega
  have ht0 := htab _ (List.getElem_mem h0)
  have htd := htab _ (List.getElem_mem hd2)
  have hinit : h.loop_inv d (h.hashes[0]).length []
      ((h.hashes[0]).length + 1, none, List.replicate h.set_size 0) := by
    refine ⟨by simp, ?_, by simp, by simp⟩
    intro s hs
    simp [List.getElem?_replicate, hs]
  have hr : ∀ r ∈ h.hashes[d], r ≤ (h.hashes[0]).length := by
    intro r hr
    have := htd.2 r hr
    rw [htd.1] at this
    rw [ht0.1]
    exact this
  obtain ⟨st1, hrun, hinv⟩ := compute_kmer_loop h d (h.hashes[0]).length (h.hashes[d])
    (List.getElem?_eq_getElem hd2) htd.1 hr kmers [] _ (by simpa using hlen) hsym hinit
  simp only [List.nil_append] at hinv
  obtain ⟨p, hp, hchar, _, hall, hfirst⟩ := hinv.2.2.2 hne
  refine ⟨p, hp, ?_, hall, hfirst⟩
  simp only [WeightedMinHash.compute_component, List.getElem?_eq_getElem h0, hrun, hchar]

/-- Every occurrence is the `j`-th repetition of its symbol for some `j` below
the number of occurrences of that symbol. -/
theorem count_take_lt_count (kmers : List Nat) (p : Nat) (hp : p < kmers.length) :
    (kmers.take p).count (kmers.getD p 0) < kmers.count (kmers.getD p 0) := by
  have hsplit : kmers = kmers.take p ++ kmers.getD p 0 :: kmers.drop (p + 1) := by
    have h1 : kmers.getD p 0 = kmers[p] := by
      simp [List.getD_eq_getElem?_getD, List.getElem?_eq_getElem hp]
    rw [h1, ← List.drop_eq_getElem_cons hp, List.take_append_drop]
  have : kmers.count (kmers.getD p 0)
      = (kmers.take p).count (kmers.getD p 0) + 1
        + (kmers.drop (p + 1)).count (kmers.getD p 0) := by
    have hc := congrArg (List.count (kmers.getD p 0)) hsplit
    rw [List.count_append, List.count_cons_self] at hc
    omega
  omega

/-- Every repetition number below the number of occurrences of a symbol is
taken by one occurrence of that symbol. -/
theorem exists_occurrence (kmers : List Nat) :
    ∀ s j, j < kmers.count s →
      ∃ p, p < kmers.length ∧ kmers.getD p 0 = s ∧ (kmers.take p).count s = j := by
  induction kmers using List.reverseRecOn with
  | nil => intro s j hj; simp at hj
  | append_singleton l a ih =>
    intro s j hj
    by_cases hlt : j < l.count s
    · obtain ⟨p, hp, hget, hcnt⟩ := ih s j hlt
      refine ⟨p, by simp; omega, ?_, ?_⟩
      · rw [← hget]
        simp [List.getD_eq_getElem?_getD, List.getElem?_append_left hp]
      · rw [List.take_append_of_le_length (le_of_lt hp)]
        exact hcnt
    · have has : a = s := by
        by_contra hne
        simp [List.count_append, List.count_singleton, hne] at hj
        omega
      subst has
      have hj2 : j = l.count a := by
        simp [List.count_append] at hj
        omega
      refine ⟨l.length, by simp, by simp [List.getD_eq_getElem?_getD], by simp [hj2]⟩

/-- The occurrences of a rearranged sequence use the same table rows. -/
theorem occurrence_index_perm (set_size : Nat) (k1 k2 : List Nat) (hperm : k1.Perm k2)
    (p : Nat) (hp : p < k1.length) :
    ∃ q, q < k2.length ∧ occurrence_index set_size k2 q = occurrence_index set_size k1 p ∧
      k2.getD q 0 = k1.getD p 0 := by
  have h1 := count_take_lt_count k1 p hp
  rw [hperm.count_eq] at h1
  obtain ⟨q, hq, hget, hcnt⟩ := exists_occurrence k2 _ _ h1
  refine ⟨q, hq, ?_, hget⟩
  unfold occurrence_index
  rw [hget, hcnt]

/-- The first occurrence of a symbol uses the table row of the symbol itself. -/
theorem exists_first_occurrence (set_size : Nat) (kmers : List Nat) (s : Nat)
    (hs : s ∈ kmers) : ∃ q, q < kmers.length ∧ occurrence_index set_size kmers q = s := by
  have hpos : 0 < kmers.count s := List.count_pos_iff.mpr hs
  obtain ⟨q, hq, hget, hcnt⟩ := exists_occurrence kmers s 0 hpos
  refine ⟨q, hq, ?_⟩
  unfold occurrence_index
  rw [hget, hcnt]
  simp

/-- On a well-formed instance the rank of an occurrence is read inside the
table. -/
theorem occurrence_rank_eq_getElem (h : WeightedMinHash) (hok : h.tables_ok)
    (kmers : List Nat) (hlen : kmers.length ≤ h.max_len)
    (hsym : ∀ s ∈ kmers, s < h.set_size) (d : Nat) (hd : d < h.hashes.length)
    (p : Nat) (hp : p < kmers.length) :
    ∃ hi : occurrence_index h.set_size kmers p < (h.hashes[d]).length,
      h.occurrence_rank d kmers p = (h.hashes[d])[occurrence_index h.set_size kmers p] := by
  have htd := hok.2 _ (List.getElem_mem hd)
  have hmem : kmers.getD p 0 ∈ kmers := by
    have : kmers.getD p 0 = kmers[p] := by
      simp [List.getD_eq_getElem?_getD, List.getElem?_eq_getElem hp]
    rw [this]
    exact List.getElem_mem hp
  have hcnt : (kmers.take p).count (kmers.getD p 0) < h.max_len := by
    have h1 := List.count_le_length (kmers.getD p 0) (kmers.take p)
    have h2 : (kmers.take p).length ≤ p := by simp
    omega
  have hi : occurrence_index h.set_size kmers p < (h.hashes[d]).length := by
    rw [htd.1]
    exact occurrence_index_lt _ _ _ _ (hsym _ hmem) hcnt
  refine ⟨hi, ?_⟩
  unfold WeightedMinHash.occurrence_rank
  simp [List.getD_eq_getElem?_getD, List.getElem?_eq_getElem hd, List.getElem?_eq_getElem hi]

/-- With pairwise distinct ranks, a component of the sketch is the same for two
rearrangements of a sequence. -/
theorem compute_component_perm (h : WeightedMinHash) (hok : h.tables_ok)
    (hnd : ∀ table ∈ h.hashes, table.Nodup) (k1 k2 : List Nat) (hperm : k1.Perm k2)
    (hne : k1 ≠ []) (hlen : k1.length ≤ h.max_len) (hsym : ∀ s ∈ k1, s < h.set_size)
    (d : Nat) (hd : d < h.sketch_dim) :
    ∃ v, h.compute_component k1 d = Except.ok v ∧ h.compute_component k2 d = Except.ok v := by
  have hne2 : k2 ≠ [] := by
    intro h0
    rw [h0] at hperm
    exact hne hperm.eq_nil
  have hlen2 : k2.length ≤ h.max_len := by rw [← hperm.length_eq]; exact hlen
  have hsym2 : ∀ s ∈ k2, s < h.set_size := fun s hs => hsym s (hperm.mem_iff.mpr hs)
  have hdl : d < h.hashes.length := by rw [hok.1]; exact hd
  obtain ⟨p1, hp1, hc1, hall1, _⟩ := compute_component_spec h hok k1 hne hlen hsym d hd
  obtain ⟨p2, hp2, hc2, hall2, _⟩ := compute_component_spec h hok k2 hne2 hlen2 hsym2 d hd
  obtain ⟨q2, hq2, hidx2, _⟩ := occurrence_index_perm h.set_size k1 k2 hperm p1 hp1
  obtain ⟨q1, hq1, hidx1, _⟩ := occurrence_index_perm h.set_size k2 k1 hperm.symm p2 hp2
  obtain ⟨hi1, hr1⟩ := occurrence_rank_eq_getElem h hok k1 hlen hsym d hdl p1 hp1
  obtain ⟨hi2, hr2⟩ := occurrence_rank_eq_getElem h hok k2 hlen2 hsym2 d hdl p2 hp2
  obtain ⟨hj1, hs1⟩ := occurrence_rank_eq_getElem h hok k1 hlen hsym d hdl q1 hq1
  obtain ⟨hj2, hs2⟩ := occurrence_rank_eq_getElem h hok k2 hlen2 hsym2 d hdl q2 hq2
  have hle1 := hall1 q1 hq1
  have hle2 := hall2 q2 hq2
  rw [hr1, hs1] at hle1
  rw [hr2, hs2] at hle2
  simp only [hidx1] at hle1
  simp only [hidx2] at hle2
  have heq : (h.hashes[d])[occurrence_index h.set_size k1 p1]
      = (h.hashes[d])[occurrence_index h.set_size k2 p2] := le_antisymm hle1 hle2
  have hidx : occurrence_index h.set_size k1 p1 = occurrence_index h.set_size k2 p2 :=
    ((hnd _ (List.getElem_mem hdl)).getElem_inj_iff).mp heq
  have hm1 : k1.getD p1 0 < h.set_size := by
    have : k1.getD p1 0 = k1[p1] := by
      simp [List.getD_eq_getElem?_getD, List.getElem?_eq_getElem hp1]
    rw [this]
    exact hsym _ (List.getElem_mem hp1)
  have hm2 : k2.getD p2 0 < h.set_size := by
    have : k2.getD p2 0 = k2[p2] := by
      simp [List.getD_eq_getElem?_getD, List.getElem?_eq_getElem hp2]
    rw [this]
    exact hsym2 _ (List.getElem_mem hp2)
  have hsame : k1.getD p1 0 = k2.getD p2 0 := by
    unfold occurrence_index at hidx
    have e1 := congrArg (fun x => x % h.set_size) hidx
    simp only [Nat.add_mul_mod_self_right] at e1
    rw [Nat.mod_eq_of_lt hm1, Nat.mod_eq_of_lt hm2] at e1
    exact e1
  exact ⟨k1.getD p1 0, hc1, by rw [hc2, hsame]⟩

/-- With identity tables every component is the smallest symbol. -/
theorem compute_component_identity (h : WeightedMinHash)
    (hid : h.hashes = List.replicate h.sketch_dim (List.range (h.set_size * h.max_len)))
    (kmers : List Nat) (hne : kmers ≠ []) (hlen : kmers.length ≤ h.max_len)
    (hsym : ∀ s ∈ kmers, s < h.set_size) (d : Nat) (hd : d < h.sketch_dim) :
    ∃ m, m ∈ kmers ∧ (∀ s ∈ kmers, m ≤ s) ∧ h.compute_component kmers d = Except.ok m := by
  have hok : h.tables_ok := by
    refine ⟨by rw [hid]; simp, ?_⟩
    intro table ht
    rw [hid] at ht
    have := (List.mem_replicate.mp ht).2
    subst this
    refine ⟨by simp, ?_⟩
    intro r hr
    have := List.mem_range.mp hr
    simp
    omega
  have hdl : d < h.hashes.length := by rw [hok.1]; exact hd
  have htd : h.hashes[d] = List.range (h.set_size * h.max_len) := by
    have hm : h.hashes[d] ∈ h.hashes := List.getElem_mem hdl
    have hall : ∀ table ∈ h.hashes, table = List.range (h.set_size * h.max_len) := by
      intro table ht
      rw [hid] at ht
      exact (List.mem_replicate.mp ht).2
    exact hall _ hm
  have hrank : ∀ q, q < kmers.length →
      h.occurrence_rank d kmers q = occurrence_index h.set_size kmers q := by
    intro q hq
    obtain ⟨hi, hr⟩ := occurrence_rank_eq_getElem h hok kmers hlen hsym d hdl q hq
    rw [hr]
    simp [htd]
  obtain ⟨p, hp, hc, hall, _⟩ := compute_component_spec h hok kmers hne hlen hsym d hd
  have hpm : kmers.getD p 0 ∈ kmers := by
    have : kmers.getD p 0 = kmers[p] := by
      simp [List.getD_eq_getElem?_getD, List.getElem?_eq_getElem hp]
    rw [this]
    exact List.getElem_mem hp
  refine ⟨kmers.getD p 0, hpm, ?_, hc⟩
  intro s hs
  obtain ⟨q, hq, hidx⟩ := exists_first_occurrence h.set_size kmers s hs
  have := hall q hq
  rw [hrank p hp, hrank q hq, hidx] at this
  unfold occurrence_index at this
  omega

/-- The loop over the k-mers never raises the invalid-argument error. -/
theorem compute_component_error (h : WeightedMinHash) (kmers : List Nat) (si : Nat)
    (e : ComputeError) (he : h.compute_component kmers si = Except.error e) :
    e = ComputeError.undefined_behaviour := by
  have hk : ∀ st x e, h.compute_kmer si st x = Except.error e →
      e = ComputeError.undefined_behaviour := by
    intro st x e hx
    unfold WeightedMinHash.compute_kmer at hx
    split at hx
    · simp only [Except.error.injEq] at hx; exact hx.symm
    · split at hx
      · simp only [Except.error.injEq] at hx; exact hx.symm
      · split at hx
        · simp only [Except.error.injEq] at hx; exact hx.symm
        · simp only at hx
          split at hx <;> simp at hx
  unfold WeightedMinHash.compute_component at he
  split at he
  · simp only [Except.error.injEq] at he; exact he.symm
  · split at he
    · rename_i e1 hrun
      simp only [Except.error.injEq] at he
      subst he
      exact for_each_error _ _ hk kmers _ _ hrun
    · split at he
      · simp only [Except.error.injEq] at he; exact he.symm
      · simp at he

/-- The invalid-argument error comes from the length check only. -/
theorem compute_invalid_argument (h : WeightedMinHash) (kmers : List Nat) (msg : String)
    (he : h.compute kmers = Except.error (ComputeError.invalid_argument msg)) :
    h.max_len < kmers.length := by
  by_contra hnl
  have hnl2 : ¬ kmers.length > h.max_len := hnl
  simp only [WeightedMinHash.compute, hnl2, if_false] at he
  split at he
  · simp at he
  · have hb : ∀ (st : List Nat) (x : Nat) (e : ComputeError),
        (match h.compute_component kmers x with
          | Except.error e => Except.error e
          | Except.ok min_char => Except.ok (st.set x min_char)) = Except.error e →
        e = ComputeError.undefined_behaviour := by
      intro st x e hx
      split at hx
      · rename_i e1 hc
        simp only [Except.error.injEq] at hx
        subst hx
        exact compute_component_error h kmers x e1 hc
      · simp at hx
    have := for_each_error _ _ hb _ _ _ he
    simp at this

/-- C2: on a well-formed hash-table set (tables of `set_size * max_len`
entries, every rank at most the table size) and a non-empty k-mer sequence of
length at most `max_len` with all symbols below `set_size`, `compute` returns a
sketch whose component `d` is the symbol of the occurrence of smallest rank,
the earliest such occurrence when several share that rank. -/
theorem compute_component_is_min_rank_occurrence (h : WeightedMinHash) (hok : h.tables_ok)
    (kmers : List Nat) (hne : kmers ≠ []) (hlen : kmers.length ≤ h.max_len)
    (hsym : ∀ s ∈ kmers, s < h.set_size) (d : Nat) (hd : d < h.sketch_dim) :
    ∃ sketch, h.compute kmers = Except.ok sketch ∧
      ∃ p, p < kmers.length ∧ sketch[d]? = some (kmers.getD p 0) ∧
        (∀ q, q < kmers.length → h.occurrence_rank d kmers p ≤ h.occurrence_rank d kmers q) ∧
        (∀ q, q < p → h.occurrence_rank d kmers p < h.occurrence_rank d kmers q) := by
  have hall : ∀ si, si < h.sketch_dim → ∃ v, h.compute_component kmers si = Except.ok v := by
    intro si hsi
    obtain ⟨p, _, hc, _⟩ := compute_component_spec h hok kmers hne hlen hsym si hsi
    exact ⟨_, hc⟩
  obtain ⟨sketch, hrun, hl, hcomp⟩ := compute_of_components h kmers hne hlen hall
  obtain ⟨p, hp, hc, hmin, hfirst⟩ := compute_component_spec h hok kmers hne hlen hsym d hd
  refine ⟨sketch, hrun, p, hp, ?_, hmin, hfirst⟩
  have h1 := hcomp d hd
  rw [hc] at h1
  simp only [Except.ok.injEq] at h1
  have hdl : d < sketch.length := by omega
  rw [h1]
  simp [List.getD_eq_getElem?_getD, List.getElem?_eq_getElem hdl]

theorem compute_component_is_min_rank_occurrence_witness :
    ∃ sketch, (identity_instance 4 3 4).compute [2, 1, 2] = Except.ok sketch ∧
      ∃ p, p < [2, 1, 2].length ∧ sketch[0]? = some ([2, 1, 2].getD p 0) ∧
        (∀ q, q < [2, 1, 2].length →
          (identity_instance 4 3 4).occurrence_rank 0 [2, 1, 2] p
            ≤ (identity_instance 4 3 4).occurrence_rank 0 [2, 1, 2] q) ∧
        (∀ q, q < p →
          (identity_instance 4 3 4).occurrence_rank 0 [2, 1, 2] p
            < (identity_instance 4 3 4).occurrence_rank 0 [2, 1, 2] q) :=
  compute_component_is_min_rank_occurrence (identity_instance 4 3 4)
    (by unfold WeightedMinHash.tables_ok; decide) [2, 1, 2] (by decide) (by decide)
    (by decide) 0 (by decide)

/-- C7: for a k-mer sequence with all symbols below `set_size`, `compute` fails
with the invalid-argument error exactly when the sequence is longer than
`max_len`; on a well-formed instance a sequence of length at most `max_len`
(in particular exactly `max_len`) is accepted and a sketch of `sketch_dim`
entries is returned. -/
theorem compute_invalid_argument_iff (h : WeightedMinHash) (kmers : List Nat)
    (hsym : ∀ s ∈ kmers, s < h.set_size) :
    ((∃ msg, h.compute kmers = Except.error (ComputeError.invalid_argument msg))
        ↔ h.max_len < kmers.length) ∧
      (h.tables_ok → kmers.length ≤ h.max_len →
        ∃ sketch, h.compute kmers = Except.ok sketch ∧ sketch.length = h.sketch_dim) := by
  refine ⟨⟨?_, ?_⟩, ?_⟩
  · rintro ⟨msg, he⟩
    exact compute_invalid_argument h kmers msg he
  · intro hl
    have hl2 : kmers.length > h.max_len := hl
    refine ⟨"Sequence too long. Maximum sequence length is " ++ toString h.max_len
      ++ ". Set --max_length to a higher value.", ?_⟩
    simp only [WeightedMinHash.compute, hl2, if_true]
  · intro hok hlen
    by_cases hne : kmers = []
    · subst hne
      exact ⟨List.replicate h.sketch_dim 0, by simp [WeightedMinHash.compute], by simp⟩
    · have hall : ∀ si, si < h.sketch_dim →
          ∃ v, h.compute_component kmers si = Except.ok v := by
        intro si hsi
        obtain ⟨p, _, hc, _⟩ := compute_component_spec h hok kmers hne hlen hsym si hsi
        exact ⟨_, hc⟩
      obtain ⟨sketch, hrun, hl, _⟩ := compute_of_components h kmers hne hlen hall
      exact ⟨sketch, hrun, hl⟩

theorem compute_invalid_argument_iff_witness :
    ((∃ msg, (identity_instance 4 3 4).compute [0, 1, 2, 3] =
          Except.error (ComputeError.invalid_argument msg))
        ↔ (identity_instance 4 3 4).max_len < [0, 1, 2, 3].length) ∧
      ∃ sketch, (identity_instance 4 3 4).compute [0, 1, 2, 3] = Except.ok sketch ∧
        sketch.length = (identity_instance 4 3 4).sketch_dim :=
  ⟨(compute_invalid_argument_iff (identity_instance 4 3 4) [0, 1, 2, 3] (by decide)).1,
    (compute_invalid_argument_iff (identity_instance 4 3 4) [0, 1, 2, 3] (by decide)).2
      (by unfold WeightedMinHash.tables_ok; decide) (by decide)⟩

/-- C8: on a well-formed instance whose tables have pairwise distinct ranks,
two k-mer sequences (length at most `max_len`, symbols below `set_size`) that
are rearrangements of each other get the same sketch. -/
theorem compute_rearrangement (h : WeightedMinHash) (hok : h.tables_ok)
    (hnd : ∀ table ∈ h.hashes, table.Nodup) (k1 k2 : List Nat) (hperm : k1.Perm k2)
    (hlen : k1.length ≤ h.max_len) (hsym : ∀ s ∈ k1, s < h.set_size) :
    ∃ sketch, h.compute k1 = Except.ok sketch ∧ h.compute k2 = Except.ok sketch := by
  by_cases hne : k1 = []
  · subst hne
    have : k2 = [] := hperm.symm.eq_nil
    subst this
    exact ⟨List.replicate h.sketch_dim 0, by simp [WeightedMinHash.compute],
      by simp [WeightedMinHash.compute]⟩
  · have hne2 : k2 ≠ [] := by
      intro h0
      rw [h0] at hperm
      exact hne hperm.eq_nil
    have hlen2 : k2.length ≤ h.max_len := by rw [← hperm.length_eq]; exact hlen
    have hboth := compute_component_perm h hok hnd k1 k2 hperm hne hlen hsym
    have hall1 : ∀ si, si < h.sketch_dim →
        ∃ v, h.compute_component k1 si = Except.ok v := by
      intro si hsi
      obtain ⟨v, hv, _⟩ := hboth si hsi
      exact ⟨v, hv⟩
    have hall2 : ∀ si, si < h.sketch_dim →
        ∃ v, h.compute_component k2 si = Except.ok v := by
      intro si hsi
      obtain ⟨v, _, hv⟩ := hboth si hsi
      exact ⟨v, hv⟩
    obtain ⟨sk1, hrun1, hl1, hc1⟩ := compute_of_components h k1 hne hlen hall1
    obtain ⟨sk2, hrun2, hl2, hc2⟩ := compute_of_components h k2 hne2 hlen2 hall2
    have hsk : sk1 = sk2 := by
      apply List.ext_getElem (by omega)
      intro i hi1 hi2
      obtain ⟨v, hv1, hv2⟩ := hboth i (by omega)
      have e1 := hc1 i (by omega)
      have e2 := hc2 i (by omega)
      rw [hv1] at e1
      rw [hv2] at e2
      simp only [Except.ok.injEq] at e1 e2
      have g1 : sk1.getD i 0 = sk1[i] := by
        simp [List.getD_eq_getElem?_getD, List.getElem?_eq_getElem hi1]
      have g2 : sk2.getD i 0 = sk2[i] := by
        simp [List.getD_eq_getElem?_getD, List.getElem?_eq_getElem hi2]
      rw [← g1, ← g2, ← e1, ← e2]
    exact ⟨sk1, hrun1, by rw [hrun2, hsk]⟩

theorem compute_rearrangement_witness :
    ∃ sketch, (identity_instance 8 3 6).compute [0, 1, 2, 3, 4, 5] = Except.ok sketch ∧
      (identity_instance 8 3 6).compute [5, 4, 3, 2, 1, 0] = Except.ok sketch :=
  compute_rearrangement (identity_instance 8 3 6)
    (by unfold WeightedMinHash.tables_ok; decide) (by decide)
    [0, 1, 2, 3, 4, 5] [5, 4, 3, 2, 1, 0] (by decide) (by decide) (by decide)

theorem exists_min_mem (l : List Nat) (hne : l ≠ []) : ∃ m, m ∈ l ∧ ∀ s ∈ l, m ≤ s := by
  induction l with
  | nil => exact absurd rfl hne
  | cons a l ih =>
    by_cases hl : l = []
    · subst hl
      exact ⟨a, by simp, by simp⟩
    · obtain ⟨m, hm, hle⟩ := ih hl
      by_cases ham : a ≤ m
      · refine ⟨a, by simp, ?_⟩
        intro s hs
        rcases List.mem_cons.mp hs with h1 | h1
        · omega
        · exact le_trans ham (hle s h1)
      · refine ⟨m, by simp [hm], ?_⟩
        intro s hs
        rcases List.mem_cons.mp hs with h1 | h1
        · omega
        · exact hle s h1

/-- With identity tables the sketch of a non-empty sequence repeats its
smallest symbol. -/
theorem compute_identity (h : WeightedMinHash)
    (hid : h.hashes = List.replicate h.sketch_dim (List.range (h.set_size * h.max_len)))
    (kmers : List Nat) (hne : kmers ≠ []) (hlen : kmers.length ≤ h.max_len)
    (hsym : ∀ s ∈ kmers, s < h.set_size) :
    ∃ m, m ∈ kmers ∧ (∀ s ∈ kmers, m ≤ s) ∧
      h.compute kmers = Except.ok (List.replicate h.sketch_dim m) := by
  have hcomp := compute_component_identity h hid kmers hne hlen hsym
  have hall : ∀ si, si < h.sketch_dim → ∃ v, h.compute_component kmers si = Except.ok v := by
    intro si hsi
    obtain ⟨m, _, _, hc⟩ := hcomp si hsi
    exact ⟨m, hc⟩
  obtain ⟨sketch, hrun, hl, hc⟩ := compute_of_components h kmers hne hlen hall
  have hmin : ∃ m, m ∈ kmers ∧ ∀ s ∈ kmers, m ≤ s := by
    by_cases h0 : 0 < h.sketch_dim
    · obtain ⟨m, hm, hle, _⟩ := hcomp 0 h0
      exact ⟨m, hm, hle⟩
    · exact exists_min_mem kmers hne
  obtain ⟨m, hm, hle⟩ := hmin
  refine ⟨m, hm, hle, ?_⟩
  rw [hrun]
  congr 1
  apply List.ext_getElem (by simp [hl])
  intro i hi1 hi2
  obtain ⟨m2, hm2, hle2, hc2⟩ := hcomp i (by omega)
  have e1 := hc i (by omega)
  rw [hc2] at e1
  simp only [Except.ok.injEq] at e1
  have g1 : sketch.getD i 0 = sketch[i] := by
    simp [List.getD_eq_getElem?_getD, List.getElem?_eq_getElem hi1]
  have hmm : m2 = m := le_antisymm (hle2 m hm) (hle m2 hm2)
  rw [← g1, ← e1, hmm]
  simp

/-- C9: with identity hash tables (`rank[j] = j`), every component of the
sketch of a non-empty k-mer sequence (length at most `max_len`, symbols below
`set_size`) is the smallest symbol of the sequence; in particular for dimension
3 and every `i < set_size` the sequence `i, i+1, ..., set_size-1`, and the same
sequence written twice in a row, both give the sketch `[i, i, i]`. -/
theorem compute_identity_hashes (h : WeightedMinHash)
    (hid : h.hashes = List.replicate h.sketch_dim (List.range (h.set_size * h.max_len))) :
    (∀ kmers : List Nat, kmers ≠ [] → kmers.length ≤ h.max_len →
      (∀ s ∈ kmers, s < h.set_size) →
      ∃ m, m ∈ kmers ∧ (∀ s ∈ kmers, m ≤ s) ∧
        h.compute kmers = Except.ok (List.replicate h.sketch_dim m)) ∧
    (h.sketch_dim = 3 → ∀ i, i < h.set_size →
      (h.set_size - i ≤ h.max_len →
        h.compute (List.range' i (h.set_size - i)) = Except.ok [i, i, i]) ∧
      (2 * (h.set_size - i) ≤ h.max_len →
        h.compute (List.range' i (h.set_size - i) ++ List.range' i (h.set_size - i))
          = Except.ok [i, i, i])) := by
  refine ⟨compute_identity h hid, ?_⟩
  intro hdim i hi
  have hmem : i ∈ List.range' i (h.set_size - i) := by
    simp; omega
  have hne : List.range' i (h.set_size - i) ≠ [] := List.ne_nil_of_mem hmem
  constructor
  · intro hlen
    obtain ⟨m, hm, hle, hrun⟩ := compute_identity h hid (List.range' i (h.set_size - i)) hne
      (by simpa using hlen) (by intro s hs; simp at hs; omega)
    have : m = i := by
      have h1 := hle i hmem
      simp at hm
      omega
    rw [hrun, hdim, this]
    rfl
  · intro hlen
    obtain ⟨m, hm, hle, hrun⟩ := compute_identity h hid
      (List.range' i (h.set_size - i) ++ List.range' i (h.set_size - i))
      (by simp [hne]) (by simp; omega) (by intro s hs; simp at hs; omega)
    have : m = i := by
      have h1 := hle i (by simp; omega)
      simp at hm
      omega
    rw [hrun, hdim, this]
    rfl

theorem compute_identity_hashes_witness :
    (∃ m, m ∈ [2, 1, 3, 1] ∧ (∀ s ∈ [2, 1, 3, 1], m ≤ s) ∧
        (identity_instance 4 3 8).compute [2, 1, 3, 1]
          = Except.ok (List.replicate (identity_instance 4 3 8).sketch_dim m)) ∧
      (identity_instance 4 3 8).compute (List.range' 1 (4 - 1)) = Except.ok [1, 1, 1] ∧
      (identity_instance 4 3 8).compute (List.range' 1 (4 - 1) ++ List.range' 1 (4 - 1))
        = Except.ok [1, 1, 1] :=
  ⟨(compute_identity_hashes (identity_instance 4 3 8) rfl).1 [2, 1, 3, 1] (by decide)
      (by decide) (by decide),
    ((compute_identity_hashes (identity_instance 4 3 8) rfl).2 rfl 1 (by decide)).1 (by decide),
    ((compute_identity_hashes (identity_instance 4 3 8) rfl).2 rfl 1 (by decide)).2 (by decide)⟩

/-- C10: for every instance, `compute` on the empty k-mer sequence raises no
error and returns the sketch of `sketch_dim` zeros. -/
theorem compute_empty (h : WeightedMinHash) :
    h.compute [] = Except.ok (List.replicate h.sketch_dim 0) ∧
      (List.replicate h.sketch_dim 0).length = h.sketch_dim ∧
      ∀ x ∈ List.replicate h.sketch_dim 0, x = 0 := by
  refine ⟨by simp [WeightedMinHash.compute], by simp, ?_⟩
  intro x hx
  exact (List.mem_replicate.mp hx).2

/-- The error raised for a sequence that is too long. -/
theorem compute_too_long (h : WeightedMinHash) (kmers : List Nat)
    (hlong : h.max_len < kmers.length) :
    h.compute kmers = Except.error (ComputeError.invalid_argument
      ("Sequence too long. Maximum sequence length is " ++ toString h.max_len
        ++ ". Set --max_length to a higher value.")) := by
  have hl : kmers.length > h.max_len := hlong
  simp only [WeightedMinHash.compute, hl, if_true]

/-- Counterexample to C18 as stated: the sequence length cannot be read off the
error, because on an instance with `max_len = 1` the sequences `0 0` and
`0 0 0` are rejected with the same error. -/
theorem compute_error_length_counterexample :
    ¬ ∃ (length_of limit_of : ComputeError → Nat),
      ∀ (h : WeightedMinHash) (kmers : List Nat), h.max_len < kmers.length →
        ∀ e, h.compute kmers = Except.error e →
          length_of e = kmers.length ∧ limit_of e = h.max_len := by
  rintro ⟨length_of, limit_of, hf⟩
  have h2 := (hf (identity_instance 4 3 1) [0, 0] (by decide) _
    (compute_too_long (identity_instance 4 3 1) [0, 0] (by decide))).1
  have h3 := (hf (identity_instance 4 3 1) [0, 0, 0] (by decide) _
    (compute_too_long (identity_instance 4 3 1) [0, 0, 0] (by decide))).1
  rw [h2] at h3
  simp at h3

/-- C18 (amended): when `compute` rejects a sequence that is longer than
`max_len`, the error is the invalid-argument error with the message
"Sequence too long. Maximum sequence length is `max_len`. Set --max_length to
a higher value.": it carries the configured limit, and it is the same error
for every rejected sequence, whatever its length. -/
theorem compute_error_carries_limit (h : WeightedMinHash) (kmers : List Nat)
    (hlong : h.max_len < kmers.length) :
    h.compute kmers = Except.error (ComputeError.invalid_argument
      ("Sequence too long. Maximum sequence length is " ++ toString h.max_len
        ++ ". Set --max_length to a higher value.")) ∧
    ∀ kmers2 : List Nat, h.max_len < kmers2.length → h.compute kmers2 = h.compute kmers := by
  refine ⟨compute_too_long h kmers hlong, ?_⟩
  intro kmers2 hlong2
  rw [compute_too_long h kmers hlong, compute_too_long h kmers2 hlong2]

theorem compute_error_carries_limit_witness :
    (identity_instance 4 3 1).compute [0, 0] = Except.error (ComputeError.invalid_argument
      ("Sequence too long. Maximum sequence length is "
        ++ toString (identity_instance 4 3 1).max_len
        ++ ". Set --max_length to a higher value.")) ∧
    ∀ kmers2 : List Nat, (identity_instance 4 3 1).max_len < kmers2.length →
      (identity_instance 4 3 1).compute kmers2 = (identity_instance 4 3 1).compute [0, 0] :=
  compute_error_carries_limit (identity_instance 4 3 1) [0, 0] (by decide)

theorem kmer_accesses_length_le (h : WeightedMinHash) (si : Nat) :
    ∀ (kmers cnts : List Nat), (h.kmer_accesses si cnts kmers).length ≤ 2 * kmers.length := by
  intro kmers
  induction kmers with
  | nil => intro cnts; simp [WeightedMinHash.kmer_accesses]
  | cons s rest ih =>
    intro cnts
    rw [WeightedMinHash.kmer_accesses]
    cases hc : cnts[s]? with
    | none => simp only [List.length_cons, List.length_nil]; omega
    | some c =>
      cases hh : h.hashes[si]? with
      | none => simp only [List.length_cons, List.length_nil]; omega
      | some table =>
        cases ht : table[s + c * h.set_size]? with
        | none => simp only [ht, List.length_cons, List.length_nil]; omega
        | some r =>
          have := ih (cnts.set s (c + 1))
          simp only [ht, List.length_cons]
          omega

/-- The access list is an instrumentation of the loop of `compute_kmer`: the
loop runs to its end exactly when both accesses of every k-mer are made and
each one is inside its vector. -/
theorem kmer_accesses_complete_iff (h : WeightedMinHash) (si : Nat) :
    ∀ (kmers : List Nat) (st : Nat × Option Nat × List Nat),
      (∃ st1, for_each (h.compute_kmer si) st kmers = Except.ok st1) ↔
        ((h.kmer_accesses si st.2.2 kmers).length = 2 * kmers.length ∧
          ∀ a ∈ h.kmer_accesses si st.2.2 kmers,
            match a with
            | Access.counter i => i < st.2.2.length
            | Access.table d i => i < (h.hashes.getD d []).length) := by
  intro kmers
  induction kmers with
  | nil => intro st; simp [WeightedMinHash.kmer_accesses, for_each]
  | cons s rest ih =>
    intro st
    rw [WeightedMinHash.kmer_accesses, for_each, WeightedMinHash.compute_kmer]
    cases hc : st.2.2[s]? with
    | none =>
      simp only [List.length_cons, List.length_nil]
      constructor
      · rintro ⟨st1, h1⟩; exact absurd h1 (by simp)
      · rintro ⟨hx, -⟩; exfalso; omega
    | some c =>
      have hs : s < st.2.2.length := by
        rcases List.getElem?_eq_some_iff.mp hc with ⟨hsl, -⟩
        exact hsl
      cases hh : h.hashes[si]? with
      | none =>
        simp only [List.length_cons, List.length_nil]
        constructor
        · rintro ⟨st1, h1⟩; exact absurd h1 (by simp)
        · rintro ⟨-, hx⟩
          have := hx (Access.table si (s + c * h.set_size)) (by simp)
          simp [List.getD_eq_getElem?_getD, hh] at this
      | some table =>
        have hgd : h.hashes.getD si [] = table := by
          simp [List.getD_eq_getElem?_getD, hh]
        cases ht : table[s + c * h.set_size]? with
        | none =>
          simp only [ht, List.length_cons, List.length_nil]
          constructor
          · rintro ⟨st1, h1⟩; exact absurd h1 (by simp)
          · rintro ⟨-, hx⟩
            have := hx (Access.table si (s + c * h.set_size)) (by simp)
            simp only [hgd] at this
            rw [List.getElem?_eq_none_iff] at ht
            omega
        | some r =>
          have hidx : s + c * h.set_size < table.length := by
            rcases List.getElem?_eq_some_iff.mp ht with ⟨hsl, -⟩
            exact hsl
          have key : ∀ st2 : Nat × Option Nat × List Nat, st2.2.2 = st.2.2.set s (c + 1) →
              ((∃ st1, for_each (h.compute_kmer si) st2 rest = Except.ok st1) ↔
                ((Access.counter s :: Access.table si (s + c * h.set_size) ::
                    h.kmer_accesses si (st.2.2.set s (c + 1)) rest).length
                    = 2 * (s :: rest).length ∧
                  ∀ a ∈ Access.counter s :: Access.table si (s + c * h.set_size) ::
                      h.kmer_accesses si (st.2.2.set s (c + 1)) rest,
                    match a with
                    | Access.counter i => i < st.2.2.length
                    | Access.table d i => i < (h.hashes.getD d []).length)) := by
            intro st2 h2
            have hi := ih st2
            rw [h2] at hi
            simp only [List.length_set] at hi
            rw [hi]
            simp only [List.length_cons, List.mem_cons, forall_eq_or_imp, hgd]
            constructor
            · rintro ⟨h3, h4⟩
              exact ⟨by omega, hs, hidx, h4⟩
            · rintro ⟨h3, -, -, h4⟩
              exact ⟨by omega, h4⟩
          simp only [ht]
          by_cases hr : r < st.1
          · simp only [hr, if_true]
            exact key _ rfl
          · simp only [hr, if_false]
            exact key _ rfl

theorem kmer_accesses_inv (h : WeightedMinHash) (si : Nat)
    (htab : ∀ table ∈ h.hashes, table.length = h.set_size * h.max_len) :
    ∀ (rest done cnts : List Nat), cnts.length = h.set_size →
      (∀ s, s < h.set_size → cnts.getD s 0 = done.count s) →
      done.length + rest.length ≤ h.max_len →
      (∀ s ∈ rest, s < h.set_size) →
      (∀ a ∈ h.kmer_accesses si cnts rest, h.in_bounds a) ∧
        (si < h.hashes.length →
          (h.kmer_accesses si cnts rest).length = 2 * rest.length) := by
  intro rest
  induction rest with
  | nil =>
    intro done cnts _ _ _ _
    simp [WeightedMinHash.kmer_accesses]
  | cons s rest ih =>
    intro done cnts hc hcnt hlen hsym
    have hs : s < h.set_size := hsym s (List.mem_cons_self _ _)
    have hs2 : s < cnts.length := by omega
    have hget : cnts[s]? = some (done.count s) := by
      have h1 := hcnt s hs
      rw [List.getD_eq_getElem?_getD, List.getElem?_eq_getElem hs2] at h1
      rw [List.getElem?_eq_getElem hs2]
      simpa using h1
    have hcl : done.count s < h.max_len := by
      have := List.count_le_length s done
      simp only [List.length_cons] at hlen
      omega
    have hidx : s + done.count s * h.set_size < h.set_size * h.max_len :=
      occurrence_index_lt h.set_size h.max_len s (done.count s) hs hcl
    have hrec := ih (done ++ [s]) (cnts.set s (done.count s + 1))
      (by simp [hc])
      (by
        intro x hx
        rw [List.count_append]
        by_cases hxs : x = s
        · subst hxs
          rw [List.getD_eq_getElem?_getD, List.getElem?_set_self hs2]
          simp
        · rw [List.getD_eq_getElem?_getD, List.getElem?_set_ne (Ne.symm hxs),
            ← List.getD_eq_getElem?_getD, hcnt x hx]
          simp [List.count_cons, hxs])
      (by simp only [List.length_append, List.length_cons, List.length_nil] at hlen ⊢; omega)
      (fun x hx => hsym x (List.mem_cons_of_mem _ hx))
    rw [WeightedMinHash.kmer_accesses, hget]
    simp only
    cases hh : h.hashes[si]? with
    | none =>
      constructor
      · intro a ha
        simp only [List.mem_cons, List.mem_singleton, List.not_mem_nil, or_false] at ha
        rcases ha with rfl | rfl
        · exact hs
        · exact hidx
      · intro hsi
        rw [List.getElem?_eq_getElem hsi] at hh
        exact absurd hh (by simp)
    | some table =>
      have hmem : table ∈ h.hashes := by
        rcases List.getElem?_eq_some_iff.mp hh with ⟨hsi, rfl⟩
        exact List.getElem_mem hsi
      have htl := htab table hmem
      have hlt : s + done.count s * h.set_size < table.length := by omega
      simp only [List.getElem?_eq_getElem hlt]
      constructor
      · intro a ha
        simp only [List.mem_cons] at ha
        rcases ha with rfl | rfl | ha
        · exact hs
        · exact hidx
        · exact hrec.1 a ha
      · intro hsi
        simp only [List.length_cons, hrec.2 hsi]
        omega

/-- One step of the loop over the k-mers on the state of the run changes the
locals `min_rank`, `min_char` and `cnts` as `compute_kmer` does, and nothing
else. -/
theorem kmer_step_eq (si : Nat) (st : ComputeState) (s : Nat) :
    st.kmer_step si s =
      (st.self.compute_kmer si (st.min_rank, st.min_char, st.cnts) s).map
        (fun t => { st with min_rank := t.1, min_char := t.2.1, cnts := t.2.2 }) := by
  unfold ComputeState.kmer_step WeightedMinHash.compute_kmer
  dsimp only
  cases st.cnts[s]? with
  | none => rfl
  | some c =>
    dsimp only
    cases st.self.hashes[si]? with
    | none => rfl
    | some table =>
      dsimp only
      cases table[s + c * st.self.set_size]? with
      | none => rfl
      | some r =>
        dsimp only
        split <;> rfl

/-- The loop over the k-mers on the state of the run changes the locals
`min_rank`, `min_char` and `cnts` as the loop of `compute_kmer` does, and
nothing else. -/
theorem kmer_loop_eq (si : Nat) (kmers : List Nat) :
    ∀ st : ComputeState,
      for_each (ComputeState.kmer_step si) st kmers =
        (for_each (st.self.compute_kmer si) (st.min_rank, st.min_char, st.cnts) kmers).map
          (fun t => { st with min_rank := t.1, min_char := t.2.1, cnts := t.2.2 }) := by
  induction kmers with
  | nil => intro st; rfl
  | cons s rest ih =>
    intro st
    simp only [for_each]
    rw [kmer_step_eq]
    cases st.self.compute_kmer si (st.min_rank, st.min_char, st.cnts) s with
    | error e => rfl
    | ok t =>
      simp only [Except.map]
      exact ih _

/-- One iteration of the loop over the sketch components on the state of the
run leaves the instance as it was and stores in `sketch[si]` the value of
`compute_component`. -/
theorem component_step_eq (kmers : List Nat) (st : ComputeState) (si : Nat) :
    (st.component_step kmers si).map (fun st1 => (st1.self, st1.sketch)) =
      (st.self.compute_component kmers si).map (fun c => (st.self, st.sketch.set si c)) := by
  unfold ComputeState.component_step WeightedMinHash.compute_component
  cases st.self.hashes[0]? with
  | none => rfl
  | some table0 =>
    dsimp only
    rw [kmer_loop_eq]
    dsimp only
    cases for_each (st.self.compute_kmer si)
        (table0.length + 1, none, List.replicate st.self.set_size 0) kmers with
    | error e => rfl
    | ok t =>
      dsimp only [Except.map]
      cases t.2.1 with
      | none => rfl
      | some c => rfl

/-- The loop over the sketch components on the state of the run ends within
`sketch_dim - si` iterations, leaves the instance as it was and fills the
sketch as the loop of `compute` does. -/
theorem components_loop_eq (kmers : List Nat) :
    ∀ (fuel si : Nat) (st : ComputeState), si + fuel = st.self.sketch_dim →
      (ComputeState.components_loop kmers fuel si st).map
          (Except.map (fun st1 => (st1.self, st1.sketch))) =
        some ((for_each
          (fun sketch si =>
            match st.self.compute_component kmers si with
            | Except.error e => Except.error e
            | Except.ok min_char => Except.ok (sketch.set si min_char))
          st.sketch (List.range' si fuel)).map (fun sketch => (st.self, sketch))) := by
  intro fuel
  induction fuel with
  | zero =>
    intro si st hsi
    have hlt : ¬ si < st.self.sketch_dim := by omega
    simp only [ComputeState.components_loop, hlt, if_false, List.range', for_each]
    rfl
  | succ fuel ih =>
    intro si st hsi
    have hlt : si < st.self.sketch_dim := by omega
    simp only [ComputeState.components_loop, hlt, if_true, List.range', for_each]
    have hc := component_step_eq kmers st si
    cases hcs : st.component_step kmers si with
    | error e =>
      rw [hcs] at hc
      cases hcc : st.self.compute_component kmers si with
      | error e1 =>
        rw [hcc] at hc
        simp only [Except.map, Except.error.injEq] at hc
        subst hc
        rfl
      | ok c =>
        rw [hcc] at hc
        simp [Except.map] at hc
    | ok st1 =>
      rw [hcs] at hc
      cases hcc : st.self.compute_component kmers si with
      | error e1 =>
        rw [hcc] at hc
        simp [Except.map] at hc
      | ok c =>
        rw [hcc] at hc
        simp only [Except.map, Except.ok.injEq, Prod.mk.injEq] at hc
        dsimp only
        have h1 := ih (si + 1) st1 (by rw [hc.1]; omega)
        rw [h1, hc.1, hc.2]

/-- The run of `compute` on the state that starts at the instance `h` ends,
leaves the instance as it was, and returns what the embedding `compute` of the
method as a function of the instance returns. -/
theorem compute_call_eq (h : WeightedMinHash) (kmers : List Nat) :
    h.compute_call kmers = some ((h.compute kmers).map (fun sketch => (h, sketch))) := by
  unfold WeightedMinHash.compute_call WeightedMinHash.compute
  dsimp only
  split
  · rfl
  · split
    · rfl
    · have hl := components_loop_eq kmers h.sketch_dim 0
        { self := h, sketch := List.replicate h.sketch_dim 0, min_char := none,
          min_rank := 0, cnts := [] } (by simp)
      dsimp only at hl
      rw [← List.range_eq_range'] at hl
      rw [← hl]
      cases ComputeState.components_loop kmers h.sketch_dim 0
          { self := h, sketch := List.replicate h.sketch_dim 0, min_char := none,
            min_rank := 0, cnts := [] } with
      | none => rfl
      | some r =>
        cases r with
        | error e => rfl
        | ok st2 => rfl

/-- Two successive calls of `compute` on one instance with the same input end,
leave the instance as it was, and return the same sketch twice. -/
theorem compute_twice_eq (h : WeightedMinHash) (kmers : List Nat) :
    h.compute_twice kmers =
      some ((h.compute kmers).map (fun sketch => (h, sketch, sketch))) := by
  unfold WeightedMinHash.compute_twice
  rw [compute_call_eq]
  cases hc : h.compute kmers with
  | error e => rfl
  | ok sketch =>
    simp only [Except.map]
    rw [compute_call_eq, hc]
    rfl

/-- C28: the run of `WeightedMinHash::compute`, statement by statement on a
state that holds the instance and the locals, ends and leaves the instance
(hash tables, `set_size`, `sketch_dim`, `max_len`) as it was: the call returns
the instance it was called on together with the value of `compute`. Two
successive calls on one instance with the same input therefore return the
instance unchanged and the same sketch twice; on the instance with identity
tables both calls on `{0, 1, 2, 3, 4, 5}` return the sketch `{0, 0, 0}`. -/
theorem compute_call_pure (h : WeightedMinHash) (kmers : List Nat) :
    h.compute_call kmers = some ((h.compute kmers).map (fun sketch => (h, sketch))) ∧
      h.compute_twice kmers =
        some ((h.compute kmers).map (fun sketch => (h, sketch, sketch))) ∧
      (identity_instance 6 3 8).compute_twice [0, 1, 2, 3, 4, 5] =
        some (Except.ok (identity_instance 6 3 8, [0, 0, 0], [0, 0, 0])) :=
  ⟨compute_call_eq h kmers, compute_twice_eq h kmers, by decide⟩

/-- C30: for a k-mer sequence of length at most `max_len` whose symbols are
all below `set_size`, and hash tables of `set_size * max_len` entries, every
access of the loop over the k-mers is inside its vector: every counter index
`s` is below `set_size` and every table index `s + cnts[s] * set_size` is
below `set_size * max_len`; and when table `si` exists the loop performs both
accesses for every k-mer. -/
theorem compute_accesses_in_bounds (h : WeightedMinHash) (si : Nat) (kmers : List Nat)
    (hlen : kmers.length ≤ h.max_len) (hsym : ∀ s ∈ kmers, s < h.set_size)
    (htab : ∀ table ∈ h.hashes, table.length = h.set_size * h.max_len) :
    (∀ a ∈ h.kmer_accesses si (List.replicate h.set_size 0) kmers, h.in_bounds a) ∧
      (si < h.hashes.length →
        (h.kmer_accesses si (List.replicate h.set_size 0) kmers).length =
          2 * kmers.length) := by
  refine kmer_accesses_inv h si htab kmers [] (List.replicate h.set_size 0)
    (by simp) ?_ (by simpa using hlen) hsym
  intro s hs
  simp [List.getD_eq_getElem?_getD, List.getElem?_replicate, hs]

theorem compute_accesses_in_bounds_witness :
    (∀ a ∈ (identity_instance 3 2 4).kmer_accesses 1
        (List.replicate (identity_instance 3 2 4).set_size 0) [2, 0, 2, 2],
        (identity_instance 3 2 4).in_bounds a) ∧
      (1 < (identity_instance 3 2 4).hashes.length →
        ((identity_instance 3 2 4).kmer_accesses 1
          (List.replicate (identity_instance 3 2 4).set_size 0) [2, 0, 2, 2]).length =
          2 * [2, 0, 2, 2].length) :=
  compute_accesses_in_bounds (identity_instance 3 2 4) 1 [2, 0, 2, 2] (by decide)
    (by decide) (by decide)

theorem seq2kmer_example :
    seq2kmer 64 [1, 2, 3, 0, 1] 3 4 = Except.ok [1 + 2 * 4 + 3 * 16, 2 + 3 * 4, 3 + 16] := by
  decide

theorem seq2kmer_assert_example :
    seq2kmer 8 [0, 0, 0, 0, 0, 2, 0] 6 3 = Except.error Seq2kmerError.assertion_failed := by
  decide

theorem getD_lt_of_forall_lt (seq : List Nat) (A : Nat) (hA : 1 ≤ A)
    (hsym : ∀ s ∈ seq, s < A) (j : Nat) : seq.getD j 0 < A := by
  by_cases hj : j < seq.length
  · have : seq.getD j 0 = seq[j] := by
      simp [List.getD_eq_getElem?_getD, List.getElem?_eq_getElem hj]
    rw [this]
    exact hsym _ (List.getElem_mem hj)
  · have : seq.getD j 0 = 0 := by
      simp [List.getD_eq_getElem?_getD, List.getElem?_eq_none (by omega : seq.length ≤ j)]
    omega

theorem window_value_succ (A : Nat) (seq : List Nat) (i k : Nat) :
    window_value A seq i (k + 1) = window_value A seq i k + seq.getD (i + k) 0 * A ^ k := by
  unfold window_value
  rw [Finset.sum_range_succ]

theorem window_value_shift (A : Nat) (seq : List Nat) (i k : Nat) :
    window_value A seq i (k + 1) = seq.getD i 0 + A * window_value A seq (i + 1) k := by
  unfold window_value
  rw [Finset.sum_range_succ', Finset.mul_sum]
  simp only [pow_zero, mul_one, Nat.add_zero]
  rw [Nat.add_comm]
  congr 1
  apply Finset.sum_congr rfl
  intro j _
  have : i + (j + 1) = i + 1 + j := by omega
  rw [this, pow_succ]
  ring

/-- A window of `k` symbols below `A` has a value below `A ^ k`. -/
theorem window_value_lt (A : Nat) (seq : List Nat) (hA : 1 ≤ A)
    (hsym : ∀ s ∈ seq, s < A) (i k : Nat) : window_value A seq i k < A ^ k := by
  induction k with
  | zero => simp [window_value]
  | succ k ih =>
    rw [window_value_succ, pow_succ]
    have h1 := getD_lt_of_forall_lt seq A hA hsym (i + k)
    have h2 : seq.getD (i + k) 0 * A ^ k ≤ (A - 1) * A ^ k :=
      Nat.mul_le_mul_right _ (by omega)
    have h3 : (A - 1) * A ^ k + A ^ k = A ^ k * A := by
      have : A - 1 + 1 = A := by omega
      calc (A - 1) * A ^ k + A ^ k = (A - 1 + 1) * A ^ k := by ring
        _ = A ^ k * A := by rw [this]; ring
    omega

theorem wrap_sub_eq (w a b : Nat) (hb : b ≤ a) (ha : a < 2 ^ w) : wrap_sub w a b = a - b := by
  unfold wrap_sub
  have hb2 : b % 2 ^ w = b := Nat.mod_eq_of_lt (by omega)
  rw [hb2]
  have : a + (2 ^ w - b) = (a - b) + 2 ^ w := by omega
  rw [this, Nat.add_mod_right]
  exact Nat.mod_eq_of_lt (by omega)

/-- The first loop of `seq2kmer` evaluates the first window directly. -/
theorem seq2kmer_first_foldl (w : Nat) (seq : List Nat) (A : Nat) (hA : 1 ≤ A)
    (hsym : ∀ s ∈ seq, s < A) (n k : Nat) (hk : A ^ k < 2 ^ w) :
    ∀ j, j ≤ k →
      (List.range j).foldl (seq2kmer_first w seq A) (List.replicate (n + 1) 0, 1 % 2 ^ w)
        = (window_value A seq 0 j :: List.replicate n 0, A ^ j) := by
  have hone : 1 < 2 ^ w := lt_of_le_of_lt (Nat.one_le_pow _ _ hA) hk
  intro j
  induction j with
  | zero =>
    intro _
    simp [window_value, List.replicate_succ, Nat.mod_eq_of_lt hone]
  | succ j ih =>
    intro hj
    rw [List.range_succ, List.foldl_append, ih (by omega)]
    have hpow : A ^ (j + 1) ≤ A ^ k := Nat.pow_le_pow_right hA hj
    have hv := window_value_lt A seq hA hsym 0 (j + 1)
    have hv2 : window_value A seq 0 (j + 1) < 2 ^ w := by omega
    have hc : A ^ j * A % 2 ^ w = A ^ (j + 1) := by
      rw [← pow_succ]
      exact Nat.mod_eq_of_lt (by omega)
    have hr : (window_value A seq 0 j + A ^ j * seq.getD j 0) % 2 ^ w
        = window_value A seq 0 (j + 1) := by
      rw [window_value_succ, Nat.zero_add, Nat.mul_comm (A ^ j)] at *
      exact Nat.mod_eq_of_lt hv2
    simp only [seq2kmer_first, List.foldl_cons, List.foldl_nil, List.getD_cons_zero,
      List.set_cons_zero, hc, hr]

/-- The second loop of `seq2kmer` never fails its assertion and fills the
result with the direct values of the windows. -/
theorem seq2kmer_next_loop (w : Nat) (seq : List Nat) (A : Nat) (hA : 1 ≤ A)
    (hsym : ∀ s ∈ seq, s < A) (k : Nat) (hk : A ^ (k + 1) < 2 ^ w) (result0 : List Nat)
    (h0 : result0.getD 0 0 = window_value A seq 0 (k + 1)) :
    ∀ m, m + 1 ≤ result0.length →
      ∃ result, for_each (seq2kmer_next w seq (k + 1) A (A ^ k)) result0 (List.range m)
          = Except.ok result ∧
        result.length = result0.length ∧
        ∀ t, t ≤ m → result.getD t 0 = window_value A seq t (k + 1) := by
  intro m
  induction m with
  | zero =>
    intro _
    refine ⟨result0, rfl, rfl, ?_⟩
    intro t ht
    have : t = 0 := by omega
    subst this
    exact h0
  | succ m ih =>
    intro hm
    obtain ⟨res, hrun, hlen, hval⟩ := ih (by omega)
    have hcur := hval m (le_refl _)
    have hlt := window_value_lt A seq hA hsym m (k + 1)
    have hshift := window_value_shift A seq m k
    have hbase : wrap_sub w (res.getD m 0) (seq.getD m 0)
        = A * window_value A seq (m + 1) k := by
      rw [wrap_sub_eq _ _ _ (by omega) (by omega), hcur, hshift]
      omega
    have hnew : (A * window_value A seq (m + 1) k / A + seq.getD (m + (k + 1)) 0 * A ^ k)
        % 2 ^ w = window_value A seq (m + 1) (k + 1) := by
      rw [Nat.mul_div_cancel_left _ (by omega : 0 < A), window_value_succ]
      have h1 : m + 1 + k = m + (k + 1) := by omega
      rw [h1]
      have h2 := window_value_lt A seq hA hsym (m + 1) (k + 1)
      rw [window_value_succ, h1] at h2
      exact Nat.mod_eq_of_lt (by omega)
    have hstep : seq2kmer_next w seq (k + 1) A (A ^ k) res m
        = Except.ok (res.set (m + 1) (window_value A seq (m + 1) (k + 1))) := by
      simp only [seq2kmer_next, hbase, Nat.mul_mod_right, ne_eq, not_true_eq_false, if_false,
        hnew]
    refine ⟨res.set (m + 1) (window_value A seq (m + 1) (k + 1)), ?_, by simp [hlen], ?_⟩
    · rw [List.range_succ, for_each_append, hrun]
      simp only [for_each, hstep]
    · intro t ht
      by_cases htm : t = m + 1
      · subst htm
        have : m + 1 < res.length := by omega
        simp [List.getD_eq_getElem?_getD, List.getElem?_set_self this]
      · have hne : m + 1 ≠ t := fun h => htm h.symm
        rw [← hval t (by omega)]
        simp [List.getD_eq_getElem?_getD, List.getElem?_set_ne hne]

/-- Under the preconditions of `seq2kmer` (symbols below `A`, `A ^ k`
representable) the incremental recurrence returns the direct value of every
window. -/
theorem seq2kmer_spec (w : Nat) (seq : List Nat) (k A : Nat) (hk1 : 1 ≤ k)
    (hk2 : k ≤ seq.length) (hA : 1 ≤ A) (hsym : ∀ s ∈ seq, s < A) (hrep : A ^ k < 2 ^ w) :
    ∃ result, seq2kmer w seq k A = Except.ok result ∧
      result.length = seq.length - k + 1 ∧
      ∀ i, i < result.length → result[i]? = some (window_value A seq i k) := by
  obtain ⟨k0, rfl⟩ : ∃ k0, k = k0 + 1 := ⟨k - 1, by omega⟩
  have hfirst := seq2kmer_first_foldl w seq A hA hsym (seq.length - (k0 + 1)) (k0 + 1) hrep
    (k0 + 1) (le_refl _)
  have hc : A ^ (k0 + 1) / A = A ^ k0 := by
    rw [pow_succ, Nat.mul_div_cancel _ (by omega : 0 < A)]
  obtain ⟨res, hrun, hlen, hval⟩ := seq2kmer_next_loop w seq A hA hsym k0 hrep
    (window_value A seq 0 (k0 + 1) :: List.replicate (seq.length - (k0 + 1)) 0)
    (by simp) (seq.length - (k0 + 1)) (by simp)
  refine ⟨res, ?_, by simpa using hlen, ?_⟩
  · have hnl : ¬ seq.length < k0 + 1 := by omega
    have hA0 : A ≠ 0 := by omega
    simp only [seq2kmer, hnl, if_false, hfirst, hA0, hc]
    simpa using hrun
  · intro i hi
    have hl : res.length = seq.length - (k0 + 1) + 1 := by simpa using hlen
    have := hval i (by omega)
    rw [← this]
    simp [List.getD_eq_getElem?_getD, List.getElem?_eq_getElem hi]

theorem seq2kmer_first_length (w : Nat) (seq : List Nat) (A : Nat) (xs : List Nat) :
    ∀ st : List Nat × Nat,
      (xs.foldl (seq2kmer_first w seq A) st).1.length = st.1.length := by
  induction xs with
  | nil => intro st; rfl
  | cons x xs ih =>
    intro st
    rw [List.foldl_cons, ih]
    simp [seq2kmer_first]

theorem seq2kmer_next_length (w : Nat) (seq : List Nat) (k A c : Nat) (xs : List Nat) :
    ∀ result res : List Nat,
      for_each (seq2kmer_next w seq k A c) result xs = Except.ok res →
      res.length = result.length := by
  induction xs with
  | nil =>
    intro result res h
    simp only [for_each, Except.ok.injEq] at h
    rw [h]
  | cons x xs ih =>
    intro result res h
    simp only [for_each] at h
    cases hb : seq2kmer_next w seq k A c result x with
    | error e => rw [hb] at h; simp at h
    | ok r1 =>
      rw [hb] at h
      have h1 := ih r1 res h
      unfold seq2kmer_next at hb
      simp only at hb
      split at hb
      · simp at hb
      · simp only [Except.ok.injEq] at hb
        rw [h1, ← hb]
        simp

/-- Whenever `seq2kmer` returns, it returns `max(0, len - k + 1)` k-mers. -/
theorem seq2kmer_length (w : Nat) (seq : List Nat) (k A : Nat) (result : List Nat)
    (h : seq2kmer w seq k A = Except.ok result) : result.length = seq.length + 1 - k := by
  unfold seq2kmer at h
  by_cases hlt : seq.length < k
  · simp only [hlt, if_true, Except.ok.injEq] at h
    rw [← h]
    simp
    omega
  · simp only [hlt, if_false] at h
    by_cases hA : A = 0
    · simp [hA] at h
    · simp only [hA, if_false] at h
      have h1 := seq2kmer_next_length _ _ _ _ _ _ _ _ h
      rw [h1, seq2kmer_first_length]
      simp
      omega

/-- C3: for `1 ≤ k ≤ len(seq)`, an alphabet size `A ≥ 1`, all symbols below `A`
and `A ^ k` representable in the k-mer type of `w` bits, `seq2kmer` returns
`len(seq) - k + 1` k-mers and every entry `i` produced by the incremental
recurrence equals the direct base-`A` evaluation of the window starting at `i`,
the sum over `j` in `0..k-1` of `seq[i+j] * A^j`. -/
theorem seq2kmer_eq_direct_evaluation (w : Nat) (seq : List Nat) (k A : Nat) (hk1 : 1 ≤ k)
    (hk2 : k ≤ seq.length) (hA : 1 ≤ A) (hsym : ∀ s ∈ seq, s < A) (hrep : A ^ k < 2 ^ w) :
    ∃ result, seq2kmer w seq k A = Except.ok result ∧
      result.length = seq.length - k + 1 ∧
      ∀ i, i < result.length →
        result[i]? = some (Finset.sum (Finset.range k) (fun j => seq.getD (i + j) 0 * A ^ j)) :=
  seq2kmer_spec w seq k A hk1 hk2 hA hsym hrep

theorem seq2kmer_eq_direct_evaluation_witness :
    ∃ result, seq2kmer 64 [1, 2, 3, 0, 1] 3 4 = Except.ok result ∧
      result.length = [1, 2, 3, 0, 1].length - 3 + 1 ∧
      ∀ i, i < result.length →
        result[i]? = some (Finset.sum (Finset.range 3)
          (fun j => [1, 2, 3, 0, 1].getD (i + j) 0 * 4 ^ j)) :=
  seq2kmer_eq_direct_evaluation 64 [1, 2, 3, 0, 1] 3 4 (by decide) (by decide) (by decide)
    (by decide) (by decide)

/-- Counterexample to C4 as stated: with the 64-bit k-mer type, `k = 33` and
`A = 4` the value `4 ^ 33` is not representable; on a sequence of 66 symbols
whose only non-zero symbol is a 1 at position 32 the k-mer at index 32 is 0,
`base = 0 - 1` wraps around and the assertion `base % alphabet_size == 0`
fails, so no k-mers are returned. -/
theorem seq2kmer_length_counterexample :
    (1 ≤ 4) ∧ ¬ ∃ result,
      seq2kmer 64 (List.replicate 32 0 ++ [1] ++ List.replicate 33 0) 33 4 = Except.ok result ∧
      result.length
        = max 0 ((List.replicate 32 0 ++ [1] ++ List.replicate 33 0).length - 33 + 1) := by
  refine ⟨by decide, ?_⟩
  rintro ⟨result, h, _⟩
  have h2 : seq2kmer 64 (List.replicate 32 0 ++ [1] ++ List.replicate 33 0) 33 4
      = Except.error Seq2kmerError.assertion_failed := by decide
  rw [h2] at h
  simp at h

/-- C4 (amended): `seq2kmer` returns the empty sequence when `len(seq) < k`;
for `k ≥ 1`, `A ≥ 1`, all symbols below `A` and `A ^ k` representable in the
k-mer type it returns exactly `max(0, len(seq) - k + 1)` k-mers; and on every
input, whenever it returns (no assertion fails, `A ≠ 0`), the result has
exactly `max(0, len(seq) - k + 1)` k-mers (written `len(seq) + 1 - k` with
truncated subtraction). -/
theorem seq2kmer_returns_length (w : Nat) (seq : List Nat) (k A : Nat) :
    (seq.length < k → seq2kmer w seq k A = Except.ok []) ∧
    (1 ≤ k → 1 ≤ A → (∀ s ∈ seq, s < A) → A ^ k < 2 ^ w →
      ∃ result, seq2kmer w seq k A = Except.ok result ∧
        result.length = seq.length + 1 - k) ∧
    (∀ result, seq2kmer w seq k A = Except.ok result →
      result.length = seq.length + 1 - k) := by
  refine ⟨?_, ?_, fun result h => seq2kmer_length w seq k A result h⟩
  · intro hlt
    simp [seq2kmer, hlt]
  · intro hk hA hsym hrep
    by_cases hlt : seq.length < k
    · exact ⟨[], by simp [seq2kmer, hlt], by simp; omega⟩
    · obtain ⟨result, hrun, hlen, _⟩ :=
        seq2kmer_spec w seq k A hk (by omega) hA hsym hrep
      exact ⟨result, hrun, by omega⟩

theorem seq2kmer_returns_length_witness :
    seq2kmer 8 [1, 2] 3 4 = Except.ok [] ∧
    (∃ result, seq2kmer 8 [1, 2, 3, 0, 1] 3 4 = Except.ok result ∧
        result.length = [1, 2, 3, 0, 1].length + 1 - 3) ∧
    (∀ result, seq2kmer 8 [0, 0, 0, 0, 0, 2, 0] 6 3 = Except.ok result →
      result.length = [0, 0, 0, 0, 0, 2, 0].length + 1 - 6) :=
  ⟨(seq2kmer_returns_length 8 [1, 2] 3 4).1 (by decide),
    (seq2kmer_returns_length 8 [1, 2, 3, 0, 1] 3 4).2.1 (by decide) (by decide) (by decide)
      (by decide),
    (seq2kmer_returns_length 8 [0, 0, 0, 0, 0, 2, 0] 6 3).2.2⟩

/-- C16: for a sequence whose symbols are all below `A`, with `1 ≤ k` and
`A ^ k` representable in the k-mer type of `w` bits, `seq2kmer` returns and
every k-mer it returns lies in the range `[0, A ^ k)`. -/
theorem seq2kmer_in_range (w : Nat) (seq : List Nat) (k A : Nat) (hk : 1 ≤ k)
    (hsym : ∀ s ∈ seq, s < A) (hrep : A ^ k < 2 ^ w) :
    ∃ result, seq2kmer w seq k A = Except.ok result ∧ ∀ x ∈ result, 0 ≤ x ∧ x < A ^ k := by
  by_cases hlt : seq.length < k
  · exact ⟨[], by simp [seq2kmer, hlt], by simp⟩
  · have hpos : 0 < seq.length := by omega
    have hA : 1 ≤ A := by
      have hmem : seq[0] ∈ seq := List.getElem_mem hpos
      have := hsym _ hmem
      omega
    obtain ⟨result, hrun, _, hval⟩ := seq2kmer_spec w seq k A hk (by omega) hA hsym hrep
    refine ⟨result, hrun, ?_⟩
    intro x hx
    obtain ⟨i, hi, hxi⟩ := List.mem_iff_getElem.mp hx
    have h1 := hval i hi
    rw [List.getElem?_eq_getElem hi, hxi] at h1
    simp only [Option.some.injEq] at h1
    rw [h1]
    exact ⟨Nat.zero_le _, window_value_lt A seq hA hsym i k⟩

theorem seq2kmer_in_range_witness :
    ∃ result, seq2kmer 64 [1, 2, 3, 0, 1] 3 4 = Except.ok result ∧
      ∀ x ∈ result, 0 ≤ x ∧ x < 4 ^ 3 :=
  seq2kmer_in_range 64 [1, 2, 3, 0, 1] 3 4 (by decide) (by decide) (by decide)

/-- C17 (defect of the code): the first symbol of a window is the least
significant base-`S` digit, not the most significant one as the documentation
of `seq2kmer` says. For the window `1 0` with `k = 2` and `S = 4` (64-bit
k-mers, no overflow) `seq2kmer` returns `1 = 1 + 0 * 4`, where the documented
value `s1 * S^(k-1) + s2` is `1 * 4 + 0 = 4`. -/
theorem seq2kmer_first_symbol_least_significant :
    seq2kmer 64 [1, 0] 2 4 = Except.ok [1] ∧ (1 : Nat) ≠ 1 * 4 ^ (2 - 1) + 0 := by
  decide

theorem rankify_distinct_example :
    rankify ℚ ([10, 30, 20] : List Nat) = [3 / 2, 7 / 2, 5 / 2] := by
  norm_num [rankify, rankify_count]

/-- The inner loop of `rankify` counts the smaller and the equal elements. -/
theorem rankify_count_foldl {T : Type} [LinearOrder T] (vi : T) (v : List T) :
    ∀ rs : Nat × Nat, v.foldl (rankify_count vi) rs
      = (rs.1 + v.countP (fun vj => decide (vj < vi)),
          rs.2 + v.countP (fun vj => decide (vj = vi))) := by
  induction v with
  | nil => intro rs; rfl
  | cons x v ih =>
    intro rs
    rw [List.foldl_cons, ih]
    simp only [rankify_count, List.countP_cons]
    by_cases h1 : x < vi <;> by_cases h2 : x = vi <;> simp [h1, h2] <;> omega

/-- What `rankify` computes: one plus the number of smaller elements plus half
the number of equal elements (the element itself included). -/
theorem rankify_eq {T : Type} [LinearOrder T] (K : Type) [Field K] (v : List T) :
    rankify K v = v.map (fun vi =>
      ((1 + v.countP (fun vj => decide (vj < vi)) : Nat) : K)
        + ((v.countP (fun vj => decide (vj = vi)) : Nat) : K) * (1 / 2)) := by
  unfold rankify
  apply List.map_congr_left
  intro vi _
  simp only [rankify_count_foldl]
  simp

theorem rankify_length {T : Type} [LinearOrder T] (K : Type) [Field K] (v : List T) :
    (rankify K v).length = v.length := by
  simp [rankify]

theorem countP_trichotomy {T : Type} [LinearOrder T] (x : T) (v : List T) :
    v.countP (fun y => decide (y < x)) + v.countP (fun y => decide (x < y))
      + v.countP (fun y => decide (y = x)) = v.length := by
  induction v with
  | nil => rfl
  | cons a v ih =>
    simp only [List.countP_cons, List.length_cons]
    rcases lt_trichotomy a x with h | h | h
    · have h2 : ¬ x < a := not_lt.mpr (le_of_lt h)
      have h3 : a ≠ x := ne_of_lt h
      simp [h, h2, h3]
      omega
    · subst h
      simp
      omega
    · have h2 : ¬ a < x := not_lt.mpr (le_of_lt h)
      have h3 : a ≠ x := ne_of_gt h
      simp [h, h2, h3]
      omega

theorem sum_map_ite_eq_countP {T : Type} (p : T → Bool) (l : List T) :
    (l.map (fun y => if p y = true then 1 else 0)).sum = l.countP p := by
  induction l with
  | nil => rfl
  | cons b l ih =>
    simp only [List.map_cons, List.sum_cons, List.countP_cons, ih]
    omega

theorem sum_map_countP_swap {T : Type} [LinearOrder T] (l1 l2 : List T) :
    (l1.map (fun x => l2.countP (fun y => decide (y < x)))).sum
      = (l2.map (fun y => l1.countP (fun x => decide (y < x)))).sum := by
  induction l1 with
  | nil => simp
  | cons a l1 ih =>
    simp only [List.map_cons, List.sum_cons, List.countP_cons]
    rw [List.sum_map_add, sum_map_ite_eq_countP (fun y => decide (y < a)) l2, ih]
    omega

/-- Twice the number of strictly ordered pairs plus the number of equal pairs
is the number of all pairs. -/
theorem rank_count_total {T : Type} [LinearOrder T] (v : List T) :
    2 * (v.map (fun x => v.countP (fun y => decide (y < x)))).sum
      + (v.map (fun x => v.countP (fun y => decide (y = x)))).sum = v.length * v.length := by
  have hswap := sum_map_countP_swap v v
  have htot : (v.map (fun x => v.countP (fun y => decide (y < x))
      + v.countP (fun y => decide (x < y)) + v.countP (fun y => decide (y = x)))).sum
      = v.length * v.length := by
    have : (v.map (fun x => v.countP (fun y => decide (y < x))
        + v.countP (fun y => decide (x < y)) + v.countP (fun y => decide (y = x))))
        = v.map (fun _ => v.length) := by
      apply List.map_congr_left
      intro x _
      exact countP_trichotomy x v
    rw [this]
    simp
  rw [List.sum_map_add, List.sum_map_add] at htot
  omega

/-- The sum of the rank vector depends on the length of the input only. -/
theorem rankify_sum {T : Type} [LinearOrder T] (K : Type) [LinearOrderedField K]
    (v : List T) :
    (rankify K v).sum = (v.length : K) + (v.length : K) * (v.length : K) / 2 := by
  rw [rankify_eq]
  have hsplit : (v.map (fun vi =>
      ((1 + v.countP (fun vj => decide (vj < vi)) : Nat) : K)
        + ((v.countP (fun vj => decide (vj = vi)) : Nat) : K) * (1 / 2))).sum
      = (v.length : K)
        + (((v.map (fun x => v.countP (fun y => decide (y < x)))).sum : Nat) : K)
        + (((v.map (fun x => v.countP (fun y => decide (y = x)))).sum : Nat) : K) * (1 / 2) := by
    generalize hf : (fun x => v.countP (fun y => decide (y < x))) = f
    generalize hg : (fun x => v.countP (fun y => decide (y = x))) = g
    have hf2 : ∀ x, v.countP (fun y => decide (y < x)) = f x := fun x => by rw [← hf]
    have hg2 : ∀ x, v.countP (fun y => decide (y = x)) = g x := fun x => by rw [← hg]
    simp only [hf2, hg2]
    clear hf hg hf2 hg2
    induction v with
    | nil => simp
    | cons a v ih =>
      simp only [List.map_cons, List.sum_cons, ih, List.length_cons]
      push_cast
      ring
  rw [hsplit]
  have htot := rank_count_total v
  have hK : (2 : K) * (((v.map (fun x => v.countP (fun y => decide (y < x)))).sum : Nat) : K)
      + (((v.map (fun x => v.countP (fun y => decide (y = x)))).sum : Nat) : K)
      = (v.length : K) * (v.length : K) := by
    exact_mod_cast htot
  linarith

theorem pearson_step_foldl {K : Type} [Field K] (l : List (K × K)) :
    ∀ s : PearsonSums K, l.foldl pearson_step s =
      { sum_a := s.sum_a + (l.map Prod.fst).sum
        sum_b := s.sum_b + (l.map Prod.snd).sum
        sum_ab := s.sum_ab + (l.map (fun p => p.1 * p.2)).sum
        square_sum_a := s.square_sum_a + (l.map (fun p => p.1 * p.1)).sum
        square_sum_b := s.square_sum_b + (l.map (fun p => p.2 * p.2)).sum } := by
  induction l with
  | nil => intro s; simp
  | cons x l ih =>
    intro s
    rw [List.foldl_cons, ih]
    simp only [pearson_step, List.map_cons, List.sum_cons, add_assoc]

theorem zip_square_sums {K : Type} [Field K] (a b : List K) (hlen : a.length = b.length) :
    (a.zip b).map Prod.fst = a ∧ (a.zip b).map Prod.snd = b ∧
    ((a.zip b).map (fun p => p.1 * p.1)).sum = (a.map (fun t => t ^ 2)).sum ∧
    ((a.zip b).map (fun p => p.2 * p.2)).sum = (b.map (fun t => t ^ 2)).sum := by
  induction a generalizing b with
  | nil =>
    cases b with
    | nil => simp
    | cons y b => simp at hlen
  | cons x a ih =>
    cases b with
    | nil => simp at hlen
    | cons y b =>
      obtain ⟨h1, h2, h3, h4⟩ := ih b (by simpa using hlen)
      simp only [List.zip_cons_cons, List.map_cons, List.sum_cons, h1, h2, h3, h4, pow_two]
      exact ⟨trivial, trivial, trivial, trivial⟩

/-- The result of `pearson` on vectors of equal length, in terms of the sums of
the entries. The second variance is computed as in the source, from
`sum_a * sum_b`. -/
theorem pearson_eq {K : Type} [Field K] [DecidableEq K] (sqrt : K → K) (a b : List K)
    (hlen : a.length = b.length) :
    pearson sqrt a b =
      if (a.length : K) * (a.map (fun t => t ^ 2)).sum - a.sum * a.sum = 0
          ∧ (a.length : K) * (b.map (fun t => t ^ 2)).sum - a.sum * b.sum = 0 then some 1
      else if (a.length : K) * (a.map (fun t => t ^ 2)).sum - a.sum * a.sum = 0
          ∨ (a.length : K) * (b.map (fun t => t ^ 2)).sum - a.sum * b.sum = 0 then some 0
      else some (((a.length : K) * ((a.zip b).map (fun p => p.1 * p.2)).sum - a.sum * b.sum)
        / sqrt (((a.length : K) * (a.map (fun t => t ^ 2)).sum - a.sum * a.sum)
          * ((a.length : K) * (b.map (fun t => t ^ 2)).sum - a.sum * b.sum))) := by
  obtain ⟨h1, h2, h3, h4⟩ := zip_square_sums a b hlen
  have hne : ¬ a.length ≠ b.length := by simp [hlen]
  simp only [pearson, hne, if_false, pearson_step_foldl, zero_add, h1, h2, h3, h4]

theorem sum_sq_affine {K : Type} [LinearOrderedField K] (c d : K) (x : List K) :
    (x.map (fun t => (c * t - d) ^ 2)).sum
      = c ^ 2 * (x.map (fun t => t ^ 2)).sum - 2 * c * d * x.sum + (x.length : K) * d ^ 2 := by
  induction x with
  | nil => simp
  | cons a x ih =>
    simp only [List.map_cons, List.sum_cons, ih, List.length_cons]
    push_cast
    ring

theorem sum_sq_nonneg {K : Type} [LinearOrderedField K] (f : K → K) (x : List K) :
    0 ≤ (x.map (fun t => (f t) ^ 2)).sum := by
  induction x with
  | nil => simp
  | cons a x ih =>
    simp only [List.map_cons, List.sum_cons]
    have := sq_nonneg (f a)
    linarith

theorem sum_sq_eq_zero {K : Type} [LinearOrderedField K] (f : K → K) (x : List K)
    (h : (x.map (fun t => (f t) ^ 2)).sum = 0) : ∀ t ∈ x, f t = 0 := by
  induction x with
  | nil => intro t ht; simp at ht
  | cons a x ih =>
    simp only [List.map_cons, List.sum_cons] at h
    have h1 := sq_nonneg (f a)
    have h2 := sum_sq_nonneg f x
    have h3 : (f a) ^ 2 = 0 := by linarith
    have h4 : (x.map (fun t => (f t) ^ 2)).sum = 0 := by linarith
    intro t ht
    rcases List.mem_cons.mp ht with h5 | h5
    · rw [h5]; exact pow_eq_zero_iff (by norm_num) |>.mp h3
    · exact ih h4 t h5

/-- A vector whose variance term `n * sum(x_i^2) - sum(x)^2` vanishes is
constant. -/
theorem constant_of_variance_zero {K : Type} [LinearOrderedField K] (x : List K)
    (h : (x.length : K) * (x.map (fun t => t ^ 2)).sum - x.sum * x.sum = 0) :
    is_constant x := by
  have h1 := sum_sq_affine (x.length : K) x.sum x
  have h2 : (x.map (fun t => ((x.length : K) * t - x.sum) ^ 2)).sum = 0 := by
    rw [h1]
    have : (x.length : K) ^ 2 * (x.map (fun t => t ^ 2)).sum
        - 2 * (x.length : K) * x.sum * x.sum + (x.length : K) * x.sum ^ 2
        = (x.length : K) * ((x.length : K) * (x.map (fun t => t ^ 2)).sum - x.sum * x.sum) := by
      ring
    rw [this, h, mul_zero]
  have h3 := sum_sq_eq_zero (fun t => (x.length : K) * t - x.sum) x h2
  intro u hu v hv
  have hn : (x.length : K) ≠ 0 := by
    have : 0 < x.length := List.length_pos_of_mem hu
    exact_mod_cast (Nat.pos_iff_ne_zero.mp this)
  have e1 := h3 u hu
  have e2 := h3 v hv
  simp only at e1 e2
  have : (x.length : K) * u = (x.length : K) * v := by linarith
  exact mul_left_cancel₀ hn this

/-- C5: for vectors `a` and `b` of equal length whose rank vectors are both
non-constant, `spearman a b` (over the reals) is the Pearson correlation
coefficient of `rankify a` and `rankify b`. -/
theorem spearman_eq_pearson_of_ranks {T : Type} [LinearOrder T] (a b : List T)
    (hlen : a.length = b.length) (ha : ¬ is_constant (rankify ℝ a))
    (hb : ¬ is_constant (rankify ℝ b)) :
    spearman ℝ Real.sqrt a b
      = some (pearson_coefficient Real.sqrt (rankify ℝ a) (rankify ℝ b)) := by
  have hl : (rankify ℝ a).length = (rankify ℝ b).length := by
    rw [rankify_length, rankify_length, hlen]
  have hsum : (rankify ℝ b).sum = (rankify ℝ a).sum := by
    rw [rankify_sum, rankify_sum, hlen]
  have hva : ((rankify ℝ a).length : ℝ) * ((rankify ℝ a).map (fun t => t ^ 2)).sum
      - (rankify ℝ a).sum * (rankify ℝ a).sum ≠ 0 :=
    fun h0 => ha (constant_of_variance_zero _ h0)
  have hvb : ((rankify ℝ a).length : ℝ) * ((rankify ℝ b).map (fun t => t ^ 2)).sum
      - (rankify ℝ a).sum * (rankify ℝ b).sum ≠ 0 := by
    intro h0
    apply hb
    apply constant_of_variance_zero
    rw [← hl, hsum]
    rw [hsum] at h0
    exact h0
  unfold spearman
  rw [pearson_eq Real.sqrt _ _ hl]
  have hnand : ¬ (((rankify ℝ a).length : ℝ) * ((rankify ℝ a).map (fun t => t ^ 2)).sum
      - (rankify ℝ a).sum * (rankify ℝ a).sum = 0
      ∧ ((rankify ℝ a).length : ℝ) * ((rankify ℝ b).map (fun t => t ^ 2)).sum
      - (rankify ℝ a).sum * (rankify ℝ b).sum = 0) := fun h => hva h.1
  have hnor : ¬ (((rankify ℝ a).length : ℝ) * ((rankify ℝ a).map (fun t => t ^ 2)).sum
      - (rankify ℝ a).sum * (rankify ℝ a).sum = 0
      ∨ ((rankify ℝ a).length : ℝ) * ((rankify ℝ b).map (fun t => t ^ 2)).sum
      - (rankify ℝ a).sum * (rankify ℝ b).sum = 0) := by
    rintro (h | h)
    · exact hva h
    · exact hvb h
  rw [if_neg hnand, if_neg hnor]
  unfold pearson_coefficient
  rw [hsum, pow_two]

theorem spearman_eq_pearson_of_ranks_witness :
    spearman ℝ Real.sqrt ([1, 2, 3] : List Nat) [1, 3, 2]
      = some (pearson_coefficient Real.sqrt (rankify ℝ ([1, 2, 3] : List Nat))
          (rankify ℝ ([1, 3, 2] : List Nat))) :=
  spearman_eq_pearson_of_ranks [1, 2, 3] [1, 3, 2] rfl
    (by
      intro h
      have := h (3 / 2) (by norm_num [rankify, rankify_count]) (5 / 2)
        (by norm_num [rankify, rankify_count])
      norm_num at this)
    (by
      intro h
      have := h (3 / 2) (by norm_num [rankify, rankify_count]) (5 / 2)
        (by norm_num [rankify, rankify_count])
      norm_num at this)

/-- C6 (defect of the code): `rankify` does not return the fractional rank
`(number of smaller elements) + (c + 1) / 2`. On the one-element vector `[5]`
it returns `3/2` where the fractional rank is `1`, and on every vector every
entry exceeds the fractional rank by `1/2`. -/
theorem rankify_exceeds_fractional_rank :
    rankify ℚ ([5] : List Nat) = [3 / 2] ∧
      ((3 / 2 : ℚ) ≠ 0 + (1 + 1) / 2) ∧
      ∀ v : List Nat, rankify ℚ v = v.map (fun vi =>
        (((v.countP (fun vj => decide (vj < vi)) : Nat) : ℚ)
          + (((v.countP (fun vj => decide (vj = vi)) : Nat) : ℚ) + 1) / 2) + 1 / 2) := by
  refine ⟨by norm_num [rankify, rankify_count], by norm_num, ?_⟩
  intro v
  rw [rankify_eq]
  apply List.map_congr_left
  intro vi _
  push_cast
  ring

/-- The variance term `n * sum(x_i^2) - sum(x)^2` is never negative. -/
theorem variance_nonneg {K : Type} [LinearOrderedField K] (x : List K) :
    0 ≤ (x.length : K) * (x.map (fun t => t ^ 2)).sum - x.sum * x.sum := by
  by_cases hn : x.length = 0
  · have : x = [] := List.length_eq_zero.mp hn
    subst this
    simp
  · have hpos : (0 : K) < (x.length : K) := by
      exact_mod_cast Nat.pos_of_ne_zero hn
    have h1 := sum_sq_affine (x.length : K) x.sum x
    have h2 := sum_sq_nonneg (fun t => (x.length : K) * t - x.sum) x
    have h3 : (x.length : K) * ((x.length : K) * (x.map (fun t => t ^ 2)).sum - x.sum * x.sum)
        = (x.map (fun t => ((x.length : K) * t - x.sum) ^ 2)).sum := by
      rw [h1]; ring
    have h4 : 0 ≤ (x.length : K)
        * ((x.length : K) * (x.map (fun t => t ^ 2)).sum - x.sum * x.sum) := by
      rw [h3]; exact h2
    exact nonneg_of_mul_nonneg_right h4 hpos

theorem sqrt_sixteen : Real.sqrt 16 = 4 := by
  have h : (16 : ℝ) = 4 * 4 := by norm_num
  rw [h, Real.sqrt_mul_self (by norm_num)]

theorem sqrt_four : Real.sqrt 4 = 2 := by
  have h : (4 : ℝ) = 2 * 2 := by norm_num
  rw [h, Real.sqrt_mul_self (by norm_num)]

/-- C15 (defect of the code): `pearson` computes the second variance term from
`sum_a * sum_b` instead of `sum_b * sum_b`. For the non-constant vectors
`a = [0, 1]` and `b = [1, 3]` it returns `1/2`, where the Pearson correlation
coefficient of the claim is `1`. -/
theorem pearson_wrong_second_variance :
    pearson Real.sqrt [0, 1] [1, 3] = some (1 / 2) ∧
      pearson_coefficient Real.sqrt [0, 1] [1, 3] = 1 := by
  constructor
  · rw [pearson_eq Real.sqrt [0, 1] [1, 3] rfl]
    norm_num [sqrt_sixteen]
  · unfold pearson_coefficient
    norm_num [sqrt_four]

theorem sum_sq_pair_affine {K : Type} [LinearOrderedField K] (c d1 d2 t : K)
    (l : List (K × K)) :
    (l.map (fun p => ((c * p.1 - d1) + t * (c * p.2 - d2)) ^ 2)).sum
      = (c ^ 2 * (l.map (fun p => p.1 * p.1)).sum - 2 * c * d1 * (l.map Prod.fst).sum
          + (l.length : K) * d1 ^ 2)
        + 2 * t * (c ^ 2 * (l.map (fun p => p.1 * p.2)).sum - c * d2 * (l.map Prod.fst).sum
          - c * d1 * (l.map Prod.snd).sum + (l.length : K) * d1 * d2)
        + t ^ 2 * (c ^ 2 * (l.map (fun p => p.2 * p.2)).sum - 2 * c * d2 * (l.map Prod.snd).sum
          + (l.length : K) * d2 ^ 2) := by
  induction l with
  | nil => simp
  | cons p l ih =>
    simp only [List.map_cons, List.sum_cons, ih, List.length_cons]
    push_cast
    ring

theorem sum_sq_pair_nonneg {K : Type} [LinearOrderedField K] (f : K × K → K)
    (l : List (K × K)) : 0 ≤ (l.map (fun p => (f p) ^ 2)).sum := by
  induction l with
  | nil => simp
  | cons a l ih =>
    simp only [List.map_cons, List.sum_cons]
    have := sq_nonneg (f a)
    linarith

/-- The inequality of Cauchy and Schwarz for the terms that `pearson` computes:
the square of the covariance term is at most the product of the two variance
terms. -/
theorem covariance_sq_le {K : Type} [LinearOrderedField K] (x y : List K)
    (hlen : x.length = y.length) :
    ((x.length : K) * ((x.zip y).map (fun p => p.1 * p.2)).sum - x.sum * y.sum) ^ 2
      ≤ ((x.length : K) * (x.map (fun t => t ^ 2)).sum - x.sum * x.sum)
        * ((x.length : K) * (y.map (fun t => t ^ 2)).sum - y.sum * y.sum) := by
  obtain ⟨h1, h2, h3, h4⟩ := zip_square_sums x y hlen
  have hzl : (x.zip y).length = x.length := by
    rw [List.length_zip, hlen, min_self]
  by_cases hn : x.length = 0
  · have hx : x = [] := List.length_eq_zero.mp hn
    subst hx
    simp
  have hpos : (0 : K) < (x.length : K) := by exact_mod_cast Nat.pos_of_ne_zero hn
  have key : ∀ t : K,
      0 ≤ ((x.length : K) * ((x.length : K) * (y.map (fun t => t ^ 2)).sum - y.sum * y.sum))
            * (t * t)
          + (2 * ((x.length : K)
              * ((x.length : K) * ((x.zip y).map (fun p => p.1 * p.2)).sum - x.sum * y.sum))) * t
          + (x.length : K) * ((x.length : K) * (x.map (fun t => t ^ 2)).sum - x.sum * x.sum) := by
    intro t
    have hs := sum_sq_pair_affine (x.length : K) x.sum y.sum t (x.zip y)
    have hnn := sum_sq_pair_nonneg
      (fun p => (((x.length : K) * p.1 - x.sum) + t * ((x.length : K) * p.2 - y.sum))) (x.zip y)
    rw [hs, h1, h2, h3, h4, hzl] at hnn
    have e : ((x.length : K) * ((x.length : K) * (y.map (fun t => t ^ 2)).sum - y.sum * y.sum))
            * (t * t)
          + (2 * ((x.length : K)
              * ((x.length : K) * ((x.zip y).map (fun p => p.1 * p.2)).sum - x.sum * y.sum))) * t
          + (x.length : K) * ((x.length : K) * (x.map (fun t => t ^ 2)).sum - x.sum * x.sum)
        = ((x.length : K) ^ 2 * (x.map (fun t => t ^ 2)).sum - 2 * (x.length : K) * x.sum * x.sum
            + (x.length : K) * x.sum ^ 2)
          + 2 * t * ((x.length : K) ^ 2 * ((x.zip y).map (fun p => p.1 * p.2)).sum
            - (x.length : K) * y.sum * x.sum - (x.length : K) * x.sum * y.sum
            + (x.length : K) * x.sum * y.sum)
          + t ^ 2 * ((x.length : K) ^ 2 * (y.map (fun t => t ^ 2)).sum
            - 2 * (x.length : K) * y.sum * y.sum + (x.length : K) * y.sum ^ 2) := by
      ring
    rw [e]
    exact hnn
  have hd := discrim_le_zero (K := K) key
  unfold discrim at hd
  have hn2 : (0 : K) < (x.length : K) ^ 2 := by positivity
  have e2 : (2 * ((x.length : K)
        * ((x.length : K) * ((x.zip y).map (fun p => p.1 * p.2)).sum - x.sum * y.sum))) ^ 2
      - 4 * ((x.length : K) * ((x.length : K) * (y.map (fun t => t ^ 2)).sum - y.sum * y.sum))
        * ((x.length : K) * ((x.length : K) * (x.map (fun t => t ^ 2)).sum - x.sum * x.sum))
      = 4 * (x.length : K) ^ 2 *
        (((x.length : K) * ((x.zip y).map (fun p => p.1 * p.2)).sum - x.sum * y.sum) ^ 2
          - ((x.length : K) * (x.map (fun t => t ^ 2)).sum - x.sum * x.sum)
            * ((x.length : K) * (y.map (fun t => t ^ 2)).sum - y.sum * y.sum)) := by
    ring
  rw [e2] at hd
  have h4n : (0 : K) < 4 * (x.length : K) ^ 2 := by positivity
  have := nonpos_of_mul_nonpos_right hd h4n
  linarith

/-- C33: for all vectors `a` and `b` of equal length, `spearman a b` returns a
value, and the value lies in `[-1, 1]` (over the reals). -/
theorem spearman_range {T : Type} [LinearOrder T] (a b : List T)
    (hlen : a.length = b.length) :
    ∃ r : ℝ, spearman ℝ Real.sqrt a b = some r ∧ -1 ≤ r ∧ r ≤ 1 := by
  have hl : (rankify ℝ a).length = (rankify ℝ b).length := by
    rw [rankify_length, rankify_length, hlen]
  have hsum : (rankify ℝ a).sum = (rankify ℝ b).sum := by
    rw [rankify_sum, rankify_sum, hlen]
  unfold spearman
  rw [pearson_eq Real.sqrt _ _ hl, ← hsum]
  split
  · exact ⟨1, rfl, by norm_num, by norm_num⟩
  · rename_i hboth
    split
    · exact ⟨0, rfl, by norm_num, by norm_num⟩
    · rename_i hone
      refine ⟨_, rfl, ?_⟩
      have hva0 := variance_nonneg (rankify ℝ a)
      have hvb0 := variance_nonneg (rankify ℝ b)
      have hcs := covariance_sq_le (rankify ℝ a) (rankify ℝ b) hl
      rw [← hl, ← hsum] at hvb0
      rw [← hsum] at hcs
      have hne : ¬ (((rankify ℝ a).length : ℝ) * ((rankify ℝ a).map (fun t => t ^ 2)).sum
            - (rankify ℝ a).sum * (rankify ℝ a).sum = 0) := fun h => hone (Or.inl h)
      have hne2 : ¬ (((rankify ℝ a).length : ℝ) * ((rankify ℝ b).map (fun t => t ^ 2)).sum
            - (rankify ℝ a).sum * (rankify ℝ a).sum = 0) := fun h => hone (Or.inr h)
      have hva : 0 < ((rankify ℝ a).length : ℝ) * ((rankify ℝ a).map (fun t => t ^ 2)).sum
            - (rankify ℝ a).sum * (rankify ℝ a).sum := lt_of_le_of_ne hva0 (Ne.symm hne)
      have hvb : 0 < ((rankify ℝ a).length : ℝ) * ((rankify ℝ b).map (fun t => t ^ 2)).sum
            - (rankify ℝ a).sum * (rankify ℝ a).sum := lt_of_le_of_ne hvb0 (Ne.symm hne2)
      have hprod := mul_pos hva hvb
      have hsq := Real.sqrt_pos.mpr hprod
      have habs := Real.abs_le_sqrt hcs
      rw [abs_le] at habs
      constructor
      · rw [le_div_iff₀ hsq]
        linarith [habs.1]
      · rw [div_le_one hsq]
        exact habs.2

theorem spearman_range_witness :
    ∃ r : ℝ, spearman ℝ Real.sqrt ([3, 1, 2] : List Nat) [1, 3, 2] = some r ∧ -1 ≤ r ∧ r ≤ 1 :=
  spearman_range [3, 1, 2] [1, 3, 2] rfl

theorem most_likely_distance_step_foldl {K : Type} [Field K] (l : List (K × K)) :
    ∀ s : K × K × K, l.foldl most_likely_distance_step s =
      (s.1 + (l.map (fun p => p.1 * p.1)).sum,
        s.2.1 + (l.map (fun p => (p.1 - p.2) * (p.1 - p.2))).sum,
        s.2.2 + (l.map (fun p => p.2 * p.2)).sum) := by
  induction l with
  | nil => intro s; simp
  | cons x l ih =>
    intro s
    rw [List.foldl_cons, ih]
    simp only [most_likely_distance_step, List.map_cons, List.sum_cons, add_assoc]

theorem zip_diff_sum {K : Type} [Field K] (a b : List K) :
    ((a.zip b).map (fun p => (p.1 - p.2) * (p.1 - p.2))).sum
      = norm_sq (List.zipWith (fun x y => x - y) a b) := by
  unfold norm_sq
  induction a generalizing b with
  | nil => simp
  | cons x a ih =>
    cases b with
    | nil => simp
    | cons y b =>
      simp only [List.zip_cons_cons, List.map_cons, List.sum_cons, List.zipWith_cons_cons, ih,
        pow_two]

theorem norm_sq_nonneg {K : Type} [LinearOrderedField K] (x : List K) : 0 ≤ norm_sq x :=
  sum_sq_nonneg (fun t => t) x

theorem norm_sq_eq_zero {K : Type} [LinearOrderedField K] (x : List K) (h : norm_sq x = 0) :
    ∀ t ∈ x, t = 0 :=
  sum_sq_eq_zero (fun t => t) x h

/-- C19: for real vectors `a` and `b` of equal length that are not both
all-zero, `most_likely_distance a b` is
`sqrt(‖a-b‖² / ((‖a‖² + ‖b‖²) / 2))`, with a non-zero denominator, where `‖.‖²`
is the sum of the squared entries. -/
theorem most_likely_distance_eq (a b : List ℝ) (hlen : a.length = b.length)
    (hnz : ¬ ((∀ t ∈ a, t = 0) ∧ (∀ t ∈ b, t = 0))) :
    most_likely_distance Real.sqrt a b
      = some (Real.sqrt (norm_sq (List.zipWith (fun x y => x - y) a b)
          / ((norm_sq a + norm_sq b) / 2))) ∧
      (norm_sq a + norm_sq b) / 2 ≠ 0 := by
  obtain ⟨_, _, h3, h4⟩ := zip_square_sums a b hlen
  constructor
  · have hne : ¬ a.length ≠ b.length := by simp [hlen]
    simp only [most_likely_distance, hne, if_false, most_likely_distance_step_foldl, zero_add,
      h3, h4, zip_diff_sum]
    rfl
  · intro h0
    have ha := norm_sq_nonneg a
    have hb := norm_sq_nonneg b
    have hsum : norm_sq a + norm_sq b = 0 := by linarith
    apply hnz
    exact ⟨norm_sq_eq_zero a (by linarith), norm_sq_eq_zero b (by linarith)⟩

theorem most_likely_distance_eq_witness :
    most_likely_distance Real.sqrt [1, 0] [0, 1]
      = some (Real.sqrt (norm_sq (List.zipWith (fun x y => x - y) [1, 0] [0, 1])
          / ((norm_sq [1, 0] + norm_sq [0, 1]) / 2))) ∧
      (norm_sq ([1, 0] : List ℝ) + norm_sq [0, 1]) / 2 ≠ 0 :=
  most_likely_distance_eq [1, 0] [0, 1] rfl (by
    rintro ⟨h, _⟩
    have := h 1 (by simp)
    norm_num at this)

theorem lcs_example : lcs [1, 2, 3, 4, 1] [3, 4, 1, 2, 1, 3] = 3 := by
  decide

theorem lcs_spec_nil_right {T : Type} [DecidableEq T] (s : List T) : lcs_spec s [] = 0 := by
  cases s <;> simp [lcs_spec]

theorem lcs_spec_cons_cons {T : Type} [DecidableEq T] (a b : T) (s t : List T) :
    lcs_spec (a :: s) (b :: t) =
      if a = b then lcs_spec s t + 1
      else max (lcs_spec s (b :: t)) (lcs_spec (a :: s) t) := by
  simp [lcs_spec]

/-- No common subsequence is longer than `lcs_spec`. -/
theorem length_le_lcs_spec {T : Type} [DecidableEq T] (k : Nat) :
    ∀ (c s t : List T), s.length + t.length ≤ k → c.Sublist s → c.Sublist t →
      c.length ≤ lcs_spec s t := by
  induction k with
  | zero =>
    intro c s t h hs _
    have : s = [] := List.length_eq_zero.mp (by omega)
    subst this
    have : c = [] := List.sublist_nil.mp hs
    subst this
    simp
  | succ k ih =>
    intro c s t h hs ht
    cases c with
    | nil => simp
    | cons x c =>
      cases s with
      | nil => exact absurd hs (by simp)
      | cons a s =>
        cases t with
        | nil => exact absurd ht (by simp)
        | cons b t =>
          simp only [List.length_cons] at h
          rw [lcs_spec_cons_cons]
          by_cases hab : a = b
          · rw [if_pos hab]
            have hcs : c.Sublist s := by
              cases hs with
              | cons _ h1 => exact (List.sublist_cons_self x c).trans h1
              | cons₂ _ h1 => exact h1
            have hct : c.Sublist t := by
              cases ht with
              | cons _ h1 => exact (List.sublist_cons_self x c).trans h1
              | cons₂ _ h1 => exact h1
            have := ih c s t (by omega) hcs hct
            simp only [List.length_cons]
            omega
          · rw [if_neg hab]
            cases hs with
            | cons _ h1 =>
              have := ih (x :: c) s (b :: t) (by simp only [List.length_cons]; omega) h1 ht
              exact le_trans this (le_max_left _ _)
            | cons₂ _ h1 =>
              cases ht with
              | cons _ h2 =>
                have := ih (x :: c) (x :: s) t (by simp only [List.length_cons]; omega)
                  (List.Sublist.cons₂ x h1) h2
                exact le_trans this (le_max_right _ _)
              | cons₂ _ h2 => exact absurd rfl hab

theorem getD_set_self_row (L : List (List Nat)) (i : Nat) (row : List Nat)
    (hi : i < L.length) : (L.set i row).getD i [] = row := by
  simp [List.getD_eq_getElem?_getD, List.getElem?_set_self hi]

theorem getD_set_ne_row (L : List (List Nat)) (i r : Nat) (row : List Nat) (h : i ≠ r) :
    (L.set i row).getD r [] = L.getD r [] := by
  simp [List.getD_eq_getElem?_getD, List.getElem?_set_ne h]

theorem getD_set_self_nat (row : List Nat) (j v : Nat) (hj : j < row.length) :
    (row.set j v).getD j 0 = v := by
  simp [List.getD_eq_getElem?_getD, List.getElem?_set_self hj]

theorem getD_set_ne_nat (row : List Nat) (j j1 v : Nat) (h : j ≠ j1) :
    (row.set j v).getD j1 0 = row.getD j1 0 := by
  simp [List.getD_eq_getElem?_getD, List.getElem?_set_ne h]

theorem table_get_set (L : List (List Nat)) (i j v : Nat) (hi : i < L.length)
    (hj : j < (L.getD i []).length) (i1 j1 : Nat) :
    table_get (table_set L i j v) i1 j1
      = if i1 = i ∧ j1 = j then v else table_get L i1 j1 := by
  unfold table_get table_set
  by_cases h1 : i1 = i
  · subst h1
    rw [getD_set_self_row L i1 _ hi]
    by_cases h2 : j1 = j
    · subst h2
      rw [getD_set_self_nat _ _ _ hj, if_pos ⟨rfl, rfl⟩]
    · rw [getD_set_ne_nat _ _ _ _ (fun h => h2 h.symm), if_neg (fun h => h2 h.2)]
  · rw [getD_set_ne_row L i i1 _ (fun h => h1 h.symm), if_neg (fun h => h1 h.1)]

theorem table_set_length (L : List (List Nat)) (i j v : Nat) :
    (table_set L i j v).length = L.length := by
  simp [table_set]

theorem table_set_row_length (L : List (List Nat)) (i j v r : Nat) :
    ((table_set L i j v).getD r []).length = (L.getD r []).length := by
  unfold table_set
  by_cases h1 : r = i
  · subst h1
    by_cases hi : r < L.length
    · rw [getD_set_self_row L r _ hi]
      simp
    · have h3 : L.length ≤ r := by omega
      have e1 : L.getD r [] = [] := by
        simp [List.getD_eq_getElem?_getD, List.getElem?_eq_none h3]
      rw [e1]
      have h4 : (L.set r (([] : List Nat).set j v)).length ≤ r := by
        simp only [List.length_set]; omega
      have e2 : (L.set r (([] : List Nat).set j v)).getD r [] = [] := by
        rw [List.getD_eq_getElem?_getD, List.getElem?_eq_none h4]
        rfl
      rw [e2]
  · rw [getD_set_ne_row L i r _ (fun h => h1 h.symm)]

theorem take_succ_reverse {T : Type} (l : List T) (i : Nat) (hi : i < l.length) :
    (l.take (i + 1)).reverse = l[i] :: (l.take i).reverse := by
  rw [List.take_succ, List.getElem?_eq_getElem hi]
  simp

/-- One cell of the table of `lcs` is written with the value for its two
leading segments. -/
theorem lcs_cell_inv {T : Type} [DecidableEq T] (s1 s2 : List T) (L : List (List Nat))
    (i j : Nat) (hi : i ≤ s1.length) (hj : j ≤ s2.length) (h : lcs_inv s1 s2 L i j) :
    lcs_inv s1 s2 (lcs_cell s1 s2 L i j) i (j + 1) := by
  obtain ⟨hlen, hrows, hval⟩ := h
  have hiL : i < L.length := by omega
  have hjL : j < (L.getD i []).length := by rw [hrows i hi]; omega
  have hcell : ∃ v, lcs_cell s1 s2 L i j = table_set L i j v ∧
      v = lcs_spec (s1.take i).reverse (s2.take j).reverse := by
    unfold lcs_cell
    by_cases h0 : i = 0 ∨ j = 0
    · rw [if_pos h0]
      refine ⟨0, rfl, ?_⟩
      rcases h0 with h0 | h0
      · subst h0; simp [lcs_spec]
      · subst h0; simp [lcs_spec_nil_right]
    · rw [if_neg h0]
      obtain ⟨i0, rfl⟩ : ∃ i0, i = i0 + 1 := ⟨i - 1, by omega⟩
      obtain ⟨j0, rfl⟩ : ∃ j0, j = j0 + 1 := ⟨j - 1, by omega⟩
      have hi0 : i0 < s1.length := by omega
      have hj0 : j0 < s2.length := by omega
      simp only [Nat.add_sub_cancel]
      rw [take_succ_reverse s1 i0 hi0, take_succ_reverse s2 j0 hj0, lcs_spec_cons_cons,
        List.getElem?_eq_getElem hi0, List.getElem?_eq_getElem hj0]
      have e1 := hval i0 j0 (by omega) (by omega) (Or.inl (by omega))
      have e2 := hval i0 (j0 + 1) (by omega) (by omega) (Or.inl (by omega))
      have e3 := hval (i0 + 1) j0 (by omega) (by omega) (Or.inr ⟨rfl, by omega⟩)
      rw [take_succ_reverse s2 j0 hj0] at e2
      rw [take_succ_reverse s1 i0 hi0] at e3
      by_cases heq : s1[i0] = s2[j0]
      · simp only [heq, if_true]
        exact ⟨_, rfl, by rw [e1]⟩
      · have hne : ¬ (some s1[i0] = some s2[j0]) := by
          intro hh; exact heq (Option.some.inj hh)
        simp only [hne, heq, if_false]
        exact ⟨_, rfl, by rw [e2, e3]⟩
  obtain ⟨v, hv, hspec⟩ := hcell
  rw [hv]
  refine ⟨by rw [table_set_length]; exact hlen, ?_, ?_⟩
  · intro r hr
    rw [table_set_row_length]
    exact hrows r hr
  · intro i1 j1 hi1 hj1 hord
    rw [table_get_set L i j v hiL hjL]
    by_cases hc : i1 = i ∧ j1 = j
    · rw [if_pos hc, hc.1, hc.2]
      exact hspec
    · rw [if_neg hc]
      apply hval i1 j1 hi1 hj1
      rcases hord with h1 | ⟨h1, h2⟩
      · exact Or.inl h1
      · refine Or.inr ⟨h1, ?_⟩
        have : j1 ≠ j := fun hh => hc ⟨h1, hh⟩
        omega

/-- One row of the table of `lcs`. -/
theorem lcs_row_inv {T : Type} [DecidableEq T] (s1 s2 : List T) (i : Nat)
    (hi : i ≤ s1.length) :
    ∀ k, k ≤ s2.length + 1 → ∀ L, lcs_inv s1 s2 L i 0 →
      lcs_inv s1 s2 ((List.range k).foldl (fun L j => lcs_cell s1 s2 L i j) L) i k := by
  intro k
  induction k with
  | zero => intro _ L h; simpa using h
  | succ k ih =>
    intro hk L h
    rw [List.range_succ, List.foldl_append]
    exact lcs_cell_inv s1 s2 _ i k hi (by omega) (ih (by omega) L h)

/-- The rows of the table of `lcs`. -/
theorem lcs_rows_inv {T : Type} [DecidableEq T] (s1 s2 : List T) :
    ∀ k, k ≤ s1.length + 1 → ∀ L, lcs_inv s1 s2 L 0 0 →
      lcs_inv s1 s2 ((List.range k).foldl
        (fun L i => (List.range (s2.length + 1)).foldl (fun L j => lcs_cell s1 s2 L i j) L) L)
        k 0 := by
  intro k
  induction k with
  | zero => intro _ L h; simpa using h
  | succ k ih =>
    intro hk L h
    rw [List.range_succ (n := k), List.foldl_append]
    have h1 := ih (by omega) L h
    have h2 := lcs_row_inv s1 s2 k (by omega) (s2.length + 1) (le_refl _) _ h1
    obtain ⟨hlen, hrows, hval⟩ := h2
    refine ⟨hlen, hrows, ?_⟩
    intro i1 j1 hi1 hj1 hord
    apply hval i1 j1 hi1 hj1
    rcases hord with h3 | ⟨_, h3⟩
    · rcases Nat.lt_succ_iff_lt_or_eq.mp h3 with h4 | h4
      · exact Or.inl h4
      · exact Or.inr ⟨h4, by omega⟩
    · omega

/-- The table of `lcs` ends with the recursive value in its last cell. -/
theorem lcs_eq_lcs_spec {T : Type} [DecidableEq T] (s1 s2 : List T) :
    lcs s1 s2 = lcs_spec s1.reverse s2.reverse := by
  have h0 : lcs_inv s1 s2
      (List.replicate (s1.length + 1) (List.replicate (s2.length + 1) 0)) 0 0 := by
    refine ⟨by simp, ?_, ?_⟩
    · intro r hr
      have : r < s1.length + 1 := by omega
      simp [List.getD_eq_getElem?_getD, List.getElem?_replicate, this]
    · intro i1 j1 _ _ hord
      omega
  have h := lcs_rows_inv s1 s2 (s1.length + 1) (le_refl _) _ h0
  have hv := h.2.2 s1.length s2.length (le_refl _) (le_refl _) (Or.inl (by omega))
  simp only [List.take_length] at hv
  unfold lcs
  exact hv

/-- Every common subsequence of `s1` and `s2` is at most `lcs s1 s2` long. -/
theorem length_le_lcs {T : Type} [DecidableEq T] (c s1 s2 : List T) (h1 : c.Sublist s1)
    (h2 : c.Sublist s2) : c.length ≤ lcs s1 s2 := by
  rw [lcs_eq_lcs_spec]
  have := length_le_lcs_spec _ c.reverse s1.reverse s2.reverse (le_refl _)
    (List.reverse_sublist.mpr h1) (List.reverse_sublist.mpr h2)
  simpa using this

/-- Sequences without a common symbol have no common subsequence. -/
theorem lcs_spec_eq_zero_of_disjoint {T : Type} [DecidableEq T] (k : Nat) :
    ∀ (s t : List T), s.length + t.length ≤ k → (∀ x ∈ s, x ∉ t) → lcs_spec s t = 0 := by
  induction k with
  | zero =>
    intro s t h _
    have : s = [] := List.length_eq_zero.mp (by omega)
    subst this
    simp [lcs_spec]
  | succ k ih =>
    intro s t h hd
    cases s with
    | nil => simp [lcs_spec]
    | cons a s =>
      cases t with
      | nil => simp [lcs_spec]
      | cons b t =>
        simp only [List.length_cons] at h
        have hab : a ≠ b := by
          intro hab
          exact hd a (by simp) (by simp [hab])
        rw [lcs_spec_cons_cons, if_neg hab]
        have h1 := ih s (b :: t) (by simp only [List.length_cons]; omega)
          (fun x hx => hd x (by simp [hx]))
        have h2 := ih (a :: s) t (by simp only [List.length_cons]; omega)
          (fun x hx hxt => hd x hx (by simp [hxt]))
        rw [h1, h2]
        rfl

theorem lcs_eq_zero_of_disjoint {T : Type} [DecidableEq T] (s t : List T)
    (hd : ∀ x ∈ s, x ∉ t) : lcs s t = 0 := by
  rw [lcs_eq_lcs_spec]
  apply lcs_spec_eq_zero_of_disjoint _ _ _ (le_refl _)
  intro x hx hxt
  exact hd x (List.mem_reverse.mp hx) (List.mem_reverse.mp hxt)

theorem genseqs_pairs_example :
    genseqs_pairs 4 4 (fun si i => si * 10 + i)
      (fun p => if p = 0 then ([2, 0, 1, 3], [3, 1, 0, 2]) else ([3, 1, 0, 2], [0, 3, 2, 1]))
      = Except.ok [[0, 1, 2, 3], [10, 11, 12, 13], [20, 30, 22, 33], [30, 31, 32, 33]] := by
  decide

theorem take_set_of_le {T : Type} (l : List T) (B p : Nat) (v : T) (h : B ≤ p) :
    (l.set p v).take B = l.take B := by
  induction l generalizing B p with
  | nil => simp
  | cons a l ih =>
    cases B with
    | zero => simp
    | succ B =>
      cases p with
      | zero => omega
      | succ p =>
        simp only [List.set_cons_succ, List.take_succ_cons]
        rw [ih B p (by omega)]

theorem take_succ_set {T : Type} (l : List T) (p : Nat) (v : T) (h : p < l.length) :
    (l.set p v).take (p + 1) = l.take p ++ [v] := by
  induction l generalizing p with
  | nil => simp at h
  | cons a l ih =>
    cases p with
    | zero => simp
    | succ p =>
      simp only [List.set_cons_succ, List.take_succ_cons, List.cons_append]
      rw [ih p (by simpa using h)]

theorem take_succ_getElem {T : Type} (l : List T) (p : Nat) (v : T) (h : l[p]? = some v) :
    l.take (p + 1) = l.take p ++ [v] := by
  rw [List.take_succ, h]
  rfl

theorem take_sublist_take_of_le {T : Type} (l : List T) (B p : Nat) (h : B ≤ p) :
    (l.take B).Sublist (l.take p) := by
  have : l.take B = (l.take p).take B := by
    rw [List.take_take, Nat.min_eq_left h]
  rw [this]
  exact List.take_sublist _ _

/-- The innermost loop of `genseqs_pairs`: after `i` assignments the target
sequence and the source sequence have a common subsequence of length `i`, and
no other sequence has changed. -/
theorem genseqs_pairs_assign_loop {T : Type} (si : Nat) (P P2 : List Nat) (n seq_len : Nat)
    (seqs0 : List (List T)) (dst0 src : List T)
    (hPlen : n ≤ P.length) (hP2len : n ≤ P2.length)
    (hPmono : ∀ k1 k2, k1 < k2 → k2 < n → P.getD k1 0 < P.getD k2 0)
    (hP2mono : ∀ k1 k2, k1 < k2 → k2 < n → P2.getD k1 0 < P2.getD k2 0)
    (hPlt : ∀ k, k < n → P.getD k 0 < seq_len)
    (hP2lt : ∀ k, k < n → P2.getD k 0 < seq_len)
    (hdst : seqs0[si]? = some dst0) (hdl : dst0.length = seq_len)
    (hsrc : seqs0[si + 1]? = some src) (hsl : src.length = seq_len) :
    ∀ i, i ≤ n →
      ∃ (seqs : List (List T)) (dst c : List T) (B B2 : Nat),
        for_each (genseqs_pairs_assign si P P2) seqs0 (List.range i) = Except.ok seqs ∧
        seqs.length = seqs0.length ∧
        (∀ t, t ≠ si → seqs[t]? = seqs0[t]?) ∧
        seqs[si]? = some dst ∧ dst.length = seq_len ∧ c.length = i ∧
        (∀ k, i ≤ k → k < n → B ≤ P.getD k 0) ∧
        (∀ k, i ≤ k → k < n → B2 ≤ P2.getD k 0) ∧
        c.Sublist (dst.take B) ∧ c.Sublist (src.take B2) := by
  intro i
  induction i with
  | zero =>
    intro _
    exact ⟨seqs0, dst0, [], 0, 0, rfl, rfl, fun _ _ => rfl, hdst, hdl, rfl,
      fun _ _ _ => Nat.zero_le _, fun _ _ _ => Nat.zero_le _, by simp, by simp⟩
  | succ i ih =>
    intro hi
    obtain ⟨seqs, dst, c, B, B2, hrun, hlen, hother, hd, hdlen, hc, hB, hB2, hcd, hcs⟩ :=
      ih (by omega)
    have hiP : i < P.length := by omega
    have hiP2 : i < P2.length := by omega
    have hp : P.getD i 0 = P[i] := by
      simp [List.getD_eq_getElem?_getD, List.getElem?_eq_getElem hiP]
    have hp2 : P2.getD i 0 = P2[i] := by
      simp [List.getD_eq_getElem?_getD, List.getElem?_eq_getElem hiP2]
    have hpl : P[i] < dst.length := by
      rw [hdlen, ← hp]; exact hPlt i (by omega)
    have hp2l : P2[i] < src.length := by
      rw [hsl, ← hp2]; exact hP2lt i (by omega)
    have hsrc2 : seqs[si + 1]? = some src := by
      rw [hother (si + 1) (by omega)]; exact hsrc
    have hsi : si < seqs.length := by
      by_contra hcon
      rw [List.getElem?_eq_none (by omega)] at hd
      exact absurd hd (by simp)
    have hstep : genseqs_pairs_assign si P P2 seqs i
        = Except.ok (seqs.set si (dst.set P[i] src[P2[i]])) := by
      simp only [genseqs_pairs_assign, List.getElem?_eq_getElem hiP,
        List.getElem?_eq_getElem hiP2, hd, hsrc2, List.getElem?_eq_getElem hp2l, hpl, if_true]
    have hBp : B ≤ P[i] := by rw [← hp]; exact hB i (le_refl _) (by omega)
    have hB2p : B2 ≤ P2[i] := by rw [← hp2]; exact hB2 i (le_refl _) (by omega)
    refine ⟨seqs.set si (dst.set P[i] src[P2[i]]), dst.set P[i] src[P2[i]],
      c ++ [src[P2[i]]], P[i] + 1, P2[i] + 1, ?_, by simp [hlen], ?_, ?_, by simp [hdlen],
      by simp [hc], ?_, ?_, ?_, ?_⟩
    · rw [List.range_succ, for_each_append, hrun]
      simp only [for_each, hstep]
    · intro t ht
      rw [List.getElem?_set_ne (fun h => ht h.symm)]
      exact hother t ht
    · rw [List.getElem?_set_self hsi]
    · intro k hk1 hk2
      have := hPmono i k (by omega) hk2
      rw [hp] at this
      omega
    · intro k hk1 hk2
      have := hP2mono i k (by omega) hk2
      rw [hp2] at this
      omega
    · rw [take_succ_set dst P[i] _ hpl]
      apply List.Sublist.append _ (List.Sublist.refl _)
      exact hcd.trans (take_sublist_take_of_le dst B P[i] hBp)
    · rw [take_succ_getElem src P2[i] src[P2[i]] (List.getElem?_eq_getElem hp2l)]
      apply List.Sublist.append _ (List.Sublist.refl _)
      exact hcs.trans (take_sublist_take_of_le src B2 P2[i] hB2p)

/-- After `std::sort` of its first `n` entries, a shuffled vector starts with
`n` strictly increasing positions below `seq_len`. -/
theorem sort_first_spec (n seq_len : Nat) (perm : List Nat)
    (hperm : perm.Perm (List.range seq_len)) (hn : n ≤ seq_len) :
    n ≤ (sort_first n perm).length ∧
    (∀ k1 k2, k1 < k2 → k2 < n →
      (sort_first n perm).getD k1 0 < (sort_first n perm).getD k2 0) ∧
    (∀ k, k < n → (sort_first n perm).getD k 0 < seq_len) := by
  have hpl : perm.length = seq_len := by rw [hperm.length_eq, List.length_range]
  have hSlen : ((perm.take n).insertionSort (fun x y => x ≤ y)).length = n := by
    rw [List.length_insertionSort, List.length_take, hpl]
    omega
  have hnd : perm.Nodup := (hperm.nodup_iff).mpr (List.nodup_range seq_len)
  have hSperm := List.perm_insertionSort (fun x y : Nat => x ≤ y) (perm.take n)
  have hSnd : ((perm.take n).insertionSort (fun x y => x ≤ y)).Nodup :=
    (hSperm.nodup_iff).mpr (hnd.sublist (List.take_sublist n perm))
  have hSsorted : ((perm.take n).insertionSort (fun x y => x ≤ y)).Sorted (fun x y => x < y) :=
    (List.sorted_insertionSort (fun x y : Nat => x ≤ y) (perm.take n)).lt_of_le hSnd
  have hget : ∀ k, (hk : k < n) →
      ∃ hk2 : k < ((perm.take n).insertionSort (fun x y => x ≤ y)).length,
        (sort_first n perm).getD k 0
          = ((perm.take n).insertionSort (fun x y => x ≤ y))[k] := by
    intro k hk
    have hk2 : k < ((perm.take n).insertionSort (fun x y => x ≤ y)).length := by
      rw [hSlen]; exact hk
    refine ⟨hk2, ?_⟩
    unfold sort_first
    rw [List.getD_eq_getElem?_getD, List.getElem?_append_left hk2, List.getElem?_eq_getElem hk2]
    rfl
  refine ⟨?_, ?_, ?_⟩
  · unfold sort_first
    rw [List.length_append, hSlen]
    omega
  · intro k1 k2 h12 hk2
    obtain ⟨hb1, e1⟩ := hget k1 (by omega)
    obtain ⟨hb2, e2⟩ := hget k2 hk2
    rw [e1, e2]
    exact (List.pairwise_iff_getElem.mp hSsorted) k1 k2 hb1 hb2 h12
  · intro k hk
    obtain ⟨hb, e⟩ := hget k hk
    rw [e]
    have hmem : ((perm.take n).insertionSort (fun x y => x ≤ y))[k] ∈ perm :=
      List.mem_of_mem_take (hSperm.mem_iff.mp (List.getElem_mem hb))
    exact List.mem_range.mp (hperm.mem_iff.mp hmem)

theorem forced_overlap_le (si seq_len num_seqs : Nat) (hsi : si < num_seqs) :
    forced_overlap si seq_len num_seqs ≤ si * seq_len / num_seqs ∧
      si * seq_len / num_seqs ≤ seq_len := by
  constructor
  · unfold forced_overlap
    exact Nat.div_le_div_right (Nat.mod_le _ _)
  · apply Nat.div_le_of_le_mul
    exact Nat.mul_le_mul_right _ (le_of_lt hsi)

/-- One iteration of the loop over the pairs: the pair gets a common
subsequence of `forced_overlap` symbols and no other sequence changes. -/
theorem genseqs_pairs_pair_spec {T : Type} (num_seqs seq_len : Nat)
    (shuffles : Nat → List Nat × List Nat) (hv : valid_shuffles seq_len shuffles)
    (seqs : List (List T)) (si : Nat) (hsi : si + 1 < num_seqs)
    (hlen : seqs.length = num_seqs)
    (hall : ∀ t, t < num_seqs → ∃ a, seqs[t]? = some a ∧ a.length = seq_len) :
    ∃ seqs1, genseqs_pairs_pair num_seqs seq_len shuffles seqs si = Except.ok seqs1 ∧
      seqs1.length = num_seqs ∧
      (∀ t, t ≠ si → seqs1[t]? = seqs[t]?) ∧
      (∀ t, t < num_seqs → ∃ a, seqs1[t]? = some a ∧ a.length = seq_len) ∧
      pair_overlap seq_len (forced_overlap si seq_len num_seqs) seqs1 si := by
  obtain ⟨dst0, hdst, hdl⟩ := hall si (by omega)
  obtain ⟨src, hsrc, hsl⟩ := hall (si + 1) hsi
  have hle : forced_overlap si seq_len num_seqs ≤ seq_len :=
    le_trans (forced_overlap_le si seq_len num_seqs (by omega)).1
      (forced_overlap_le si seq_len num_seqs (by omega)).2
  obtain ⟨hP1, hP2, hP3⟩ := sort_first_spec (forced_overlap si seq_len num_seqs) seq_len
    (shuffles (si / 2)).1 (hv (si / 2)).1 hle
  obtain ⟨hQ1, hQ2, hQ3⟩ := sort_first_spec (forced_overlap si seq_len num_seqs) seq_len
    (shuffles (si / 2)).2 (hv (si / 2)).2 hle
  obtain ⟨seqs1, dst, c, B, B2, hrun, hl1, hother, hd, hdlen, hc, _, _, hcd, hcs⟩ :=
    genseqs_pairs_assign_loop si _ _ (forced_overlap si seq_len num_seqs) seq_len seqs dst0 src
      hP1 hQ1 hP2 hQ2 hP3 hQ3 hdst hdl hsrc hsl (forced_overlap si seq_len num_seqs)
      (le_refl _)
  have hpl : (shuffles (si / 2)).1.length = seq_len := by
    rw [(hv (si / 2)).1.length_eq, List.length_range]
  have hql : (shuffles (si / 2)).2.length = seq_len := by
    rw [(hv (si / 2)).2.length_eq, List.length_range]
  have hguard : ¬ ((shuffles (si / 2)).1.length < forced_overlap si seq_len num_seqs
      ∨ (shuffles (si / 2)).2.length < forced_overlap si seq_len num_seqs) := by
    rw [hpl, hql]; omega
  refine ⟨seqs1, ?_, by rw [hl1, hlen], hother, ?_, ?_⟩
  · simp only [genseqs_pairs_pair, hguard, if_false]
    exact hrun
  · intro t ht
    by_cases hts : t = si
    · subst hts
      exact ⟨dst, hd, hdlen⟩
    · rw [hother t hts]
      exact hall t ht
  · refine ⟨dst, src, c, hd, ?_, hdlen, hsl, hc, hcd.trans (List.take_sublist _ _),
      hcs.trans (List.take_sublist _ _)⟩
    rw [hother (si + 1) (by omega)]
    exact hsrc

theorem pair_overlap_congr {T : Type} (seq_len overlap : Nat) (seqs seqs1 : List (List T))
    (si : Nat) (h1 : seqs1[si]? = seqs[si]?) (h2 : seqs1[si + 1]? = seqs[si + 1]?)
    (h : pair_overlap seq_len overlap seqs si) : pair_overlap seq_len overlap seqs1 si := by
  obtain ⟨a, b, c, ha, hb, hrest⟩ := h
  exact ⟨a, b, c, by rw [h1]; exact ha, by rw [h2]; exact hb, hrest⟩

/-- The loop over the pairs of `genseqs_pairs`. -/
theorem genseqs_pairs_loop {T : Type} (num_seqs seq_len : Nat)
    (shuffles : Nat → List Nat × List Nat) (hv : valid_shuffles seq_len shuffles)
    (seqs0 : List (List T)) (hlen : seqs0.length = num_seqs)
    (hall : ∀ t, t < num_seqs → ∃ a, seqs0[t]? = some a ∧ a.length = seq_len) :
    ∀ k, 2 * k ≤ num_seqs →
      ∃ seqs, for_each (genseqs_pairs_pair num_seqs seq_len shuffles) seqs0
          (List.range' 0 k 2) = Except.ok seqs ∧
        seqs.length = num_seqs ∧
        (∀ t, t < num_seqs → ∃ a, seqs[t]? = some a ∧ a.length = seq_len) ∧
        ∀ p, p < k →
          pair_overlap seq_len (forced_overlap (2 * p) seq_len num_seqs) seqs (2 * p) := by
  intro k
  induction k with
  | zero =>
    intro _
    exact ⟨seqs0, rfl, hlen, hall, fun p hp => absurd hp (by omega)⟩
  | succ k ih =>
    intro hk
    obtain ⟨seqs, hrun, hl, hal, hpairs⟩ := ih (by omega)
    obtain ⟨seqs1, hstep, hl1, hother, hal1, hnew⟩ :=
      genseqs_pairs_pair_spec num_seqs seq_len shuffles hv seqs (2 * k) (by omega) hl hal
    refine ⟨seqs1, ?_, hl1, hal1, ?_⟩
    · rw [List.range'_concat, for_each_append, hrun]
      simp only [for_each, Nat.zero_add, hstep]
    · intro p hp
      by_cases hpk : p = k
      · subst hpk
        exact hnew
      · exact pair_overlap_congr _ _ seqs seqs1 (2 * p) (hother _ (by omega))
          (hother _ (by omega)) (hpairs p (by omega))

/-- `genseqs_pairs` returns `num_seqs` sequences of length `seq_len` in which
the pair that starts at an even `si` has a common subsequence of
`forced_overlap si` symbols. -/
theorem genseqs_pairs_spec {T : Type} (num_seqs seq_len : Nat) (symbols : Nat → Nat → T)
    (shuffles : Nat → List Nat × List Nat) (heven : num_seqs % 2 = 0)
    (hv : valid_shuffles seq_len shuffles) :
    ∃ seqs, genseqs_pairs num_seqs seq_len symbols shuffles = Except.ok seqs ∧
      seqs.length = num_seqs ∧
      ∀ si, si % 2 = 0 → si < num_seqs →
        pair_overlap seq_len (forced_overlap si seq_len num_seqs) seqs si := by
  have hall : ∀ t, t < num_seqs →
      ∃ a, ((List.range num_seqs).map (fun si => gen_seq seq_len (symbols si)))[t]? = some a
        ∧ a.length = seq_len := by
    intro t ht
    refine ⟨gen_seq seq_len (symbols t), ?_, by simp [gen_seq]⟩
    simp [List.getElem?_map, List.getElem?_range ht]
  obtain ⟨seqs, hrun, hl, _, hpairs⟩ := genseqs_pairs_loop num_seqs seq_len shuffles hv
    ((List.range num_seqs).map (fun si => gen_seq seq_len (symbols si))) (by simp) hall
    (num_seqs / 2) (by omega)
  refine ⟨seqs, ?_, hl, ?_⟩
  · have hne : ¬ num_seqs % 2 ≠ 0 := by omega
    have hcount : (num_seqs + 1) / 2 = num_seqs / 2 := by omega
    simp only [genseqs_pairs, hne, if_false, hcount]
    exact hrun
  · intro si hsi hlt
    have h2 : si = 2 * (si / 2) := by omega
    have := hpairs (si / 2) (by omega)
    rw [← h2] at this
    exact this

/-- A pair whose forced overlap is computed as 0 is left as it was drawn. -/
theorem genseqs_pairs_pair_zero {T : Type} (num_seqs seq_len : Nat)
    (shuffles : Nat → List Nat × List Nat) (seqs : List (List T)) (si : Nat)
    (h0 : forced_overlap si seq_len num_seqs = 0) :
    genseqs_pairs_pair num_seqs seq_len shuffles seqs si = Except.ok seqs := by
  simp [genseqs_pairs_pair, h0, for_each]

/-- Without overflow of `si * seq_len` in `uint32_t`, every pair of
`genseqs_pairs` has a common subsequence of `floor(si * seq_len / num_seqs)`
symbols, and `lcs` of the pair is at least that number. -/
theorem genseqs_pairs_no_overflow {T : Type} [DecidableEq T] (num_seqs seq_len : Nat)
    (symbols : Nat → Nat → T) (shuffles : Nat → List Nat × List Nat)
    (heven : num_seqs % 2 = 0) (hv : valid_shuffles seq_len shuffles)
    (hfit : ∀ si, si < num_seqs → si * seq_len < 2 ^ 32) :
    ∃ seqs, genseqs_pairs num_seqs seq_len symbols shuffles = Except.ok seqs ∧
      seqs.length = num_seqs ∧
      ∀ si, si % 2 = 0 → si < num_seqs →
        ∃ a b c : List T, seqs[si]? = some a ∧ seqs[si + 1]? = some b ∧
          a.length = seq_len ∧ b.length = seq_len ∧
          c.length = si * seq_len / num_seqs ∧ c.Sublist a ∧ c.Sublist b ∧
          si * seq_len / num_seqs ≤ lcs a b := by
  obtain ⟨seqs, hrun, hl, hpairs⟩ :=
    genseqs_pairs_spec num_seqs seq_len symbols shuffles heven hv
  refine ⟨seqs, hrun, hl, ?_⟩
  intro si hsi hlt
  obtain ⟨a, b, c, ha, hb, hal, hbl, hc, hca, hcb⟩ := hpairs si hsi hlt
  have hov : forced_overlap si seq_len num_seqs = si * seq_len / num_seqs := by
    unfold forced_overlap
    rw [Nat.mod_eq_of_lt (hfit si hlt)]
  rw [hov] at hc
  refine ⟨a, b, c, ha, hb, hal, hbl, hc, hca, hcb, ?_⟩
  rw [← hc]
  exact length_le_lcs c a b hca hcb

theorem genseqs_pairs_no_overflow_example :
    ∃ seqs, genseqs_pairs 4 4 (fun si i => si * 10 + i)
        (fun p => if p = 0 then ([2, 0, 1, 3], [3, 1, 0, 2]) else ([3, 1, 0, 2], [0, 3, 2, 1]))
        = Except.ok seqs ∧
      seqs.length = 4 ∧
      ∀ si, si % 2 = 0 → si < 4 →
        ∃ a b c : List Nat, seqs[si]? = some a ∧ seqs[si + 1]? = some b ∧
          a.length = 4 ∧ b.length = 4 ∧
          c.length = si * 4 / 4 ∧ c.Sublist a ∧ c.Sublist b ∧ si * 4 / 4 ≤ lcs a b :=
  genseqs_pairs_no_overflow 4 4 _ _ (by decide)
    (by
      intro p
      by_cases hp : p = 0
      · simp only [hp, if_true]
        exact ⟨by decide, by decide⟩
      · simp only [hp, if_false]
        exact ⟨by decide, by decide⟩)
    (by intro si hsi; interval_cases si <;> decide)

/-- With four sequences of any length `n` for which both forced overlaps are
computed as 0, the pairs are left as drawn: when the draws give all-zero
sequences at the even positions and all-one sequences at the odd positions,
`lcs` of the second pair is 0. -/
theorem genseqs_pairs_unforced (n : Nat) (h0 : forced_overlap 0 n 4 = 0)
    (h2 : forced_overlap 2 n 4 = 0) :
    valid_shuffles n (fun _ => (List.range n, List.range n)) ∧
    ∃ (seqs : List (List Nat)) (a b : List Nat),
      genseqs_pairs 4 n (fun si _ => si % 2) (fun _ => (List.range n, List.range n))
        = Except.ok seqs ∧
      seqs[2]? = some a ∧ seqs[2 + 1]? = some b ∧ a.length = n ∧ b.length = n ∧
      lcs a b = 0 := by
  constructor
  · intro p
    exact ⟨List.Perm.refl _, List.Perm.refl _⟩
  have hrange : List.range' 0 ((4 + 1) / 2) 2 = [0, 2] := by decide
  have hrun : genseqs_pairs 4 n (fun si _ => si % 2) (fun _ => (List.range n, List.range n))
      = Except.ok ((List.range 4).map (fun si => gen_seq n (fun _ => si % 2))) := by
    have hne : ¬ 4 % 2 ≠ 0 := by decide
    simp only [genseqs_pairs, hne, if_false, hrange, for_each,
      genseqs_pairs_pair_zero _ _ _ _ _ h0, genseqs_pairs_pair_zero _ _ _ _ _ h2]
  have hlcs : lcs (gen_seq n (fun _ => 2 % 2)) (gen_seq n (fun _ => 3 % 2)) = 0 := by
    apply lcs_eq_zero_of_disjoint
    intro x hx hxt
    unfold gen_seq at hx hxt
    obtain ⟨_, _, rfl⟩ := List.mem_map.mp hx
    obtain ⟨_, _, h1⟩ := List.mem_map.mp hxt
    simp at h1
  refine ⟨_, gen_seq n (fun _ => 2 % 2), gen_seq n (fun _ => 3 % 2), hrun, ?_, ?_,
    ?_, ?_, hlcs⟩
  · rw [List.getElem?_map, List.getElem?_range (by decide)]
    rfl
  · rw [List.getElem?_map, List.getElem?_range (by decide)]
    rfl
  · unfold gen_seq
    rw [List.length_map, List.length_range]
  · unfold gen_seq
    rw [List.length_map, List.length_range]

/-- C20 (defect of the code): `int lcs = si * seq_len / num_seqs` is computed in
`uint32_t`, so the product wraps around. For `num_seqs = 4` and
`seq_len = 2 ^ 31` the second pair (`si = 2`) gets the overlap
`(2 * 2 ^ 31 mod 2 ^ 32) / 4 = 0` and is left as drawn; when the draws give an
all-zero sequence and an all-one sequence, `lcs` of the pair is 0, where
`floor(si * seq_len / num_seqs)` is `2 ^ 30`. -/
theorem genseqs_pairs_overflow :
    (valid_shuffles (2 ^ 31) (fun _ => (List.range (2 ^ 31), List.range (2 ^ 31))) ∧
    ∃ (seqs : List (List Nat)) (a b : List Nat),
      genseqs_pairs 4 (2 ^ 31) (fun si _ => si % 2)
        (fun _ => (List.range (2 ^ 31), List.range (2 ^ 31))) = Except.ok seqs ∧
      seqs[2]? = some a ∧ seqs[2 + 1]? = some b ∧
      a.length = 2 ^ 31 ∧ b.length = 2 ^ 31 ∧ lcs a b = 0) ∧
    forced_overlap 2 (2 ^ 31) 4 = 0 ∧ 2 * 2 ^ 31 / 4 = 2 ^ 30 :=
  ⟨genseqs_pairs_unforced (2 ^ 31) (by unfold forced_overlap; norm_num)
      (by unfold forced_overlap; norm_num),
    by unfold forced_overlap; norm_num, by norm_num⟩

theorem point_mutate_substitute_lt (A r c : Nat) (hA : 2 ≤ A) (hc : c ≤ A - 2) :
    point_mutate_substitute r c < A := by
  unfold point_mutate_substitute
  split <;> omega

theorem point_mutate_substitute_ne (r c : Nat) : point_mutate_substitute r c ≠ r := by
  unfold point_mutate_substitute
  split <;> omega

theorem point_mutate_substitute_inj (r c1 c2 : Nat)
    (h : point_mutate_substitute r c1 = point_mutate_substitute r c2) : c1 = c2 := by
  unfold point_mutate_substitute at h
  split at h <;> split at h <;> omega

theorem point_mutate_substitute_surj (A r x : Nat) (hr : r < A) (hx : x < A) (hxr : x ≠ r) :
    ∃ c, c ≤ A - 2 ∧ point_mutate_substitute r c = x := by
  by_cases h : x < r
  · exact ⟨x, by omega, by unfold point_mutate_substitute; rw [if_neg (by omega)]⟩
  · exact ⟨x - 1, by omega, by unfold point_mutate_substitute; rw [if_pos (by omega)]; omega⟩

/-- In the insertion case the `i--` and the `i++` of the loop cancel, also at
`i = 0` where `i--` wraps: the same reference position is processed again. -/
theorem point_mutate_step_insert (ref seq : List Nat) (i c : Nat) (hi : i < 2 ^ 64) :
    point_mutate_step ref (i, seq) (Mutation.insert c) = (i, seq ++ [c]) := by
  unfold point_mutate_step wrap_sub
  simp only [Prod.mk.injEq, and_true]
  norm_num at hi ⊢
  omega

/-- No draw of `unif(0, alphabet_size - 2)` is the last symbol of the
alphabet. -/
theorem point_mutate_unif_last (A : Nat) (hA : 2 ≤ A) : point_mutate_unif A (A - 1) = false := by
  unfold point_mutate_unif
  simp only [decide_eq_false_iff_not]
  omega

/-- C21: in `point_mutate`, for an alphabet size `A >= 2`, a reference symbol
`r < A` and the draws `c` in `0..A-2`, the substituted symbol (`c + 1` if
`c >= r`, else `c`) is below `A` and differs from `r`, and the map from the
draw to the substituted symbol is one-to-one on `0..A-2` and reaches every
symbol below `A` other than `r`. -/
theorem point_mutate_substitute_bijection (A r : Nat) (hA : 2 ≤ A) (hr : r < A) :
    (∀ c, point_mutate_unif A c = true →
      point_mutate_substitute r c < A ∧ point_mutate_substitute r c ≠ r) ∧
    (∀ c1 c2, point_mutate_unif A c1 = true → point_mutate_unif A c2 = true →
      point_mutate_substitute r c1 = point_mutate_substitute r c2 → c1 = c2) ∧
    (∀ x, x < A → x ≠ r →
      ∃ c, point_mutate_unif A c = true ∧ point_mutate_substitute r c = x) ∧
    Set.BijOn (point_mutate_substitute r) {c | point_mutate_unif A c = true}
      {x | x < A ∧ x ≠ r} := by
  have hu : ∀ c, point_mutate_unif A c = true ↔ c ≤ A - 2 := by
    intro c
    simp [point_mutate_unif]
  refine ⟨?_, ?_, ?_, ?_, ?_, ?_⟩
  · intro c hc
    exact ⟨point_mutate_substitute_lt A r c hA ((hu c).mp hc), point_mutate_substitute_ne r c⟩
  · intro c1 c2 _ _ h
    exact point_mutate_substitute_inj r c1 c2 h
  · intro x hx hxr
    obtain ⟨c, hc, hcx⟩ := point_mutate_substitute_surj A r x hr hx hxr
    exact ⟨c, (hu c).mpr hc, hcx⟩
  · intro c hc
    exact ⟨point_mutate_substitute_lt A r c hA ((hu c).mp hc), point_mutate_substitute_ne r c⟩
  · intro c1 _ c2 _ h
    exact point_mutate_substitute_inj r c1 c2 h
  · intro x hx
    obtain ⟨c, hc, hcx⟩ := point_mutate_substitute_surj A r x hr hx.1 hx.2
    exact ⟨c, (hu c).mpr hc, hcx⟩

theorem point_mutate_substitute_bijection_witness :
    (∀ c, point_mutate_unif 4 c = true →
      point_mutate_substitute 1 c < 4 ∧ point_mutate_substitute 1 c ≠ 1) ∧
    (∀ c1 c2, point_mutate_unif 4 c1 = true → point_mutate_unif 4 c2 = true →
      point_mutate_substitute 1 c1 = point_mutate_substitute 1 c2 → c1 = c2) ∧
    (∀ x, x < 4 → x ≠ 1 →
      ∃ c, point_mutate_unif 4 c = true ∧ point_mutate_substitute 1 c = x) ∧
    Set.BijOn (point_mutate_substitute 1) {c | point_mutate_unif 4 c = true}
      {x | x < 4 ∧ x ≠ 1} :=
  point_mutate_substitute_bijection 4 1 (by decide) (by decide)

/-- C25: for the alphabet size 4 the draws of `unif`, which the insertion
appends, are the symbols 0, 1, 2 and never the symbol 3; an insertion of 2 at
position 0 of the reference `{0}` appends 2 and stays at position 0, and
followed by an unchanged copy it gives `{2, 0}`. -/
theorem point_mutate_insert_draws :
    (List.range 4).filter (point_mutate_unif 4) = [0, 1, 2] ∧
      point_mutate_unif 4 3 = false ∧
      point_mutate_step [0] (0, []) (Mutation.insert 2) = (0, [2]) ∧
      point_mutate [0] [] [Mutation.insert 2, Mutation.keep] = some [2, 0] := by
  decide

/-- A sequence that is not longer than `seq_len` leaves `make_fix_len` with
length `seq_len`, a longer one is left as it is. -/
theorem make_fix_len_length {T : Type} (seq_len : Nat) (draw : Nat → T) (seq : List T) :
    (seq.length ≤ seq_len → (make_fix_len seq_len draw seq).length = seq_len) ∧
      (seq_len < seq.length → make_fix_len seq_len draw seq = seq) := by
  unfold make_fix_len
  constructor
  · intro h
    rw [if_neg (by omega)]
    split
    · simp only [List.length_append, List.length_map, List.length_range]
      omega
    · omega
  · intro h
    rw [if_pos h]

/-- A round of `genseqs_tree` leaves `children.size() + 2 * seqs.size()`
sequences in `seqs`. -/
theorem genseqs_tree_round_length {T : Type} (mutant : Nat → List T → List T)
    (st : List (List T) × List (List T)) :
    (genseqs_tree_round mutant st).1.length = st.2.length + 2 * st.1.length ∧
      (genseqs_tree_round mutant st).2 = st.1 := by
  refine ⟨?_, rfl⟩
  unfold genseqs_tree_round
  simp only
  generalize st.1.length = n
  induction n with
  | zero => simp
  | succ n ih =>
    rw [List.range_succ, List.foldl_append]
    simp only [List.foldl_cons, List.foldl_nil, List.length_append, List.length_cons,
      List.length_nil, ih]
    omega

theorem genseqs_tree_example :
    genseqs_tree 5 2 true 1 (fun _ i => i) (fun r k seq => seq ++ [r, k]) (fun _ _ => 7)
      = some [[0, 1], [0, 1], [0, 1, 1, 0], [0, 1, 0, 0], [0, 1, 0, 0, 1, 1]] := by
  decide

/-- C23: with `seq_len = 2` the sequence `{0, 1, 2}` of length 3 is returned
as it is by `make_fix_len`, with length 3, whatever the draws: the branch for a
longer sequence copies the whole sequence and truncates nothing. -/
theorem make_fix_len_keeps_longer (draw : Nat → Nat) :
    make_fix_len 2 draw [0, 1, 2] = [0, 1, 2] ∧
      (make_fix_len 2 draw [0, 1, 2]).length = 3 := by
  constructor <;> rfl

/-- C24: from one seed the set of `genseqs_tree` holds 2 sequences after the
first round and 5 after the second, not `1 * 2 ^ 2 = 4`: the vector `children`
is not emptied between the rounds, so the second round appends its four
children to the seed left there by the swap; with `num_seqs = 5` the loop ends
after these two rounds. -/
theorem genseqs_tree_round_sizes {T : Type} (seed : List T)
    (mutant : Nat → Nat → List T → List T) :
    (genseqs_tree_round (mutant 0) ([seed], [])).1.length = 2 ∧
      (genseqs_tree_round (mutant 1) (genseqs_tree_round (mutant 0) ([seed], []))).1
        = [seed, seed, mutant 1 0 seed, mutant 0 0 seed, mutant 1 1 (mutant 0 0 seed)] ∧
      (genseqs_tree_loop 5 mutant 5 0 ([seed], [])).map (fun st => st.1.length) = some 5 := by
  refine ⟨rfl, rfl, rfl⟩

theorem block_index_lt (B bs q i : Nat) (hq : q < B) (hi : i < bs) : q * bs + i < B * bs := by
  calc q * bs + i < q * bs + bs := by omega
    _ = (q + 1) * bs := by ring
    _ ≤ B * bs := Nat.mul_le_mul_right _ hq

theorem block_index_inj (bs q i q1 i1 : Nat) (hi : i < bs) (hi1 : i1 < bs)
    (h : q * bs + i = q1 * bs + i1) : q = q1 ∧ i = i1 := by
  have hbs : 0 < bs := by omega
  have h1 : (q * bs + i) / bs = q := by
    rw [Nat.add_comm, Nat.add_mul_div_right _ _ hbs, Nat.div_eq_of_lt hi, Nat.zero_add]
  have h2 : (q1 * bs + i1) / bs = q1 := by
    rw [Nat.add_comm, Nat.add_mul_div_right _ _ hbs, Nat.div_eq_of_lt hi1, Nat.zero_add]
  have hq : q = q1 := by rw [← h1, ← h2, h]
  subst hq
  exact ⟨rfl, by omega⟩

theorem perm_range_facts (perm : List Nat) (B : Nat) (h : perm.Perm (List.range B)) :
    perm.length = B ∧ (∀ p, p < B → perm[p]? = some (perm.getD p 0)) ∧
      (∀ p, p < B → perm.getD p 0 < B) ∧
      (∀ p p1, p < B → p1 < B → perm.getD p 0 = perm.getD p1 0 → p = p1) := by
  have hl : perm.length = B := by rw [h.length_eq, List.length_range]
  have hnd : perm.Nodup := h.nodup_iff.mpr (List.nodup_range B)
  have hg : ∀ p, (hp : p < perm.length) → perm.getD p 0 = perm[p] := by
    intro p hp
    simp [List.getD_eq_getElem?_getD, List.getElem?_eq_getElem hp]
  refine ⟨hl, ?_, ?_, ?_⟩
  · intro p hp
    rw [hg p (by omega), List.getElem?_eq_getElem]
  · intro p hp
    rw [hg p (by omega)]
    have hm : perm[p] ∈ List.range B := h.mem_iff.mp (List.getElem_mem (by omega))
    exact List.mem_range.mp hm
  · intro p p1 hp hp1 he
    rw [hg p (by omega), hg p1 (by omega)] at he
    exact (hnd.getElem_inj_iff).mp he

theorem block_permute_pad_spec {T : Type} (B : Nat) (draw : Nat → T) :
    ∀ (r fuel k : Nat) (seq : List T), r ≤ fuel → (seq.length + r) % B = 0 →
      (∀ r1, r1 < r → (seq.length + r1) % B ≠ 0) →
      block_permute_pad B draw fuel k seq = seq ++ (List.range' k r).map draw := by
  intro r
  induction r with
  | zero =>
    intro fuel k seq _ h0 _
    cases fuel with
    | zero => simp [block_permute_pad]
    | succ f =>
      rw [block_permute_pad, if_neg (by simpa using h0)]
      simp
  | succ r ih =>
    intro fuel k seq hf h0 hmin
    cases fuel with
    | zero => omega
    | succ f =>
      have hne : seq.length % B ≠ 0 := by simpa using hmin 0 (by omega)
      rw [block_permute_pad, if_pos hne]
      rw [ih f (k + 1) (seq ++ [draw k]) (by omega)
        (by simp only [List.length_append, List.length_cons, List.length_nil];
            rw [← h0]; congr 1; omega)
        (by
          intro r1 hr1
          simp only [List.length_append, List.length_cons, List.length_nil]
          have := hmin (r1 + 1) (by omega)
          rwa [show seq.length + 0 + 1 + r1 = seq.length + (r1 + 1) by omega])]
      simp [List.range'_succ]

theorem exists_pad_count (B len : Nat) (hB : 1 ≤ B) :
    ∃ r, r < B ∧ (len + r) % B = 0 ∧ ∀ r1, r1 < r → (len + r1) % B ≠ 0 := by
  classical
  have hlt := Nat.mod_lt len hB
  have hdm := Nat.div_add_mod len B
  have hex : ∃ r, (len + r) % B = 0 := by
    refine ⟨B - len % B, ?_⟩
    have : len + (B - len % B) = B * (len / B + 1) := by
      rw [Nat.mul_succ]
      omega
    rw [this, Nat.mul_mod_right]
  refine ⟨Nat.find hex, ?_, Nat.find_spec hex, fun r1 hr1 => Nat.find_min hex hr1⟩
  by_cases h0 : len % B = 0
  · have : Nat.find hex ≤ 0 := Nat.find_min' hex (by simpa using h0)
    omega
  · have : Nat.find hex ≤ B - len % B := Nat.find_min' hex (by
      have : len + (B - len % B) = B * (len / B + 1) := by
        rw [Nat.mul_succ]
        omega
      rw [this, Nat.mul_mod_right])
    omega

theorem block_permute_inner {T : Type} (perm : List Nat) (B bs : Nat) (padded : List T)
    (i : Nat) (hlen : padded.length = B * bs) (hi : i < bs)
    (hget : ∀ p, p < B → perm[p]? = some (perm.getD p 0))
    (hlt : ∀ p, p < B → perm.getD p 0 < B)
    (hinj : ∀ p p1, p < B → p1 < B → perm.getD p 0 = perm.getD p1 0 → p = p1) :
    ∀ k, k ≤ B → ∀ result : List T, result.length = padded.length →
      ∃ result1,
        for_each (block_permute_assign perm bs padded i) result (List.range k)
          = Except.ok result1 ∧
        result1.length = padded.length ∧
        (∀ p, p < k → result1[perm.getD p 0 * bs + i]? = padded[p * bs + i]?) ∧
        (∀ x, (∀ p, p < k → x ≠ perm.getD p 0 * bs + i) → result1[x]? = result[x]?) := by
  intro k
  induction k with
  | zero =>
    intro _ result hr
    exact ⟨result, by simp [for_each], hr, by intro p hp; omega, fun _ _ => rfl⟩
  | succ k ih =>
    intro hk result hr
    obtain ⟨result1, hfor, hl1, hval, hframe⟩ := ih (by omega) result hr
    have hkB : k < B := by omega
    have hsrc : k * bs + i < padded.length := by
      rw [hlen]; exact block_index_lt B bs k i hkB hi
    have hdst : perm.getD k 0 * bs + i < result1.length := by
      rw [hl1, hlen]; exact block_index_lt B bs _ i (hlt k hkB) hi
    refine ⟨result1.set (perm.getD k 0 * bs + i) (padded.get ⟨k * bs + i, hsrc⟩), ?_, ?_, ?_, ?_⟩
    · rw [List.range_succ, for_each_append, hfor]
      simp only [for_each, block_permute_assign, hget k hkB, List.getElem?_eq_getElem hsrc,
        if_pos hdst]
      rfl
    · rw [List.length_set, hl1]
    · intro p hp
      by_cases hpk : p = k
      · subst hpk
        rw [List.getElem?_set_self hdst, List.getElem?_eq_getElem hsrc]
        rfl
      · have hne : perm.getD k 0 * bs + i ≠ perm.getD p 0 * bs + i := by
          intro he
          have := (block_index_inj bs _ _ _ _ hi hi he).1
          exact hpk (hinj p k (by omega) hkB this.symm)
        rw [List.getElem?_set_ne hne]
        exact hval p (by omega)
    · intro x hx
      have hne : perm.getD k 0 * bs + i ≠ x := fun he => hx k (by omega) he.symm
      rw [List.getElem?_set_ne hne]
      exact hframe x (fun p hp => hx p (by omega))

theorem block_permute_outer {T : Type} (perm : List Nat) (B bs : Nat) (padded : List T)
    (hlen : padded.length = B * bs)
    (hget : ∀ p, p < B → perm[p]? = some (perm.getD p 0))
    (hlt : ∀ p, p < B → perm.getD p 0 < B)
    (hinj : ∀ p p1, p < B → p1 < B → perm.getD p 0 = perm.getD p1 0 → p = p1) :
    ∀ k, k ≤ bs → ∀ result : List T, result.length = padded.length →
      ∃ result1,
        for_each
          (fun result i =>
            for_each (block_permute_assign perm bs padded i) result (List.range B))
          result (List.range k) = Except.ok result1 ∧
        result1.length = padded.length ∧
        (∀ i p, i < k → p < B → result1[perm.getD p 0 * bs + i]? = padded[p * bs + i]?) := by
  intro k
  induction k with
  | zero =>
    intro _ result hr
    exact ⟨result, by simp [for_each], hr, by intro i p hi; omega⟩
  | succ k ih =>
    intro hk result hr
    obtain ⟨result1, hfor, hl1, hval⟩ := ih (by omega) result hr
    obtain ⟨result2, hfor2, hl2, hval2, hframe2⟩ :=
      block_permute_inner perm B bs padded k hlen (by omega) hget hlt hinj B (le_refl B)
        result1 hl1
    refine ⟨result2, ?_, hl2, ?_⟩
    · rw [List.range_succ, for_each_append, hfor]
      simp only [for_each, hfor2]
    · intro i p hi hp
      by_cases hik : i = k
      · subst hik
        exact hval2 p hp
      · rw [hframe2 _ (by
          intro p1 hp1 he
          exact hik (block_index_inj bs _ _ _ _ (by omega) (by omega) he).2)]
        exact hval i p (by omega) hp

/-- Two lists of the same length are rearrangements of each other when an
injective map of the positions carries the entries of one to the other. -/
theorem perm_of_index_injection {T : Type} (n : Nat) (l1 l2 : List T) (f : Nat → Nat)
    (h1 : l1.length = n) (h2 : l2.length = n)
    (hf : ∀ k, k < n → f k < n)
    (hinj : ∀ k k1, k < n → k1 < n → f k = f k1 → k = k1)
    (hval : ∀ k, k < n → l2[f k]? = l1[k]?) : l1.Perm l2 := by
  classical
  let g : Fin n → Fin n := fun k => ⟨f k.1, hf k.1 k.2⟩
  have ginj : Function.Injective g := by
    intro a b hab
    have : f a.1 = f b.1 := congrArg Fin.val hab
    exact Fin.ext (hinj a.1 b.1 a.2 b.2 this)
  let σ : Equiv.Perm (Fin n) := Equiv.ofBijective g (Finite.injective_iff_bijective.mp ginj)
  let F : Fin n → T := fun j => l2.get ⟨j.1, by rw [h2]; exact j.2⟩
  have e2 : List.ofFn F = l2 := by
    apply List.ext_getElem
    · simp [h2]
    · intro k hk1 hk2
      simp [F]
  have e1 : List.ofFn (F ∘ σ) = l1 := by
    apply List.ext_getElem
    · simp [h1]
    · intro k hk1 hk2
      have hk : k < n := by simpa using hk1
      have hv := hval k hk
      rw [List.getElem?_eq_getElem (by rw [h2]; exact hf k hk), List.getElem?_eq_getElem hk2] at hv
      simp only [List.getElem_ofFn, Function.comp_apply, F, σ, Equiv.ofBijective_apply, g,
        List.get_eq_getElem]
      exact Option.some.inj hv
  rw [← e1, ← e2]
  exact Equiv.Perm.ofFn_comp_perm σ F

/-- The run of `block_permute` on the padded sequence: the loops end, the
result has the length of the padded sequence and holds block `p` at block
position `perm[p]`. -/
theorem block_permute_spec {T : Type} [Zero T] (B : Nat) (perm : List Nat) (draw : Nat → T)
    (seq : List T) (hB : 1 ≤ B) (hperm : perm.Perm (List.range B)) :
    ∃ (r : Nat) (result : List T),
      r < B ∧ (seq.length + r) % B = 0 ∧
      block_permute_pad B draw B 0 seq = seq ++ (List.range r).map draw ∧
      block_permute true B perm draw seq = Except.ok result ∧
      result.length = seq.length + r ∧
      (∀ p i, p < B → i < (seq.length + r) / B →
        result[perm.getD p 0 * ((seq.length + r) / B) + i]? =
          (seq ++ (List.range r).map draw)[p * ((seq.length + r) / B) + i]?) := by
  obtain ⟨hpl, hget, hlt, hinj⟩ := perm_range_facts perm B hperm
  obtain ⟨r, hrB, hr0, hrmin⟩ := exists_pad_count B seq.length hB
  have hpad := block_permute_pad_spec B draw r B 0 seq (by omega) hr0 hrmin
  rw [← List.range_eq_range'] at hpad
  have hplen : (seq ++ (List.range r).map draw).length = seq.length + r := by simp
  have hdiv : seq.length + r = B * ((seq.length + r) / B) :=
    (Nat.mul_div_cancel' (Nat.dvd_of_mod_eq_zero hr0)).symm
  obtain ⟨result, hfor, hl, hval⟩ :=
    block_permute_outer perm B ((seq.length + r) / B) (seq ++ (List.range r).map draw)
      (by rw [hplen]; exact hdiv) hget hlt hinj ((seq.length + r) / B) (le_refl _)
      (List.replicate (seq.length + r) 0) (by simp)
  refine ⟨r, result, hrB, hr0, hpad, ?_, by rw [hl, hplen], ?_⟩
  · unfold block_permute
    rw [if_neg (by simp), if_neg (by omega)]
    simp only [hpad, hplen]
    exact hfor
  · intro p i hp hi
    exact hval i p hi hp

/-- C22: when `block_permute` applies a block mutation with block count
`B >= 1` and a block permutation `perm` of `0..B-1`, it returns a result; the
padded input is the input followed by padding symbols, up to the smallest
multiple of `B` that is at least its length; with `bs` the block size,
`result[perm[p] * bs + i] = padded[p * bs + i]` for all `p < B` and `i < bs`,
and the result is a rearrangement of the padded input. -/
theorem block_permute_places_blocks {T : Type} [Zero T] (B : Nat) (perm : List Nat)
    (draw : Nat → T) (seq : List T) (hB : 1 ≤ B) (hperm : perm.Perm (List.range B)) :
    ∃ extra padded result : List T,
      padded = seq ++ extra ∧ padded.length % B = 0 ∧ padded.length < seq.length + B ∧
      block_permute true B perm draw seq = Except.ok result ∧
      result.length = padded.length ∧
      (∀ p i, p < B → i < padded.length / B →
        ∃ v, result[perm.getD p 0 * (padded.length / B) + i]? = some v ∧
          padded[p * (padded.length / B) + i]? = some v) ∧
      result.Perm padded := by
  obtain ⟨hpl, hget, hlt, hinj⟩ := perm_range_facts perm B hperm
  obtain ⟨r, result, hrB, hr0, -, hrun, hl, hval⟩ := block_permute_spec B perm draw seq hB hperm
  have hplen : (seq ++ (List.range r).map draw).length = seq.length + r := by simp
  have hdiv : seq.length + r = B * ((seq.length + r) / B) :=
    (Nat.mul_div_cancel' (Nat.dvd_of_mod_eq_zero hr0)).symm
  refine ⟨(List.range r).map draw, seq ++ (List.range r).map draw, result, rfl, ?_, ?_, hrun,
    by rw [hl, hplen], ?_, ?_⟩
  · rw [hplen]; exact hr0
  · rw [hplen]; omega
  · rw [hplen]
    intro p i hp hi
    have hsrc : p * ((seq.length + r) / B) + i < (seq ++ (List.range r).map draw).length := by
      rw [hplen]
      have := block_index_lt B _ p i hp hi
      omega
    refine ⟨(seq ++ (List.range r).map draw).get ⟨_, hsrc⟩, ?_, ?_⟩
    · rw [hval p i hp hi, List.getElem?_eq_getElem hsrc]
      rfl
    · rw [List.getElem?_eq_getElem hsrc]
      rfl
  · refine (perm_of_index_injection (seq.length + r) _ _
      (fun x => perm.getD (x / ((seq.length + r) / B)) 0 * ((seq.length + r) / B)
        + x % ((seq.length + r) / B)) hplen hl ?_ ?_ ?_).symm
    · intro k hk
      have hbs : 0 < (seq.length + r) / B := by
        rcases Nat.eq_zero_or_pos ((seq.length + r) / B) with h0 | h0
        · rw [h0] at hdiv; omega
        · exact h0
      have hq : k / ((seq.length + r) / B) < B := by
        rw [Nat.div_lt_iff_lt_mul hbs]
        omega
      have := block_index_lt B _ _ _ (hlt _ hq) (Nat.mod_lt k hbs)
      dsimp only
      omega
    · intro k k1 hk hk1 he
      have hbs : 0 < (seq.length + r) / B := by
        rcases Nat.eq_zero_or_pos ((seq.length + r) / B) with h0 | h0
        · rw [h0] at hdiv; omega
        · exact h0
      have hq : k / ((seq.length + r) / B) < B := by
        rw [Nat.div_lt_iff_lt_mul hbs]
        omega
      have hq1 : k1 / ((seq.length + r) / B) < B := by
        rw [Nat.div_lt_iff_lt_mul hbs]
        omega
      obtain ⟨e1, e2⟩ := block_index_inj _ _ _ _ _ (Nat.mod_lt k hbs) (Nat.mod_lt k1 hbs) he
      have e3 := hinj _ _ hq hq1 e1
      rw [← Nat.div_add_mod k ((seq.length + r) / B), ← Nat.div_add_mod k1 ((seq.length + r) / B),
        e3, e2]
    · intro k hk
      have hbs : 0 < (seq.length + r) / B := by
        rcases Nat.eq_zero_or_pos ((seq.length + r) / B) with h0 | h0
        · rw [h0] at hdiv; omega
        · exact h0
      have hq : k / ((seq.length + r) / B) < B := by
        rw [Nat.div_lt_iff_lt_mul hbs]
        omega
      rw [hval _ _ hq (Nat.mod_lt k hbs)]
      congr 1
      rw [Nat.mul_comm]
      exact Nat.div_add_mod k _

theorem block_permute_places_blocks_witness :
    ∃ extra padded result : List Nat,
      padded = [1, 2, 3] ++ extra ∧ padded.length % 2 = 0 ∧
      padded.length < [1, 2, 3].length + 2 ∧
      block_permute true 2 [1, 0] (fun _ => 9) [1, 2, 3] = Except.ok result ∧
      result.length = padded.length ∧
      (∀ p i, p < 2 → i < padded.length / 2 →
        ∃ v, result[[1, 0].getD p 0 * (padded.length / 2) + i]? = some v ∧
          padded[p * (padded.length / 2) + i]? = some v) ∧
      result.Perm padded :=
  block_permute_places_blocks 2 [1, 0] (fun _ => 9) [1, 2, 3] (by decide) (by decide)

theorem block_permute_example :
    block_permute true 2 [1, 0] (fun _ => 9) [1, 2, 3] = Except.ok [3, 9, 1, 2] ∧
      block_permute false 2 [1, 0] (fun _ => 9) [1, 2, 3] = Except.ok [1, 2, 3] ∧
      block_permute true 0 [] (fun _ => 9) [1, 2, 3]
        = Except.error SeqGenError.undefined_behaviour := by
  decide

/-- With a bound of at least `i + j` iterations the traceback loop ends before
the bound is used up. -/
theorem full_edit_distance_traceback_fuel (costs : List (List Nat)) :
    ∀ (fuel i j : Nat) (v1 v2 : List Nat), i + j ≤ fuel →
      full_edit_distance_traceback costs fuel i j v1 v2
        ≠ Except.error TracebackError.out_of_fuel := by
  intro fuel
  induction fuel with
  | zero =>
    intro i j v1 v2 h
    rw [full_edit_distance_traceback, if_neg (by omega)]
    simp
  | succ fuel ih =>
    intro i j v1 v2 h
    rw [full_edit_distance_traceback]
    split
    · split
      · exact ih _ _ _ _ (by omega)
      · split
        · exact ih _ _ _ _ (by omega)
        · split
          · exact ih _ _ _ _ (by omega)
          · split
            · exact ih _ _ _ _ (by omega)
            · simp
    · simp

/-- C29: for `s1 = {0, 1}` and `s2 = {0}` the cost table is
`{{0, 1}, {1, 0}, {2, 1}}` and `full_edit_distance` reports the single matched
pair `(2, 1)`, although `s1[2 - 1] = 1` and `s2[1 - 1] = 0` differ: the
traceback takes `costs[2][1] == costs[1][0]` for a match without comparing the
symbols. -/
theorem full_edit_distance_false_match :
    full_edit_distance_costs [0, 1] [0] = [[0, 1], [1, 0], [2, 1]] ∧
      full_edit_distance [0, 1] [0] = Except.ok ([2], [1]) ∧
      ([0, 1] : List Nat)[2 - 1]? = some 1 ∧ ([0] : List Nat)[1 - 1]? = some 0 := by
  decide

/-- Writing the distance of the leading segments into the cell `(i, j)` keeps
the invariant of the table. -/
theorem full_edit_distance_inv_set {T : Type} [DecidableEq T] (s1 s2 : List T)
    (costs : List (List Nat)) (i j v : Nat) (hi : i ≤ s1.length) (hj : j ≤ s2.length)
    (h : full_edit_distance_inv s1 s2 costs i j)
    (hv : v = lev (s1.take i).reverse (s2.take j).reverse) :
    full_edit_distance_inv s1 s2 (table_set costs i j v) i (j + 1) := by
  obtain ⟨hlen, hrows, hval⟩ := h
  have hiL : i < costs.length := by omega
  have hjL : j < (costs.getD i []).length := by rw [hrows i hi]; omega
  refine ⟨by rw [table_set_length]; exact hlen, ?_, ?_⟩
  · intro r hr
    rw [table_set_row_length]
    exact hrows r hr
  · intro i1 j1 hi1 hj1 hord
    rw [table_get_set costs i j v hiL hjL]
    by_cases hc : i1 = i ∧ j1 = j
    · rw [if_pos hc, hc.1, hc.2]
      exact hv
    · rw [if_neg hc]
      apply hval i1 j1 hi1 hj1
      rcases hord with h1 | ⟨h1, h2⟩
      · exact Or.inl h1
      · refine Or.inr ⟨h1, ?_⟩
        have : j1 ≠ j := fun hh => hc ⟨h1, hh⟩
        omega

/-- A row that is complete is the start of the next row. -/
theorem full_edit_distance_inv_next {T : Type} [DecidableEq T] (s1 s2 : List T)
    (costs : List (List Nat)) (i : Nat)
    (h : full_edit_distance_inv s1 s2 costs i (s2.length + 1)) :
    full_edit_distance_inv s1 s2 costs (i + 1) 0 := by
  obtain ⟨hlen, hrows, hval⟩ := h
  refine ⟨hlen, hrows, ?_⟩
  intro i1 j1 hi1 hj1 hord
  apply hval i1 j1 hi1 hj1
  rcases hord with h3 | ⟨_, h3⟩
  · rcases Nat.lt_succ_iff_lt_or_eq.mp h3 with h4 | h4
    · exact Or.inl h4
    · exact Or.inr ⟨h4, by omega⟩
  · omega

/-- The first loop of `full_edit_distance` writes row 0. -/
theorem full_edit_distance_row0 {T : Type} [DecidableEq T] (s1 s2 : List T) :
    ∀ k, k ≤ s2.length + 1 →
      full_edit_distance_inv s1 s2
        ((List.range k).foldl (fun costs k => table_set costs 0 k k)
          (new2D (s1.length + 1) (s2.length + 1))) 0 k := by
  intro k
  induction k with
  | zero =>
    intro _
    refine ⟨by simp [new2D], ?_, ?_⟩
    · intro r hr
      have : r < s1.length + 1 := by omega
      simp [new2D, List.getD_eq_getElem?_getD, List.getElem?_replicate, this]
    · intro i1 j1 _ _ hord
      omega
  | succ k ih =>
    intro hk
    rw [List.range_succ, List.foldl_append]
    simp only [List.foldl_cons, List.foldl_nil]
    refine full_edit_distance_inv_set s1 s2 _ 0 k k (by omega) (by omega) (ih (by omega)) ?_
    simp only [List.take_zero, List.reverse_nil, lev_nil_left, List.length_reverse,
      List.length_take]
    omega

/-- One cell of the table of `full_edit_distance` is written with the distance
of its two leading segments. -/
theorem full_edit_distance_cell_inv {T : Type} [DecidableEq T] (s1 s2 : List T)
    (costs : List (List Nat)) (i j : Nat) (hi : i < s1.length) (hj : j < s2.length)
    (h : full_edit_distance_inv s1 s2 costs (i + 1) (j + 1)) :
    full_edit_distance_inv s1 s2 (full_edit_distance_cell s1 s2 costs i j) (i + 1) (j + 2) := by
  have e1 := h.2.2 i j (by omega) (by omega) (Or.inl (by omega))
  have e2 := h.2.2 i (j + 1) (by omega) (by omega) (Or.inl (by omega))
  have e3 := h.2.2 (i + 1) j (by omega) (by omega) (Or.inr ⟨rfl, by omega⟩)
  rw [take_succ_reverse s2 j hj] at e2
  rw [take_succ_reverse s1 i hi] at e3
  have hcell : ∃ v, full_edit_distance_cell s1 s2 costs i j = table_set costs (i + 1) (j + 1) v ∧
      v = lev (s1.take (i + 1)).reverse (s2.take (j + 1)).reverse := by
    unfold full_edit_distance_cell
    rw [take_succ_reverse s1 i hi, take_succ_reverse s2 j hj, lev_cons_cons,
      List.getElem?_eq_getElem hi, List.getElem?_eq_getElem hj]
    by_cases heq : s1[i] = s2[j]
    · simp only [heq, if_true]
      exact ⟨_, rfl, e1⟩
    · have hne : ¬ (some s1[i] = some s2[j]) := by
        intro hh; exact heq (Option.some.inj hh)
      simp only [hne, heq, if_false]
      refine ⟨_, rfl, ?_⟩
      rw [e1, e2, e3]
      omega
  obtain ⟨v, hv, hspec⟩ := hcell
  rw [hv]
  exact full_edit_distance_inv_set s1 s2 costs (i + 1) (j + 1) v (by omega) (by omega) h hspec

/-- One row of the table of `full_edit_distance`. -/
theorem full_edit_distance_row_inv {T : Type} [DecidableEq T] (s1 s2 : List T) (i : Nat)
    (hi : i < s1.length) :
    ∀ k, k ≤ s2.length → ∀ costs, full_edit_distance_inv s1 s2 costs (i + 1) 1 →
      full_edit_distance_inv s1 s2
        ((List.range k).foldl (fun costs j => full_edit_distance_cell s1 s2 costs i j) costs)
        (i + 1) (k + 1) := by
  intro k
  induction k with
  | zero => intro _ costs h; simpa using h
  | succ k ih =>
    intro hk costs h
    rw [List.range_succ, List.foldl_append]
    exact full_edit_distance_cell_inv s1 s2 _ i k hi (by omega) (ih (by omega) costs h)

/-- The rows of the table of `full_edit_distance`. -/
theorem full_edit_distance_rows_inv {T : Type} [DecidableEq T] (s1 s2 : List T) :
    ∀ k, k ≤ s1.length → ∀ costs, full_edit_distance_inv s1 s2 costs 1 0 →
      full_edit_distance_inv s1 s2
        ((List.range k).foldl
          (fun costs i =>
            (List.range s2.length).foldl
              (fun costs j => full_edit_distance_cell s1 s2 costs i j)
              (table_set costs (i + 1) 0 (i + 1)))
          costs)
        (k + 1) 0 := by
  intro k
  induction k with
  | zero => intro _ costs h; simpa using h
  | succ k ih =>
    intro hk costs h
    rw [List.range_succ (n := k), List.foldl_append]
    simp only [List.foldl_cons, List.foldl_nil]
    have h1 := ih (by omega) costs h
    have h2 := full_edit_distance_inv_set s1 s2 _ (k + 1) 0 (k + 1) (by omega) (by omega) h1
      (by
        simp only [List.take_zero, List.reverse_nil, lev_nil_right, List.length_reverse,
          List.length_take]
        omega)
    have h3 := full_edit_distance_row_inv s1 s2 k (by omega) s2.length (le_refl _) _ h2
    exact full_edit_distance_inv_next s1 s2 _ (k + 1) h3

/-- Every cell of the table of `full_edit_distance` holds the distance of its
two leading segments. -/
theorem full_edit_distance_costs_eq {T : Type} [DecidableEq T] (s1 s2 : List T) (i j : Nat)
    (hi : i ≤ s1.length) (hj : j ≤ s2.length) :
    table_get (full_edit_distance_costs s1 s2) i j
      = lev (s1.take i).reverse (s2.take j).reverse := by
  have h0 := full_edit_distance_row0 s1 s2 (s2.length + 1) (le_refl _)
  have h1 := full_edit_distance_inv_next s1 s2 _ 0 h0
  have h2 := full_edit_distance_rows_inv s1 s2 s1.length (le_refl _) _ h1
  exact h2.2.2 i j hi hj (Or.inl (by omega))

/-- The four cases of the traceback cover every cell off the first row and
column. -/
theorem full_edit_distance_cases {T : Type} [DecidableEq T] (s1 s2 : List T) (i j : Nat)
    (hi0 : 0 < i) (hj0 : 0 < j) (hi : i ≤ s1.length) (hj : j ≤ s2.length) :
    table_get (full_edit_distance_costs s1 s2) i j
        = table_get (full_edit_distance_costs s1 s2) (i - 1) (j - 1) ∨
      table_get (full_edit_distance_costs s1 s2) i j
        = table_get (full_edit_distance_costs s1 s2) (i - 1) (j - 1) + 1 ∨
      table_get (full_edit_distance_costs s1 s2) i j
        = table_get (full_edit_distance_costs s1 s2) (i - 1) j + 1 ∨
      table_get (full_edit_distance_costs s1 s2) i j
        = table_get (full_edit_distance_costs s1 s2) i (j - 1) + 1 := by
  have key : ∀ (p : Prop) [Decidable p] (c0 c1 c2 c3 l1 l2 l3 : Nat),
      c0 = (if p then l1 else 1 + min l2 (min l3 l1)) → c1 = l1 → c2 = l2 → c3 = l3 →
      c0 = c1 ∨ c0 = c1 + 1 ∨ c0 = c2 + 1 ∨ c0 = c3 + 1 := by
    intro p _ c0 c1 c2 c3 l1 l2 l3 h0 h1 h2 h3
    subst h1 h2 h3
    split at h0 <;> omega
  obtain ⟨i0, rfl⟩ : ∃ i0, i = i0 + 1 := ⟨i - 1, by omega⟩
  obtain ⟨j0, rfl⟩ : ∃ j0, j = j0 + 1 := ⟨j - 1, by omega⟩
  have e0 := full_edit_distance_costs_eq s1 s2 (i0 + 1) (j0 + 1) hi hj
  have e1 := full_edit_distance_costs_eq s1 s2 i0 j0 (by omega) (by omega)
  have e2 := full_edit_distance_costs_eq s1 s2 i0 (j0 + 1) (by omega) hj
  have e3 := full_edit_distance_costs_eq s1 s2 (i0 + 1) j0 hi (by omega)
  rw [take_succ_reverse s1 i0 (by omega), take_succ_reverse s2 j0 (by omega), lev_cons_cons]
    at e0
  rw [take_succ_reverse s2 j0 (by omega)] at e2
  rw [take_succ_reverse s1 i0 (by omega)] at e3
  rw [Nat.add_sub_cancel, Nat.add_sub_cancel]
  exact key _ _ _ _ _ _ _ _ e0 e1 e2 e3

/-- The traceback loop ends without failure from every cell of the table. -/
theorem full_edit_distance_traceback_ok {T : Type} [DecidableEq T] (s1 s2 : List T) :
    ∀ (fuel i j : Nat) (v1 v2 : List Nat), i ≤ s1.length → j ≤ s2.length → i + j ≤ fuel →
      ∃ v, full_edit_distance_traceback (full_edit_distance_costs s1 s2) fuel i j v1 v2
        = Except.ok v := by
  intro fuel
  induction fuel with
  | zero =>
    intro i j v1 v2 _ _ h
    rw [full_edit_distance_traceback, if_neg (by omega)]
    exact ⟨_, rfl⟩
  | succ fuel ih =>
    intro i j v1 v2 hi hj h
    rw [full_edit_distance_traceback]
    by_cases hpos : i > 0 ∧ j > 0
    · rw [if_pos hpos]
      have hc := full_edit_distance_cases s1 s2 i j hpos.1 hpos.2 hi hj
      split
      · exact ih _ _ _ _ (by omega) (by omega) (by omega)
      · split
        · exact ih _ _ _ _ (by omega) (by omega) (by omega)
        · split
          · exact ih _ _ _ _ (by omega) (by omega) (by omega)
          · split
            · exact ih _ _ _ _ (by omega) (by omega) (by omega)
            · rename_i h1 h2 h3 h4
              rcases hc with hc | hc | hc | hc
              · exact absurd hc h1
              · exact absurd hc h2
              · exact absurd hc h3
              · exact absurd hc h4
    · rw [if_neg hpos]
      exact ⟨_, rfl⟩

/-- C31: for all non-empty sequences `s1` and `s2`, `full_edit_distance`
returns a result, so the traceback loop ends and does not reach its
`assert(false)`; and at every cell `(i, j)` with `i, j > 0` of the table the
cost equals the diagonal cost, the diagonal cost + 1, the upper cost + 1 or
the left cost + 1. -/
theorem full_edit_distance_traceback_total {T : Type} [DecidableEq T] (s1 s2 : List T)
    (h1 : s1 ≠ []) (h2 : s2 ≠ []) :
    (∃ v, full_edit_distance s1 s2 = Except.ok v) ∧
      ∀ i j, 0 < i → 0 < j → i ≤ s1.length → j ≤ s2.length →
        table_get (full_edit_distance_costs s1 s2) i j
            = table_get (full_edit_distance_costs s1 s2) (i - 1) (j - 1) ∨
          table_get (full_edit_distance_costs s1 s2) i j
            = table_get (full_edit_distance_costs s1 s2) (i - 1) (j - 1) + 1 ∨
          table_get (full_edit_distance_costs s1 s2) i j
            = table_get (full_edit_distance_costs s1 s2) (i - 1) j + 1 ∨
          table_get (full_edit_distance_costs s1 s2) i j
            = table_get (full_edit_distance_costs s1 s2) i (j - 1) + 1 := by
  refine ⟨?_, fun i j hi0 hj0 hi hj => full_edit_distance_cases s1 s2 i j hi0 hj0 hi hj⟩
  have hm : s1.length ≠ 0 := fun h => h1 (List.length_eq_zero.mp h)
  have hn : s2.length ≠ 0 := fun h => h2 (List.length_eq_zero.mp h)
  obtain ⟨v, hv⟩ := full_edit_distance_traceback_ok s1 s2 (s1.length + s2.length) s1.length
    s2.length [] [] (le_refl _) (le_refl _) (le_refl _)
  unfold full_edit_distance
  simp only [hm, hn, if_false, hv]
  exact ⟨_, rfl⟩

theorem full_edit_distance_traceback_total_witness :
    (∃ v, full_edit_distance [0, 1, 2] [0, 2] = Except.ok v) ∧
      ∀ i j, 0 < i → 0 < j → i ≤ [0, 1, 2].length → j ≤ [0, 2].length →
        table_get (full_edit_distance_costs [0, 1, 2] [0, 2]) i j
            = table_get (full_edit_distance_costs [0, 1, 2] [0, 2]) (i - 1) (j - 1) ∨
          table_get (full_edit_distance_costs [0, 1, 2] [0, 2]) i j
            = table_get (full_edit_distance_costs [0, 1, 2] [0, 2]) (i - 1) (j - 1) + 1 ∨
          table_get (full_edit_distance_costs [0, 1, 2] [0, 2]) i j
            = table_get (full_edit_distance_costs [0, 1, 2] [0, 2]) (i - 1) j + 1 ∨
          table_get (full_edit_distance_costs [0, 1, 2] [0, 2]) i j
            = table_get (full_edit_distance_costs [0, 1, 2] [0, 2]) i (j - 1) + 1 :=
  full_edit_distance_traceback_total [0, 1, 2] [0, 2] (by decide) (by decide)

theorem matches_to_distance_example :
    matches_to_distance [7, 7, 7, 7, 7, 7] [0, 1, 4] = [2, 0, 1, 0] ∧
      match_runs 6 (fun p => decide (p ∈ [0, 1, 4])) = [2, 0, 1, 0] ∧
      matches_to_distance [7, 7, 7] [] = [0, 0, 0, 0] ∧
      matches_to_distance [7, 7, 7] [0, 1, 2] = [3] := by
  decide

/-- The scan over a stretch of non-matched positions closes the current run
and adds an empty run for every further position. -/
theorem match_runs_unmatched (is_match : Nat → Bool) :
    ∀ (g p0 : Nat) (d : List Nat) (r : Nat),
      (∀ p, p0 ≤ p → p < p0 + g → is_match p = false) →
      (List.range' p0 g).foldl (match_runs_step is_match) (d, r)
        = if g = 0 then (d, r) else (d ++ [r] ++ List.replicate (g - 1) 0, 0) := by
  intro g
  induction g with
  | zero => intro p0 d r _; simp
  | succ g ih =>
    intro p0 d r h
    rw [List.range'_succ, List.foldl_cons]
    have h0 : is_match p0 = false := h p0 (le_refl _) (by omega)
    have hstep : match_runs_step is_match (d, r) p0 = (d ++ [r], 0) := by
      simp [match_runs_step, h0]
    rw [hstep, ih (p0 + 1) (d ++ [r]) 0 (fun p hp1 hp2 => h p (by omega) (by omega))]
    by_cases hg : g = 0
    · subst hg; simp
    · rw [if_neg hg, if_neg (Nat.succ_ne_zero g)]
      obtain ⟨g1, rfl⟩ : ∃ g1, g = g1 + 1 := ⟨g - 1, by omega⟩
      simp only [Nat.add_sub_cancel, List.replicate_succ, List.append_assoc, List.cons_append,
        List.nil_append]

/-- The loop of `matches_to_distance` from a state that agrees with the scan
of the positions below `P`: the result is the scan of all positions, and its
length and sum are as counted from the state. -/
theorem matches_to_distance_loop (len : Nat) (is_match : Nat → Bool) :
    ∀ (rest : List Nat), rest.Pairwise (fun x y => x < y) →
      ∀ (P : Nat) (d : List Nat) (r : Nat), P ≤ len →
        (∀ y ∈ rest, P ≤ y ∧ y < len) →
        (∀ p, P ≤ p → (is_match p = true ↔ p ∈ rest)) →
        ∃ res : List Nat,
          res = (let st := (rest.map Int.ofNat).foldl matches_to_distance_step
                    (d, r, (P : Int) - 1)
                 st.1 ++ [st.2.1] ++ List.replicate ((len : Int) - st.2.2 - 1).toNat 0) ∧
          res.length + rest.length = d.length + (len - P) + 1 ∧
          res.sum = d.sum + r + rest.length ∧
          res = (let st := (List.range' P (len - P)).foldl (match_runs_step is_match) (d, r)
                 st.1 ++ [st.2]) := by
  intro rest
  induction rest with
  | nil =>
    intro _ P d r hP _ hm
    refine ⟨_, rfl, ?_, ?_, ?_⟩
    · simp only [List.map_nil, List.foldl_nil, List.length_append, List.length_cons,
        List.length_nil, List.length_replicate]
      omega
    · simp
    · rw [match_runs_unmatched is_match (len - P) P d r (fun p hp _ => by
        have := hm p hp
        simp only [List.not_mem_nil, iff_false] at this
        simpa using this)]
      simp only [List.map_nil, List.foldl_nil]
      have e : ((len : Int) - ((P : Int) - 1) - 1).toNat = len - P := by omega
      rw [e]
      by_cases hg : len - P = 0
      · rw [if_pos hg, hg]
        simp
      · rw [if_neg hg]
        obtain ⟨g1, hg1⟩ : ∃ g1, len - P = g1 + 1 := ⟨len - P - 1, by omega⟩
        rw [hg1]
        simp only [Nat.add_sub_cancel, List.replicate_succ', List.append_assoc]
  | cons x rest ih =>
    intro hsort P d r hP hrange hm
    rw [List.pairwise_cons] at hsort
    obtain ⟨hx1, hsort1⟩ := hsort
    have hxP : P ≤ x := (hrange x (List.mem_cons_self _ _)).1
    have hxl : x < len := (hrange x (List.mem_cons_self _ _)).2
    have hun : ∀ p, P ≤ p → p < P + (x - P) → is_match p = false := by
      intro p hp1 hp2
      have h1 := hm p hp1
      have h2 : p ∉ x :: rest := by
        intro hmem
        rcases List.mem_cons.mp hmem with h3 | h3
        · omega
        · have := hx1 p h3
          omega
      cases hb : is_match p with
      | false => rfl
      | true => exact absurd (h1.mp hb) h2
    have hmx : is_match x = true := (hm x hxP).mpr (List.mem_cons_self _ _)
    have hsplit : List.range' P (len - P)
        = List.range' P (x - P) ++ x :: List.range' (x + 1) (len - (x + 1)) := by
      have e1 : len - P = (len - (x + 1) + 1) + (x - P) := by omega
      rw [e1, ← List.range'_append_1, List.range'_succ]
      have e2 : P + (x - P) = x := by omega
      rw [e2]
    have hrest : ∀ y ∈ rest, x + 1 ≤ y ∧ y < len := by
      intro y hy
      have := hx1 y hy
      exact ⟨by omega, (hrange y (List.mem_cons_of_mem _ hy)).2⟩
    have hm1 : ∀ p, x + 1 ≤ p → (is_match p = true ↔ p ∈ rest) := by
      intro p hp
      rw [hm p (by omega)]
      constructor
      · intro h1
        rcases List.mem_cons.mp h1 with h2 | h2
        · omega
        · exact h2
      · exact fun h1 => List.mem_cons_of_mem _ h1
    by_cases hg : x = P
    · subst hg
      obtain ⟨res, e1, e2, e3, e4⟩ := ih hsort1 (x + 1) d (r + 1) (by omega) hrest hm1
      refine ⟨res, ?_, ?_, ?_, ?_⟩
      · rw [e1]
        simp only [List.map_cons, List.foldl_cons]
        have hs : matches_to_distance_step (d, r, (x : Int) - 1) (Int.ofNat x)
            = (d, r + 1, ((x + 1 : Nat) : Int) - 1) := by
          have e5 : Int.ofNat x = (x : Int) - 1 + 1 := by
            simp only [Int.ofNat_eq_coe]; omega
          unfold matches_to_distance_step
          rw [if_pos e5]
          simp only [Int.ofNat_eq_coe, Prod.mk.injEq, true_and]
          push_cast
          omega
        rw [hs]
      · simp only [List.length_cons]
        omega
      · rw [e3]
        simp only [List.length_cons]
        omega
      · rw [e4, hsplit]
        simp only [Nat.sub_self, List.range'_zero, List.nil_append, List.foldl_cons]
        have hs : match_runs_step is_match (d, r) x = (d, r + 1) := by
          simp [match_runs_step, hmx]
        rw [hs]
    · have hlt : P < x := by omega
      obtain ⟨res, e1, e2, e3, e4⟩ := ih hsort1 (x + 1)
        (d ++ [r] ++ List.replicate (x - P - 1) 0) 1 (by omega) hrest hm1
      refine ⟨res, ?_, ?_, ?_, ?_⟩
      · rw [e1]
        simp only [List.map_cons, List.foldl_cons]
        have hs : matches_to_distance_step (d, r, (P : Int) - 1) (Int.ofNat x)
            = (d ++ [r] ++ List.replicate (x - P - 1) 0, 1, ((x + 1 : Nat) : Int) - 1) := by
          have e5 : ¬ (Int.ofNat x = (P : Int) - 1 + 1) := by
            simp only [Int.ofNat_eq_coe]; omega
          have e6 : ((x : Int) - ((P : Int) - 1) - 2).toNat = x - P - 1 := by omega
          unfold matches_to_distance_step
          rw [if_neg e5]
          simp only [Int.ofNat_eq_coe, e6, Prod.mk.injEq, true_and]
          push_cast
          omega
        rw [hs]
      · rw [List.length_cons]
        simp only [List.length_append, List.length_cons, List.length_nil,
          List.length_replicate] at e2
        omega
      · rw [e3]
        simp only [List.sum_append, List.sum_cons, List.sum_nil, List.sum_replicate,
          smul_eq_mul, List.length_cons]
        omega
      · rw [e4, hsplit, List.foldl_append, match_runs_unmatched is_match (x - P) P d r hun,
          if_neg (by omega), List.foldl_cons]
        have hs : match_runs_step is_match (d ++ [r] ++ List.replicate (x - P - 1) 0, 0) x
            = (d ++ [r] ++ List.replicate (x - P - 1) 0, 1) := by
          simp [match_runs_step, hmx]
        rw [hs]

/-- C34: for every sequence `s` and every strictly increasing list of 0-based
match positions, all below `len(s)`, `matches_to_distance` returns a list of
`len(s) - len(matches) + 1` entries whose sum is `len(matches)`, and the list
is the list of the lengths of the maximal runs of consecutive matches that the
non-matched positions delimit. -/
theorem matches_to_distance_runs {T : Type} (s : List T) (matched : List Nat)
    (hsort : matched.Pairwise (fun x y => x < y)) (hlt : ∀ x ∈ matched, x < s.length) :
    (matches_to_distance s (matched.map Int.ofNat)).length
        = s.length - matched.length + 1 ∧
      (matches_to_distance s (matched.map Int.ofNat)).sum = matched.length ∧
      matches_to_distance s (matched.map Int.ofNat)
        = match_runs s.length (fun p => decide (p ∈ matched)) := by
  obtain ⟨res, e1, e2, e3, e4⟩ := matches_to_distance_loop s.length
    (fun p => decide (p ∈ matched)) matched hsort 0 [] 0 (Nat.zero_le _)
    (fun y hy => ⟨Nat.zero_le _, hlt y hy⟩) (fun p _ => by simp)
  have hres : matches_to_distance s (matched.map Int.ofNat) = res := by
    rw [e1]
    rfl
  have hpos : 1 ≤ res.length := by
    rw [e1]
    simp only [List.length_append, List.length_cons, List.length_nil]
    omega
  rw [hres]
  refine ⟨?_, ?_, ?_⟩
  · simp only [List.length_nil, Nat.sub_zero, Nat.zero_add] at e2
    omega
  · rw [e3]
    simp
  · rw [e4, Nat.sub_zero, ← List.range_eq_range']
    rfl

theorem matches_to_distance_runs_witness :
    (matches_to_distance [7, 7, 7, 7, 7, 7] (([0, 1, 4] : List Nat).map Int.ofNat)).length
        = [7, 7, 7, 7, 7, 7].length - ([0, 1, 4] : List Nat).length + 1 ∧
      (matches_to_distance [7, 7, 7, 7, 7, 7] (([0, 1, 4] : List Nat).map Int.ofNat)).sum
        = ([0, 1, 4] : List Nat).length ∧
      matches_to_distance [7, 7, 7, 7, 7, 7] (([0, 1, 4] : List Nat).map Int.ofNat)
        = match_runs [7, 7, 7, 7, 7, 7].length (fun p => decide (p ∈ ([0, 1, 4] : List Nat))) :=
  matches_to_distance_runs [7, 7, 7, 7, 7, 7] [0, 1, 4] (by decide) (by decide)

theorem tensor23_indices_example :
    tensor23_pair_indices [0, 1, 1, 0] = [1, 1, 0, 5, 4, 4] ∧
      tensor23_triple_indices [0, 1, 1, 0] = [5, 4, 4, 20] ∧
      pair_count [0, 1, 1, 0] 0 1 = 2 ∧ triple_count [0, 1, 1, 0] 0 1 1 = 1 ∧
      [7, 2, 4, 3].map tensor23_clip = [0, 2, 0, 3] := by
  decide

end ts
